import Mathlib

/-!
Verification of the generator-based sorting algorithms of `src/algos.js`.

The five generators (`bubbleGen`, `quickGen`, `mergeGen`, `heapGen`, `radixGen`)
mutate a shared numeric array in place and yield step descriptors
(`compare` / `swap` / `set` / `done`).  JS numbers are modelled as exact
rationals; each generator is embedded as a pure function from the initial
array to the final array together with the emitted trace.  Every trace entry
carries the state of the working array at the moment the step is yielded,
so that claims about intermediate states ("the mutation has already happened
when the step is yielded") can be stated directly.
-/

set_option maxHeartbeats 2000000
set_option maxRecDepth 100000

namespace SortViz

open List

/-- Working-array values (JS numbers, modelled as exact rationals). -/
abbrev Val := ℚ

/-- Step descriptors of the generator contract (algos.js line 19).
The second index of a compare is optional: `quickGen` and `radixGen`
emit single-index compares. -/
inductive Step : Type where
  | compare (a : ℤ) (b : Option ℤ)
  | swap (a b : ℤ)
  | set (i : ℤ) (value : Val)
  | done
deriving DecidableEq

/-- A trace pairs every yielded step with the working array state at the
moment of emission (the state after the mutation the step reports). -/
abbrev Trace := List (Step × List Val)

/-- JS array read `arr[i]`: `none` models the `undefined` read off either end. -/
def jsGet (a : List Val) (i : ℤ) : Option Val :=
  if 0 ≤ i then a[i.toNat]? else none

/-- JS array write `arr[i] = v` for indices inside the array.  (Out-of-range
writes never occur in the verified runs; they are modelled as no-ops.) -/
def jsSet (a : List Val) (i : ℤ) (v : Val) : List Val :=
  if 0 ≤ i then a.set i.toNat v else a

/-- The `swap` helper of algos.js (lines 13-17): `t = arr[i]; arr[i] = arr[j];
arr[j] = t`.  When either index is out of range the verified runs never reach
this, and the model leaves the array unchanged. -/
def jsSwap (a : List Val) (i j : ℤ) : List Val :=
  match jsGet a i, jsGet a j with
  | some x, some y => (a.set i.toNat y).set j.toNat x
  | _, _ => a

/-- JS comparison `x < y` where either side may be `undefined`
(comparisons involving `undefined` are false). -/
def oLt (x y : Option Val) : Bool :=
  match x, y with
  | some u, some v => decide (u < v)
  | _, _ => false

/-- JS comparison `x > y` where either side may be `undefined`. -/
def oGt (x y : Option Val) : Bool :=
  match x, y with
  | some u, some v => decide (u > v)
  | _, _ => false

/-- Effect of a step on the working array: `swap` and `set` are the only
mutating steps; `compare` and `done` are pure notifications. -/
def applyStep (a : List Val) : Step → List Val
  | Step.swap i j => jsSwap a i j
  | Step.set i v => jsSet a i v
  | _ => a

/-- Replay of a step list over an initial array. -/
def replay (a : List Val) (ss : List Step) : List Val :=
  ss.foldl applyStep a

/-- The steps of a trace, without the recorded states. -/
def stepsOf (tr : Trace) : List Step :=
  tr.map Prod.fst

/-- State recorded by the last entry of a trace (or the initial array). -/
def lastState (a : List Val) (tr : Trace) : List Val :=
  tr.foldl (fun _ p => p.2) a

/-- A trace is chained when each recorded state is obtained from the previous
one by applying the step it accompanies: the mutation reported by a step has
already happened, and nothing else happened, when the step is yielded. -/
def Chained : List Val → Trace → Prop
  | _, [] => True
  | a, p :: t => p.2 = applyStep a p.1 ∧ Chained p.2 t

/-- A generator run from `a` producing trace `tr` and final array `fin`
is faithful when the trace is chained and ends in the final array. -/
def GoodTrace (a : List Val) (tr : Trace) (fin : List Val) : Prop :=
  Chained a tr ∧ fin = lastState a tr

/-- Validity of the indices of a single step for an array of length `n`. -/
def validStep (n : ℕ) : Step → Bool
  | Step.compare a b =>
      decide (0 ≤ a) && decide (a < n) &&
        (match b with
         | some x => decide (0 ≤ x) && decide (x < n)
         | none => true)
  | Step.swap a b => decide (0 ≤ a) && decide (a < n) && decide (0 ≤ b) && decide (b < n)
  | Step.set i _ => decide (0 ≤ i) && decide (i < n)
  | Step.done => true

/-- Non-decreasing order, the sortedness notion of the spec. -/
def NonDecr (a : List Val) : Prop :=
  List.Sorted (fun x y => x ≤ y) a

theorem chained_append (t₁ : Trace) (a : List Val) (t₂ : Trace) :
    Chained a (t₁ ++ t₂) ↔ Chained a t₁ ∧ Chained (lastState a t₁) t₂ := by
  induction t₁ generalizing a with
  | nil => simp [Chained, lastState]
  | cons p t ih => simp [Chained, lastState, ih, List.foldl_cons, and_assoc]

theorem lastState_append (a : List Val) (t₁ t₂ : Trace) :
    lastState a (t₁ ++ t₂) = lastState (lastState a t₁) t₂ := by
  simp [lastState, List.foldl_append]

theorem goodTrace_nil (a : List Val) : GoodTrace a [] a := by
  exact ⟨trivial, rfl⟩

theorem goodTrace_append {a m fin : List Val} {t₁ t₂ : Trace}
    (h₁ : GoodTrace a t₁ m) (h₂ : GoodTrace m t₂ fin) :
    GoodTrace a (t₁ ++ t₂) fin := by
  refine ⟨?_, ?_⟩
  · rw [chained_append]
    exact ⟨h₁.1, h₁.2 ▸ h₂.1⟩
  · rw [lastState_append, ← h₁.2]
    exact h₂.2

theorem goodTrace_single (a : List Val) (s : Step) :
    GoodTrace a [(s, applyStep a s)] (applyStep a s) := by
  exact ⟨⟨rfl, trivial⟩, rfl⟩

theorem lastState_cons (a : List Val) (p : Step × List Val) (t : Trace) :
    lastState a (p :: t) = lastState p.2 t := rfl

/-! ## Helper lemmas about the array primitives -/

/-- Reading at a natural index with default 0; the canonical reading used in proofs. -/
def geti (a : List Val) (k : ℕ) : Val :=
  a.getD k 0

theorem geti_eq_getElem {a : List Val} {k : ℕ} (h : k < a.length) : geti a k = a[k] :=
  List.getD_eq_getElem a 0 h

theorem jsGet_eq_some {a : List Val} {i : ℤ} (h0 : 0 ≤ i) (hl : i.toNat < a.length) :
    jsGet a i = some (geti a i.toNat) := by
  simp [jsGet, h0, List.getElem?_eq_getElem hl, geti_eq_getElem hl]

theorem jsGet_some_elim {a : List Val} {i : ℤ} {v : Val} (h : jsGet a i = some v) :
    0 ≤ i ∧ i.toNat < a.length ∧ v = geti a i.toNat := by
  by_cases h0 : 0 ≤ i
  · simp only [jsGet, if_pos h0] at h
    have hl : i.toNat < a.length := by
      by_contra hn
      rw [List.getElem?_eq_none (by omega)] at h
      exact Option.noConfusion h
    refine ⟨h0, hl, ?_⟩
    rw [List.getElem?_eq_getElem hl] at h
    rw [geti_eq_getElem hl]
    exact (Option.some_injective _ h).symm
  · simp [jsGet, h0] at h

theorem jsGet_natCast (a : List Val) (k : ℕ) (h : k < a.length) :
    jsGet a (k : ℤ) = some (geti a k) := by
  have := @jsGet_eq_some a (k : ℤ) (by omega) (by simpa using h)
  simpa using this

theorem length_jsSet (a : List Val) (i : ℤ) (v : Val) : (jsSet a i v).length = a.length := by
  unfold jsSet
  split <;> simp

theorem length_jsSwap (a : List Val) (i j : ℤ) : (jsSwap a i j).length = a.length := by
  unfold jsSwap
  split <;> simp

theorem length_applyStep (a : List Val) (s : Step) : (applyStep a s).length = a.length := by
  cases s <;> simp [applyStep, length_jsSet, length_jsSwap]

theorem chained_length {a : List Val} {tr : Trace} (h : Chained a tr) :
    ∀ p ∈ tr, p.2.length = a.length := by
  induction tr generalizing a with
  | nil => intro p hp; cases hp
  | cons q t ih =>
    intro p hp
    rw [List.mem_cons] at hp
    rcases hp with hp | hp
    · rw [hp, h.1, length_applyStep]
    · rw [ih h.2 p hp, h.1, length_applyStep]

theorem set_geti_self (a : List Val) (k : ℕ) : a.set k (geti a k) = a := by
  by_cases h : k < a.length
  · apply List.ext_getElem
    · simp
    · intro n h₁ h₂
      rw [List.getElem_set]
      split
      · subst n; rw [geti_eq_getElem h]
      · rfl
  · exact List.set_eq_of_length_le (by omega)

theorem swapNat_perm_lt (i : ℕ) : ∀ (a : List Val) (j : ℕ), i < j → j < a.length →
    (a.set i (geti a j)).set j (geti a i) ~ a := by
  induction i with
  | zero =>
    intro a j hij hj
    match a, j with
    | c :: t, m + 1 =>
      have hm : m < t.length := by simpa using hj
      have h₁ : geti (c :: t) (m + 1) = geti t m := rfl
      have h₂ : geti (c :: t) 0 = c := rfl
      rw [h₁, h₂]
      show geti t m :: t.set m c ~ c :: t
      have hset : t.set m c = t.take m ++ c :: t.drop (m + 1) :=
        List.set_eq_take_cons_drop c hm
      have ht : t.take m ++ t[m] :: t.drop (m + 1) = t := by
        rw [List.getElem_cons_drop, List.take_append_drop]
      calc geti t m :: t.set m c
          ~ geti t m :: c :: (t.take m ++ t.drop (m + 1)) := by
            rw [hset]; exact List.Perm.cons _ List.perm_middle
        _ ~ c :: geti t m :: (t.take m ++ t.drop (m + 1)) := List.Perm.swap _ _ _
        _ ~ c :: (t.take m ++ t[m] :: t.drop (m + 1)) := by
            rw [geti_eq_getElem hm]
            exact List.Perm.cons _ List.perm_middle.symm
        _ = c :: t := by rw [ht]
  | succ k ih =>
    intro a j hij hj
    match a, j with
    | c :: t, m + 1 =>
      have hm : m < t.length := by simpa using hj
      have h₁ : geti (c :: t) (m + 1) = geti t m := rfl
      have h₂ : geti (c :: t) (k + 1) = geti t k := rfl
      rw [h₁, h₂]
      show c :: (t.set k (geti t m)).set m (geti t k) ~ c :: t
      exact List.Perm.cons _ (ih t m (by omega) hm)

theorem swapNat_perm (a : List Val) (i j : ℕ) (hi : i < a.length) (hj : j < a.length) :
    (a.set i (geti a j)).set j (geti a i) ~ a := by
  rcases lt_trichotomy i j with h | h | h
  · exact swapNat_perm_lt i a j h hj
  · subst h
    rw [List.set_set, set_geti_self]
  · rw [List.set_comm _ _ _ (by omega)]
    exact swapNat_perm_lt j a i h hi

theorem jsSwap_eq {a : List Val} {i j : ℤ} (h0i : 0 ≤ i) (hi : i.toNat < a.length)
    (h0j : 0 ≤ j) (hj : j.toNat < a.length) :
    jsSwap a i j = (a.set i.toNat (geti a j.toNat)).set j.toNat (geti a i.toNat) := by
  unfold jsSwap
  rw [jsGet_eq_some h0i hi, jsGet_eq_some h0j hj]

theorem jsSwap_perm {a : List Val} {i j : ℤ} (h0i : 0 ≤ i) (hi : i.toNat < a.length)
    (h0j : 0 ≤ j) (hj : j.toNat < a.length) :
    jsSwap a i j ~ a := by
  rw [jsSwap_eq h0i hi h0j hj]
  exact swapNat_perm a i.toNat j.toNat hi hj

theorem geti_set_self {a : List Val} {k : ℕ} (h : k < a.length) (v : Val) :
    geti (a.set k v) k = v := by
  rw [geti_eq_getElem (by simpa using h)]
  simp

theorem geti_set_other {a : List Val} {k m : ℕ} (h : m ≠ k) (v : Val) :
    geti (a.set k v) m = geti a m := by
  by_cases hm : m < a.length
  · rw [geti_eq_getElem (by simpa using hm), geti_eq_getElem hm]
    exact List.getElem_set_ne (Ne.symm h) _
  · unfold geti
    rw [List.getD_eq_default _ _ (by simpa using (by omega : a.length ≤ m)),
      List.getD_eq_default _ _ (by omega)]

theorem geti_jsSwap_left {a : List Val} {i j : ℤ} (h0i : 0 ≤ i) (hi : i.toNat < a.length)
    (h0j : 0 ≤ j) (hj : j.toNat < a.length) :
    geti (jsSwap a i j) i.toNat = geti a j.toNat := by
  rw [jsSwap_eq h0i hi h0j hj]
  by_cases h : i.toNat = j.toNat
  · rw [h, geti_set_self (by simpa using hj)]
  · rw [geti_set_other h, geti_set_self hi]

theorem geti_jsSwap_right {a : List Val} {i j : ℤ} (h0i : 0 ≤ i) (hi : i.toNat < a.length)
    (h0j : 0 ≤ j) (hj : j.toNat < a.length) :
    geti (jsSwap a i j) j.toNat = geti a i.toNat := by
  rw [jsSwap_eq h0i hi h0j hj, geti_set_self (by simpa using hj)]

theorem geti_jsSwap_other {a : List Val} {i j : ℤ} {k : ℕ} (hki : k ≠ i.toNat)
    (hkj : k ≠ j.toNat) : geti (jsSwap a i j) k = geti a k := by
  unfold jsSwap
  cases hgi : jsGet a i with
  | none => rfl
  | some x =>
    cases hgj : jsGet a j with
    | none => rfl
    | some y => rw [geti_set_other hkj, geti_set_other hki]

theorem geti_jsSet_self {a : List Val} {i : ℤ} (h0 : 0 ≤ i) (hi : i.toNat < a.length)
    (v : Val) : geti (jsSet a i v) i.toNat = v := by
  rw [jsSet, if_pos h0, geti_set_self hi]

theorem geti_jsSet_other {a : List Val} {i : ℤ} {k : ℕ} (hk : k ≠ i.toNat) (v : Val) :
    geti (jsSet a i v) k = geti a k := by
  unfold jsSet
  split
  · rw [geti_set_other hk]
  · rfl

/-- State of the working array after pulling exactly `k` steps of a trace. -/
def stateAfter (a : List Val) (tr : Trace) (k : ℕ) : List Val :=
  lastState a (tr.take k)

theorem chained_stateAfter {a : List Val} {tr : Trace} (h : Chained a tr) :
    ∀ k, stateAfter a tr k = replay a ((stepsOf tr).take k) := by
  induction tr generalizing a with
  | nil => intro k; simp [stateAfter, lastState, replay, stepsOf]
  | cons p t ih =>
    intro k
    cases k with
    | zero => simp [stateAfter, lastState, replay, stepsOf]
    | succ m =>
      have := ih h.2 m
      simpa [stateAfter, lastState, replay, stepsOf, List.take_succ_cons, h.1] using this

/-! ## Exchange sort (`bubbleGen`, algos.js lines 22-37) -/

/-- Inner pass of `bubbleGen`: `for (j = 0; j < stop; j++) { yield compare;
if (arr[j] > arr[j+1]) { swap; yield swap; swapped = true } }`
with `stop = n - 1 - i`.  Returns the array, the `swapped` flag and the trace. -/
def bubbleInner (a : List Val) (stop : ℕ) (j : ℕ) (sw : Bool) : List Val × Bool × Trace :=
  if j < stop then
    if oGt (jsGet a j) (jsGet a (j + 1)) then
      let a' := jsSwap a j (j + 1)
      let r := bubbleInner a' stop (j + 1) true
      (r.1, r.2.1,
        (Step.compare j (some ((j : ℤ) + 1)), a) :: (Step.swap j ((j : ℤ) + 1), a') :: r.2.2)
    else
      let r := bubbleInner a stop (j + 1) sw
      (r.1, r.2.1, (Step.compare j (some ((j : ℤ) + 1)), a) :: r.2.2)
  else (a, sw, [])
termination_by stop - j

/-- Outer loop of `bubbleGen`: passes `i = 0 .. n-1`, stopping early when a
pass performed no exchange. -/
def bubbleOuter (a : List Val) (n : ℕ) (i : ℕ) : List Val × Trace :=
  if i < n then
    let r := bubbleInner a (n - 1 - i) 0 false
    if r.2.1 then
      let r₂ := bubbleOuter r.1 n (i + 1)
      (r₂.1, r.2.2 ++ r₂.2)
    else (r.1, r.2.2)
  else (a, [])
termination_by n - i

/-- The `bubbleGen` generator (algos.js lines 22-37). -/
def bubbleGen (arr : List Val) : List Val × Trace :=
  let r := bubbleOuter arr arr.length 0
  (r.1, r.2 ++ [(Step.done, r.1)])

theorem goodTrace_cons {a st fin : List Val} {s : Step} {t : Trace}
    (h1 : st = applyStep a s) (h2 : GoodTrace st t fin) :
    GoodTrace a ((s, st) :: t) fin :=
  ⟨⟨h1, h2.1⟩, by rw [lastState_cons]; exact h2.2⟩

theorem oGt_true_elim {x y : Option Val} (h : oGt x y = true) :
    ∃ u v, x = some u ∧ y = some v ∧ v < u := by
  cases x with
  | none => simp [oGt] at h
  | some u =>
    cases y with
    | none => simp [oGt] at h
    | some v =>
      simp only [oGt, decide_eq_true_eq] at h
      exact ⟨u, v, rfl, rfl, h⟩

theorem oGt_false_some {u v : Val} (h : oGt (some u) (some v) = false) : u ≤ v := by
  simp only [oGt, decide_eq_false_iff_not] at h
  exact le_of_not_lt h

theorem oLt_true_elim {x y : Option Val} (h : oLt x y = true) :
    ∃ u v, x = some u ∧ y = some v ∧ u < v := by
  cases x with
  | none => simp [oLt] at h
  | some u =>
    cases y with
    | none => simp [oLt] at h
    | some v =>
      simp only [oLt, decide_eq_true_eq] at h
      exact ⟨u, v, rfl, rfl, h⟩

theorem oLt_false_some {u v : Val} (h : oLt (some u) (some v) = false) : v ≤ u := by
  simp only [oLt, decide_eq_false_iff_not] at h
  exact le_of_not_lt h

theorem jsSwap_perm_all (a : List Val) (i j : ℤ) : List.Perm (jsSwap a i j) a := by
  unfold jsSwap
  cases hgi : jsGet a i with
  | none => exact List.Perm.refl a
  | some x =>
    cases hgj : jsGet a j with
    | none => exact List.Perm.refl a
    | some y =>
      obtain ⟨h0i, hi, hx⟩ := jsGet_some_elim hgi
      obtain ⟨h0j, hj, hy⟩ := jsGet_some_elim hgj
      rw [hx, hy]
      exact swapNat_perm a i.toNat j.toNat hi hj

/-- Unfolding equation for the swapping branch of the inner pass. -/
theorem bubbleInner_eq_swap {a : List Val} {stop j : ℕ} (sw : Bool) (hj : j < stop)
    (hgt : oGt (jsGet a j) (jsGet a (j + 1)) = true) :
    bubbleInner a stop j sw =
      ((bubbleInner (jsSwap a j (j + 1)) stop (j + 1) true).1,
        (bubbleInner (jsSwap a j (j + 1)) stop (j + 1) true).2.1,
        (Step.compare j (some ((j : ℤ) + 1)), a) ::
          (Step.swap j ((j : ℤ) + 1), jsSwap a j (j + 1)) ::
            (bubbleInner (jsSwap a j (j + 1)) stop (j + 1) true).2.2) := by
  rw [bubbleInner, if_pos hj, if_pos hgt]

/-- Unfolding equation for the non-swapping branch of the inner pass. -/
theorem bubbleInner_eq_noswap {a : List Val} {stop j : ℕ} (sw : Bool) (hj : j < stop)
    (hgt : ¬ oGt (jsGet a j) (jsGet a (j + 1)) = true) :
    bubbleInner a stop j sw =
      ((bubbleInner a stop (j + 1) sw).1, (bubbleInner a stop (j + 1) sw).2.1,
        (Step.compare j (some ((j : ℤ) + 1)), a) :: (bubbleInner a stop (j + 1) sw).2.2) := by
  rw [bubbleInner, if_pos hj, if_neg hgt]

/-- Unfolding equation for the exit of the inner pass. -/
theorem bubbleInner_eq_exit {a : List Val} {stop j : ℕ} (sw : Bool) (hj : ¬ j < stop) :
    bubbleInner a stop j sw = (a, sw, []) := by
  rw [bubbleInner, if_neg hj]

/-- Monotonicity of the `swapped` flag: once set it stays set. -/
theorem bubbleInner_true : ∀ (a : List Val) (stop j : ℕ) (sw : Bool), sw = true →
    (bubbleInner a stop j sw).2.1 = true := by
  intro a stop j sw
  induction a, stop, j, sw using bubbleInner.induct with
  | case1 a stop j sw hj hgt a' ih =>
    intro _
    rw [bubbleInner_eq_swap sw hj hgt]
    exact ih rfl
  | case2 a stop j sw hj hgt ih =>
    intro hsw
    rw [bubbleInner_eq_noswap sw hj hgt]
    exact ih hsw
  | case3 a stop j sw hj =>
    intro hsw
    rw [bubbleInner_eq_exit sw hj]
    exact hsw

/-- Basic facts about the inner pass: length, permutation, trace chaining,
no done step, and positions above `stop` untouched. -/
theorem bubbleInner_basic (a : List Val) (stop j : ℕ) (sw : Bool) :
    (bubbleInner a stop j sw).1.length = a.length ∧
    List.Perm (bubbleInner a stop j sw).1 a ∧
    GoodTrace a (bubbleInner a stop j sw).2.2 (bubbleInner a stop j sw).1 ∧
    Step.done ∉ stepsOf (bubbleInner a stop j sw).2.2 ∧
    (∀ k, stop < k → geti (bubbleInner a stop j sw).1 k = geti a k) := by
  induction a, stop, j, sw using bubbleInner.induct with
  | case1 a stop j sw hj hgt a' ih =>
    rw [bubbleInner_eq_swap sw hj hgt]
    obtain ⟨ihl, ihp, ihg, ihd, ihu⟩ := ih
    refine ⟨?_, ?_, ?_, ?_, ?_⟩
    · rw [ihl, length_jsSwap]
    · exact ihp.trans (jsSwap_perm_all a _ _)
    · refine goodTrace_cons rfl (goodTrace_cons ?_ ihg)
      simp [applyStep]
    · simp only [stepsOf, List.map_cons, List.mem_cons] at ihd ⊢
      push_neg
      exact ⟨by simp, by simp, fun hmem => ihd hmem⟩
    · intro k hk
      rw [ihu k hk]
      have h1 : k ≠ ((j : ℤ)).toNat := by omega
      have h2 : k ≠ ((j : ℤ) + 1).toNat := by omega
      exact geti_jsSwap_other h1 h2
  | case2 a stop j sw hj hgt ih =>
    rw [bubbleInner_eq_noswap sw hj hgt]
    obtain ⟨ihl, ihp, ihg, ihd, ihu⟩ := ih
    refine ⟨ihl, ihp, goodTrace_cons rfl ihg, ?_, ihu⟩
    simp only [stepsOf, List.map_cons, List.mem_cons] at ihd ⊢
    push_neg
    exact ⟨by simp, fun hmem => ihd hmem⟩
  | case3 a stop j sw hj =>
    rw [bubbleInner_eq_exit sw hj]
    exact ⟨rfl, List.Perm.refl a, goodTrace_nil a, by simp [stepsOf], fun k _ => rfl⟩

/-- All step indices of the inner pass are valid for the array length. -/
theorem bubbleInner_valid (a : List Val) (stop j : ℕ) (sw : Bool) (hstop : stop < a.length) :
    ∀ s ∈ stepsOf (bubbleInner a stop j sw).2.2, validStep a.length s = true := by
  induction a, stop, j, sw using bubbleInner.induct with
  | case1 a stop j sw hj hgt a' ih =>
    rw [bubbleInner_eq_swap sw hj hgt]
    intro s hs
    have hstop' : stop < (jsSwap a (j : ℤ) ((j : ℤ) + 1)).length := by
      rwa [length_jsSwap]
    have hlen : (jsSwap a (j : ℤ) ((j : ℤ) + 1)).length = a.length := length_jsSwap a _ _
    simp only [stepsOf, List.map_cons, List.mem_cons] at hs
    rcases hs with hs | hs | hs
    · subst hs
      simp only [validStep, Bool.and_eq_true, decide_eq_true_eq]
      refine ⟨⟨by omega, by omega⟩, by omega, by omega⟩
    · subst hs
      simp only [validStep, Bool.and_eq_true, decide_eq_true_eq]
      refine ⟨⟨⟨by omega, by omega⟩, by omega⟩, by omega⟩
    · have := ih hstop' s hs
      rwa [hlen] at this
  | case2 a stop j sw hj hgt ih =>
    rw [bubbleInner_eq_noswap sw hj hgt]
    intro s hs
    simp only [stepsOf, List.map_cons, List.mem_cons] at hs
    rcases hs with hs | hs
    · subst hs
      simp only [validStep, Bool.and_eq_true, decide_eq_true_eq]
      refine ⟨⟨by omega, by omega⟩, by omega, by omega⟩
    · exact ih hstop s hs
  | case3 a stop j sw hj =>
    rw [bubbleInner_eq_exit sw hj]
    intro s hs
    simp [stepsOf] at hs

/-- The inner pass bubbles the maximum of the processed range to position
`stop`, and that maximum is one of the original values at index at most `stop`. -/
theorem bubbleInner_max (a : List Val) (stop j : ℕ) (sw : Bool) (hstop : stop < a.length)
    (hj : j ≤ stop) (hpre : ∀ k, k ≤ j → geti a k ≤ geti a j) :
    (∀ k, k ≤ stop →
      geti (bubbleInner a stop j sw).1 k ≤ geti (bubbleInner a stop j sw).1 stop) ∧
    (∃ m, m ≤ stop ∧ geti (bubbleInner a stop j sw).1 stop = geti a m) := by
  induction a, stop, j, sw using bubbleInner.induct with
  | case1 a stop j sw hjs hgt a' ih =>
    rw [bubbleInner_eq_swap sw hjs hgt]
    obtain ⟨u, v, hu, hv, huv⟩ := oGt_true_elim hgt
    obtain ⟨h0j, hjl, hju⟩ := jsGet_some_elim hu
    obtain ⟨h0j1, hj1l, hj1v⟩ := jsGet_some_elim hv
    have e1 : ((j : ℤ)).toNat = j := by omega
    have e2 : ((j : ℤ) + 1).toNat = j + 1 := by omega
    rw [e1] at hju hjl
    rw [e2] at hj1v hj1l
    have hstop' : stop < (jsSwap a (j : ℤ) ((j : ℤ) + 1)).length := by rwa [length_jsSwap]
    have hsl : geti (jsSwap a (j : ℤ) ((j : ℤ) + 1)) j = geti a (j + 1) := by
      have := geti_jsSwap_left h0j (e1 ▸ hjl) h0j1 (e2 ▸ hj1l)
      rwa [e1, e2] at this
    have hsr : geti (jsSwap a (j : ℤ) ((j : ℤ) + 1)) (j + 1) = geti a j := by
      have := geti_jsSwap_right h0j (e1 ▸ hjl) h0j1 (e2 ▸ hj1l)
      rwa [e1, e2] at this
    have hso : ∀ k, k ≠ j → k ≠ j + 1 →
        geti (jsSwap a (j : ℤ) ((j : ℤ) + 1)) k = geti a k := by
      intro k hk1 hk2
      exact geti_jsSwap_other (by omega) (by omega)
    have hvu : geti a (j + 1) < geti a j := by
      rw [hju] at huv
      rw [hj1v] at huv
      exact huv
    have hpre' : ∀ k, k ≤ j + 1 →
        geti (jsSwap a (j : ℤ) ((j : ℤ) + 1)) k ≤
          geti (jsSwap a (j : ℤ) ((j : ℤ) + 1)) (j + 1) := by
      intro k hk
      rcases Nat.lt_or_ge k j with hkj | hkj
      · rw [hso k (by omega) (by omega), hsr]
        exact hpre k (by omega)
      · by_cases hkj' : k = j
        · subst hkj'
          rw [hsl, hsr]
          exact le_of_lt hvu
        · have : k = j + 1 := by omega
          subst this
          exact le_refl _
    obtain ⟨ihmax, m, hm, hmv⟩ := ih hstop' (by omega) hpre'
    refine ⟨ihmax, ?_⟩
    by_cases hmj : m = j
    · exact ⟨j + 1, by omega, by rw [hmv, hmj, hsl]⟩
    · by_cases hmj1 : m = j + 1
      · exact ⟨j, by omega, by rw [hmv, hmj1, hsr]⟩
      · exact ⟨m, hm, by rw [hmv, hso m hmj hmj1]⟩
  | case2 a stop j sw hjs hgt ih =>
    rw [bubbleInner_eq_noswap sw hjs hgt]
    have hjl : j < a.length := by omega
    have hj1l : j + 1 < a.length := by omega
    have hle : geti a j ≤ geti a (j + 1) := by
      have h1 := jsGet_natCast a j hjl
      have h2 : jsGet a ((j : ℤ) + 1) = some (geti a (j + 1)) := by
        have := jsGet_natCast a (j + 1) hj1l
        rwa [Nat.cast_add, Nat.cast_one] at this
      rw [Bool.not_eq_true, h1, h2] at hgt
      exact oGt_false_some hgt
    have hpre' : ∀ k, k ≤ j + 1 → geti a k ≤ geti a (j + 1) := by
      intro k hk
      rcases Nat.lt_or_ge k (j + 1) with hkj | hkj
      · exact le_trans (hpre k (by omega)) hle
      · have : k = j + 1 := by omega
        rw [this]
    exact ih hstop (by omega) hpre'
  | case3 a stop j sw hjs =>
    rw [bubbleInner_eq_exit sw hjs]
    have hj' : j = stop := by omega
    subst hj'
    exact ⟨fun k hk => hpre k hk, j, le_refl j, rfl⟩

/-- If the `swapped` flag comes back false, the pass changed nothing and every
adjacent pair it inspected was already in order. -/
theorem bubbleInner_nosw : ∀ (a : List Val) (stop j : ℕ) (sw : Bool), sw = false →
    stop < a.length →
    (bubbleInner a stop j sw).2.1 = false →
    (bubbleInner a stop j sw).1 = a ∧
    ∀ k, j ≤ k → k < stop → geti a k ≤ geti a (k + 1) := by
  intro a stop j sw
  induction a, stop, j, sw using bubbleInner.induct with
  | case1 a stop j sw hjs hgt a' ih =>
    intro hsw hstop h
    rw [bubbleInner_eq_swap sw hjs hgt] at h
    have := bubbleInner_true (jsSwap a (j : ℤ) ((j : ℤ) + 1)) stop (j + 1) true rfl
    simp only at h
    rw [this] at h
    exact absurd h (by simp)
  | case2 a stop j sw hjs hgt ih =>
    intro hsw hstop h
    rw [bubbleInner_eq_noswap sw hjs hgt] at h
    obtain ⟨iha, ihadj⟩ := ih hsw hstop h
    refine ⟨by rw [bubbleInner_eq_noswap sw hjs hgt]; exact iha, ?_⟩
    intro k hk1 hk2
    rcases Nat.eq_or_lt_of_le hk1 with hk' | hk'
    · rw [← hk']
      have hjl : j < a.length := by omega
      have hj1l : j + 1 < a.length := by omega
      have h1 := jsGet_natCast a j hjl
      have h2 : jsGet a ((j : ℤ) + 1) = some (geti a (j + 1)) := by
        have := jsGet_natCast a (j + 1) hj1l
        rwa [Nat.cast_add, Nat.cast_one] at this
      rw [Bool.not_eq_true, h1, h2] at hgt
      exact oGt_false_some hgt
    · exact ihadj k (by omega) hk2
  | case3 a stop j sw hjs =>
    intro hsw hstop h
    rw [bubbleInner_eq_exit sw hjs]
    exact ⟨rfl, fun k hk1 hk2 => by omega⟩

theorem le_of_adjacent_le (a : List Val) (hi : ℕ)
    (h : ∀ k, k < hi → geti a k ≤ geti a (k + 1)) :
    ∀ p q, p ≤ q → q ≤ hi → geti a p ≤ geti a q := by
  intro p q
  induction q with
  | zero =>
    intro hpq _
    have : p = 0 := by omega
    rw [this]
  | succ m ih =>
    intro hpq hq
    rcases Nat.eq_or_lt_of_le hpq with hp' | hp'
    · rw [hp']
    · exact le_trans (ih (by omega) (by omega)) (h m (by omega))

theorem nonDecr_of_geti {a : List Val}
    (h : ∀ p q, p < q → q < a.length → geti a p ≤ geti a q) : NonDecr a := by
  unfold NonDecr
  rw [List.Sorted, List.pairwise_iff_getElem]
  intro p q hp hq hpq
  have := h p q hpq hq
  rwa [geti_eq_getElem hp, geti_eq_getElem hq] at this

/-- Invariant of the outer loop: the suffix from position `s` is sorted and
dominates every element before it. -/
def OuterInv (a : List Val) (s : ℕ) : Prop :=
  ∀ k p, k ≤ p → s ≤ p → p < a.length → geti a k ≤ geti a p

/-- Unfolding equations for the outer loop. -/
theorem bubbleOuter_eq_cont {a : List Val} {n i : ℕ} (hi : i < n)
    (hsw : (bubbleInner a (n - 1 - i) 0 false).2.1 = true) :
    bubbleOuter a n i =
      ((bubbleOuter (bubbleInner a (n - 1 - i) 0 false).1 n (i + 1)).1,
        (bubbleInner a (n - 1 - i) 0 false).2.2 ++
          (bubbleOuter (bubbleInner a (n - 1 - i) 0 false).1 n (i + 1)).2) := by
  rw [bubbleOuter, if_pos hi, if_pos hsw]

theorem bubbleOuter_eq_stop {a : List Val} {n i : ℕ} (hi : i < n)
    (hsw : ¬ (bubbleInner a (n - 1 - i) 0 false).2.1 = true) :
    bubbleOuter a n i =
      ((bubbleInner a (n - 1 - i) 0 false).1, (bubbleInner a (n - 1 - i) 0 false).2.2) := by
  rw [bubbleOuter, if_pos hi, if_neg hsw]

theorem bubbleOuter_eq_exit {a : List Val} {n i : ℕ} (hi : ¬ i < n) :
    bubbleOuter a n i = (a, []) := by
  rw [bubbleOuter, if_neg hi]

theorem bubbleOuter_spec : ∀ (a : List Val) (n i : ℕ), n = a.length →
    OuterInv a (n - i) →
    (bubbleOuter a n i).1.length = a.length ∧
    List.Perm (bubbleOuter a n i).1 a ∧
    GoodTrace a (bubbleOuter a n i).2 (bubbleOuter a n i).1 ∧
    (∀ s ∈ stepsOf (bubbleOuter a n i).2, validStep a.length s = true) ∧
    Step.done ∉ stepsOf (bubbleOuter a n i).2 ∧
    NonDecr (bubbleOuter a n i).1 := by
  intro a n i
  induction a, n, i using bubbleOuter.induct with
  | case1 a n i hi r hsw ih =>
    intro hn hinv
    rw [bubbleOuter_eq_cont hi hsw]
    have hstop : n - 1 - i < a.length := by omega
    obtain ⟨bl, bp, bg, bd, bu⟩ := bubbleInner_basic a (n - 1 - i) 0 false
    obtain ⟨bmax, m, hm, hmv⟩ :=
      bubbleInner_max a (n - 1 - i) 0 false hstop (by omega)
        (fun k hk => by interval_cases k; exact le_refl _)
    have hbv := bubbleInner_valid a (n - 1 - i) 0 false hstop
    set b := (bubbleInner a (n - 1 - i) 0 false).1 with hb
    have hn' : n = b.length := by rw [bl, ← hn]
    have hinv' : OuterInv b (n - (i + 1)) := by
      intro k p hkp hsp hpl
      have hpl' : p < a.length := by rwa [bl] at hpl
      have hstop_eq : n - (i + 1) = n - 1 - i := by omega
      rw [hstop_eq] at hsp
      rcases Nat.eq_or_lt_of_le hsp with hps | hps
      · rw [← hps]
        exact bmax k (by omega)
      · rw [bu p (by omega)]
        rcases le_or_lt k (n - 1 - i) with hks | hks
        · calc geti b k ≤ geti b (n - 1 - i) := bmax k hks
            _ = geti a m := hmv
            _ ≤ geti a p := hinv m p (by omega) (by omega) hpl'
        · rw [bu k (by omega)]
          exact hinv k p hkp (by omega) hpl'
    obtain ⟨ol, op, og, ov, od, os⟩ := ih hn' hinv'
    refine ⟨?_, ?_, ?_, ?_, ?_, os⟩
    · rw [ol, bl]
    · exact op.trans bp
    · exact goodTrace_append bg og
    · intro s hs
      simp only [stepsOf, List.map_append, List.mem_append] at hs
      rcases hs with hs | hs
      · exact hbv s hs
      · have := ov s hs
        rwa [bl] at this
    · simp only [stepsOf, List.map_append, List.mem_append]
      push_neg
      exact ⟨bd, od⟩
  | case2 a n i hi r hsw =>
    intro hn hinv
    rw [bubbleOuter_eq_stop hi hsw]
    have hstop : n - 1 - i < a.length := by omega
    rw [Bool.not_eq_true] at hsw
    obtain ⟨bfix, badj⟩ := bubbleInner_nosw a (n - 1 - i) 0 false rfl hstop hsw
    obtain ⟨bl, bp, bg, bd, bu⟩ := bubbleInner_basic a (n - 1 - i) 0 false
    have hbv := bubbleInner_valid a (n - 1 - i) 0 false hstop
    refine ⟨bl, bp, bg, hbv, bd, ?_⟩
    rw [bfix]
    refine nonDecr_of_geti ?_
    intro p q hpq hql
    rcases le_or_lt q (n - 1 - i) with hqs | hqs
    · exact le_of_adjacent_le a (n - 1 - i) (fun k hk => badj k (by omega) hk) p q
        (by omega) hqs
    · exact hinv p q (by omega) (by omega) hql
  | case3 a n i hi =>
    intro hn hinv
    rw [bubbleOuter_eq_exit hi]
    have h0 : n - i = 0 := by omega
    rw [h0] at hinv
    refine ⟨rfl, List.Perm.refl a, goodTrace_nil a, ?_, by simp [stepsOf], ?_⟩
    · intro s hs
      simp [stepsOf] at hs
    · exact nonDecr_of_geti fun p q hpq hq => hinv p q (by omega) (by omega) hq

theorem valid_states_of {arr : List Val} {tr : Trace} (hg : Chained arr tr)
    (hv : ∀ s ∈ stepsOf tr, validStep arr.length s = true) :
    ∀ p ∈ tr, validStep p.2.length p.1 = true := by
  intro p hp
  rw [chained_length hg p hp]
  exact hv p.1 (List.mem_map_of_mem Prod.fst hp)

/-- Bundle of verified facts about a full generator run. -/
def GenOk (arr : List Val) (out : List Val × Trace) : Prop :=
  NonDecr out.1 ∧
  List.Perm out.1 arr ∧
  GoodTrace arr out.2 out.1 ∧
  (∀ s ∈ stepsOf out.2, validStep arr.length s = true) ∧
  (stepsOf out.2).count Step.done = 1 ∧
  (stepsOf out.2).getLast? = some Step.done

theorem genOk_of_parts {arr fin : List Val} {body : Trace}
    (hs : NonDecr fin) (hp : List.Perm fin arr) (hg : GoodTrace arr body fin)
    (hv : ∀ s ∈ stepsOf body, validStep arr.length s = true)
    (hd : Step.done ∉ stepsOf body) :
    GenOk arr (fin, body ++ [(Step.done, fin)]) := by
  refine ⟨hs, hp, ?_, ?_, ?_, ?_⟩
  · refine goodTrace_append hg ?_
    exact ⟨⟨rfl, trivial⟩, rfl⟩
  · intro s hsm
    simp only [stepsOf, List.map_append, List.mem_append, List.map_cons] at hsm
    rcases hsm with hsm | hsm
    · exact hv s hsm
    · simp only [List.map_nil, List.mem_singleton] at hsm
      rw [hsm]
      rfl
  · simp only [stepsOf, List.map_append, List.count_append, List.map_cons, List.map_nil]
    have hz : List.count Step.done (List.map Prod.fst body) = 0 := by
      rw [List.count_eq_zero_of_not_mem]
      exact hd
    rw [hz]
    rfl
  · simp only [stepsOf, List.map_append, List.map_cons, List.map_nil]
    exact List.getLast?_concat _

theorem bubbleGen_ok (arr : List Val) : GenOk arr (bubbleGen arr) := by
  obtain ⟨l, p, g, v, d, s⟩ :=
    bubbleOuter_spec arr arr.length 0 rfl (fun k q hkq hsq hql => by omega)
  exact genOk_of_parts s p g v d

theorem bubbleGen_short (arr : List Val) (h : arr.length ≤ 1) :
    (bubbleGen arr).1 = arr ∧ stepsOf (bubbleGen arr).2 = [Step.done] := by
  have houter : bubbleOuter arr arr.length 0 = (arr, []) := by
    rcases Nat.lt_or_ge arr.length 1 with h1 | h1
    · exact bubbleOuter_eq_exit (by omega)
    · have hlen : arr.length = 1 := by omega
      have hsw : ¬ (bubbleInner arr (arr.length - 1 - 0) 0 false).2.1 = true := by
        rw [hlen]
        rw [bubbleInner_eq_exit false (by omega)]
        simp
      rw [bubbleOuter_eq_stop (by omega) hsw]
      rw [hlen]
      rw [bubbleInner_eq_exit false (by omega)]
  rw [bubbleGen, houter]
  exact ⟨rfl, rfl⟩

/-- Checks that every `swap` step of a trace was emitted on a strict inversion:
the values at the swapped indices in the state just before the swap satisfied
`arr[a] > arr[b]`. -/
def swapInvOk (prev : List Val) : Trace → Bool
  | [] => true
  | (s, st) :: t =>
    (match s with
     | Step.swap i j => oGt (jsGet prev i) (jsGet prev j)
     | _ => true) && swapInvOk st t

theorem swapInvOk_append (t₁ : Trace) (prev : List Val) (t₂ : Trace) :
    swapInvOk prev (t₁ ++ t₂) =
      (swapInvOk prev t₁ && swapInvOk (lastState prev t₁) t₂) := by
  induction t₁ generalizing prev with
  | nil => simp [swapInvOk, lastState]
  | cons p t ih =>
    rcases p with ⟨s, st⟩
    simp only [List.cons_append, swapInvOk, lastState_cons, Bool.and_assoc]
    rw [show t.append t₂ = t ++ t₂ from rfl, ih st]

theorem bubbleInner_swapInv (a : List Val) (stop j : ℕ) (sw : Bool) :
    swapInvOk a (bubbleInner a stop j sw).2.2 = true := by
  induction a, stop, j, sw using bubbleInner.induct with
  | case1 a stop j sw hj hgt a' ih =>
    rw [bubbleInner_eq_swap sw hj hgt]
    simp only [swapInvOk, Bool.true_and, Bool.and_eq_true]
    exact ⟨hgt, ih⟩
  | case2 a stop j sw hj hgt ih =>
    rw [bubbleInner_eq_noswap sw hj hgt]
    simp only [swapInvOk, Bool.true_and]
    exact ih
  | case3 a stop j sw hj =>
    rw [bubbleInner_eq_exit sw hj]
    rfl

theorem bubbleOuter_swapInv (a : List Val) (n i : ℕ) :
    swapInvOk a (bubbleOuter a n i).2 = true := by
  induction a, n, i using bubbleOuter.induct with
  | case1 a n i hi r hsw ih =>
    rw [bubbleOuter_eq_cont hi hsw]
    rw [swapInvOk_append]
    obtain ⟨_, _, hg, _, _⟩ := bubbleInner_basic a (n - 1 - i) 0 false
    rw [bubbleInner_swapInv, ← hg.2]
    simpa using ih
  | case2 a n i hi r hsw =>
    rw [bubbleOuter_eq_stop hi hsw]
    exact bubbleInner_swapInv a (n - 1 - i) 0 false
  | case3 a n i hi =>
    rw [bubbleOuter_eq_exit hi]
    rfl

theorem bubbleGen_swapInv (arr : List Val) :
    swapInvOk arr (bubbleGen arr).2 = true := by
  rw [bubbleGen]
  rw [swapInvOk_append, bubbleOuter_swapInv]
  rfl

/-! ## Partition sort (`quickGen`, algos.js lines 40-68) -/

theorem oLt_none_right (x : Option Val) : oLt x none = false := by
  cases x <;> rfl

theorem oGt_none_right (x : Option Val) : oGt x none = false := by
  cases x <;> rfl

/-- Left scan of the Hoare partition:
`while (arr[i] < pivot) { yield compare(i); i++ }`. -/
def scanL (a : List Val) (p : Option Val) (i : ℤ) : ℤ × Trace :=
  if h : oLt (jsGet a i) p = true then
    ((scanL a p (i + 1)).1, (Step.compare i none, a) :: (scanL a p (i + 1)).2)
  else (i, [])
termination_by a.length - i.toNat
decreasing_by
  all_goals
    obtain ⟨u, v, hu, hv, huv⟩ := oLt_true_elim h
    obtain ⟨h0, hl, _⟩ := jsGet_some_elim hu
    omega

/-- Right scan of the Hoare partition:
`while (arr[j] > pivot) { yield compare(j); j-- }`. -/
def scanR (a : List Val) (p : Option Val) (j : ℤ) : ℤ × Trace :=
  if h : oGt (jsGet a j) p = true then
    ((scanR a p (j - 1)).1, (Step.compare j none, a) :: (scanR a p (j - 1)).2)
  else (j, [])
termination_by (j + 1).toNat
decreasing_by
  all_goals
    obtain ⟨u, v, hu, hv, huv⟩ := oGt_true_elim h
    obtain ⟨h0, hl, _⟩ := jsGet_some_elim hu
    omega

/-- Number of evaluations of the left-scan condition `arr[i] < pivot`,
including the final failing one. -/
def scanLInspections (a : List Val) (p : Option Val) (i : ℤ) : ℕ :=
  if h : oLt (jsGet a i) p = true then scanLInspections a p (i + 1) + 1 else 1
termination_by a.length - i.toNat
decreasing_by
  obtain ⟨u, v, hu, hv, huv⟩ := oLt_true_elim h
  obtain ⟨h0, hl, _⟩ := jsGet_some_elim hu
  omega

/-- Number of evaluations of the right-scan condition `arr[j] > pivot`. -/
def scanRInspections (a : List Val) (p : Option Val) (j : ℤ) : ℕ :=
  if h : oGt (jsGet a j) p = true then scanRInspections a p (j - 1) + 1 else 1
termination_by (j + 1).toNat
decreasing_by
  obtain ⟨u, v, hu, hv, huv⟩ := oGt_true_elim h
  obtain ⟨h0, hl, _⟩ := jsGet_some_elim hu
  omega

theorem scanL_ge (a : List Val) (p : Option Val) : ∀ i : ℤ, i ≤ (scanL a p i).1 := by
  intro i
  induction i using scanL.induct a p with
  | case1 i h ih =>
    rw [scanL, dif_pos h]
    omega
  | case2 i h =>
    rw [scanL, dif_neg h]

theorem scanR_le (a : List Val) (p : Option Val) : ∀ j : ℤ, (scanR a p j).1 ≤ j := by
  intro j
  induction j using scanR.induct a p with
  | case1 j h ih =>
    rw [scanR, dif_pos h]
    omega
  | case2 j h =>
    rw [scanR, dif_neg h]

/-- One round of the partition loop of `quickGen` (algos.js lines 48-63):
`while (i <= j) { scan left; scan right; if (i <= j) { swap; i++; j-- } }`.
Returns the array, the final pointers and the trace. -/
def partLoop (a : List Val) (p : Option Val) (i j : ℤ) : List Val × ℤ × ℤ × Trace :=
  if hij : i ≤ j then
    if h₁ : (scanL a p i).1 ≤ (scanR a p j).1 then
      ((partLoop (jsSwap a (scanL a p i).1 (scanR a p j).1) p
          ((scanL a p i).1 + 1) ((scanR a p j).1 - 1)).1,
        (partLoop (jsSwap a (scanL a p i).1 (scanR a p j).1) p
          ((scanL a p i).1 + 1) ((scanR a p j).1 - 1)).2.1,
        (partLoop (jsSwap a (scanL a p i).1 (scanR a p j).1) p
          ((scanL a p i).1 + 1) ((scanR a p j).1 - 1)).2.2.1,
        (scanL a p i).2 ++ (scanR a p j).2 ++
          (Step.swap (scanL a p i).1 (scanR a p j).1,
            jsSwap a (scanL a p i).1 (scanR a p j).1) ::
            (partLoop (jsSwap a (scanL a p i).1 (scanR a p j).1) p
              ((scanL a p i).1 + 1) ((scanR a p j).1 - 1)).2.2.2)
    else (a, (scanL a p i).1, (scanR a p j).1, (scanL a p i).2 ++ (scanR a p j).2)
  else (a, i, j, [])
termination_by (j - i + 2).toNat
decreasing_by
  all_goals
    have hg1 := scanL_ge a p i
    have hg2 := scanR_le a p j
    omega

theorem partLoop_eq_swap {a : List Val} {p : Option Val} {i j : ℤ} (hij : i ≤ j)
    (h₁ : (scanL a p i).1 ≤ (scanR a p j).1) :
    partLoop a p i j =
      ((partLoop (jsSwap a (scanL a p i).1 (scanR a p j).1) p
          ((scanL a p i).1 + 1) ((scanR a p j).1 - 1)).1,
        (partLoop (jsSwap a (scanL a p i).1 (scanR a p j).1) p
          ((scanL a p i).1 + 1) ((scanR a p j).1 - 1)).2.1,
        (partLoop (jsSwap a (scanL a p i).1 (scanR a p j).1) p
          ((scanL a p i).1 + 1) ((scanR a p j).1 - 1)).2.2.1,
        (scanL a p i).2 ++ (scanR a p j).2 ++
          (Step.swap (scanL a p i).1 (scanR a p j).1,
            jsSwap a (scanL a p i).1 (scanR a p j).1) ::
            (partLoop (jsSwap a (scanL a p i).1 (scanR a p j).1) p
              ((scanL a p i).1 + 1) ((scanR a p j).1 - 1)).2.2.2) := by
  rw [partLoop, dif_pos hij, dif_pos h₁]

theorem partLoop_eq_stop {a : List Val} {p : Option Val} {i j : ℤ} (hij : i ≤ j)
    (h₁ : ¬ (scanL a p i).1 ≤ (scanR a p j).1) :
    partLoop a p i j =
      (a, (scanL a p i).1, (scanR a p j).1, (scanL a p i).2 ++ (scanR a p j).2) := by
  rw [partLoop, dif_pos hij, dif_neg h₁]

theorem partLoop_eq_exit {a : List Val} {p : Option Val} {i j : ℤ} (hij : ¬ i ≤ j) :
    partLoop a p i j = (a, i, j, []) := by
  rw [partLoop, dif_neg hij]

theorem partLoop_mono :
    ∀ (a : List Val) (p : Option Val) (i j : ℤ),
      i ≤ (partLoop a p i j).2.1 ∧ (partLoop a p i j).2.2.1 ≤ j := by
  intro a p i j
  induction a, p, i, j using partLoop.induct with
  | case1 a p i j hij h₁ ih =>
    rw [partLoop_eq_swap hij h₁]
    dsimp only
    have hg1 := scanL_ge a p i
    have hg2 := scanR_le a p j
    obtain ⟨ih1, ih2⟩ := ih
    exact ⟨by omega, by omega⟩
  | case2 a p i j hij h₁ =>
    rw [partLoop_eq_stop hij h₁]
    exact ⟨scanL_ge a p i, scanR_le a p j⟩
  | case3 a p i j hij =>
    rw [partLoop_eq_exit hij]
    exact ⟨le_refl i, le_refl j⟩

theorem scanL_stop_at {a : List Val} {pv : Val} {m : ℤ} (hm : jsGet a m = some pv) :
    ∀ i : ℤ, i ≤ m → (scanL a (some pv) i).1 ≤ m := by
  intro i
  induction i using scanL.induct a (some pv) with
  | case1 i h ih =>
    intro him
    rw [scanL, dif_pos h]
    rcases Int.lt_or_le i m with hlt | hle
    · exact ih (by omega)
    · have : i = m := by omega
      subst this
      rw [hm] at h
      simp only [oLt, decide_eq_true_eq] at h
      exact absurd h (lt_irrefl pv)
  | case2 i h =>
    intro him
    rw [scanL, dif_neg h]
    exact him

theorem scanR_stop_at {a : List Val} {pv : Val} {m : ℤ} (hm : jsGet a m = some pv) :
    ∀ j : ℤ, m ≤ j → m ≤ (scanR a (some pv) j).1 := by
  intro j
  induction j using scanR.induct a (some pv) with
  | case1 j h ih =>
    intro hmj
    rw [scanR, dif_pos h]
    rcases Int.lt_or_le m j with hlt | hle
    · exact ih (by omega)
    · have : j = m := by omega
      subst this
      rw [hm] at h
      simp only [oGt, decide_eq_true_eq] at h
      exact absurd h (lt_irrefl pv)
  | case2 j h =>
    intro hmj
    rw [scanR, dif_neg h]
    exact hmj

theorem scanL_none_eq (a : List Val) (i : ℤ) : scanL a none i = (i, []) := by
  rw [scanL, dif_neg]
  rw [oLt_none_right]
  simp

theorem scanR_none_eq (a : List Val) (j : ℤ) : scanR a none j = (j, []) := by
  rw [scanR, dif_neg]
  rw [oGt_none_right]
  simp

theorem fdiv_mid {l r : ℤ} (h : l ≤ r) :
    l ≤ Int.fdiv (l + r) 2 ∧ Int.fdiv (l + r) 2 ≤ r := by
  rw [Int.fdiv_eq_ediv _ (by norm_num)]
  omega

/-- After the first round of the partition loop both pointers have moved
strictly inside the range, whatever the pivot is. -/
theorem partLoop_progress (a : List Val) (l r : ℤ) (hlr : l < r) :
    l + 1 ≤ (partLoop a (jsGet a (Int.fdiv (l + r) 2)) l r).2.1 ∧
    (partLoop a (jsGet a (Int.fdiv (l + r) 2)) l r).2.2.1 ≤ r - 1 := by
  obtain ⟨hml, hmr⟩ := fdiv_mid (le_of_lt hlr)
  cases hp : jsGet a (Int.fdiv (l + r) 2) with
  | none =>
    have hl1 : (scanL a none l).1 = l := by rw [scanL_none_eq]
    have hr1 : (scanR a none r).1 = r := by rw [scanR_none_eq]
    have h₁ : (scanL a none l).1 ≤ (scanR a none r).1 := by omega
    rw [partLoop_eq_swap (le_of_lt hlr) h₁]
    dsimp only
    obtain ⟨hm1, hm2⟩ := partLoop_mono (jsSwap a (scanL a none l).1 (scanR a none r).1)
      none ((scanL a none l).1 + 1) ((scanR a none r).1 - 1)
    exact ⟨by omega, by omega⟩
  | some pv =>
    have hsl := scanL_stop_at hp l hml
    have hsr := scanR_stop_at hp r hmr
    have hgl := scanL_ge a (some pv) l
    have hgr := scanR_le a (some pv) r
    have h₁ : (scanL a (some pv) l).1 ≤ (scanR a (some pv) r).1 := by omega
    rw [partLoop_eq_swap (le_of_lt hlr) h₁]
    dsimp only
    obtain ⟨hm1, hm2⟩ := partLoop_mono
      (jsSwap a (scanL a (some pv) l).1 (scanR a (some pv) r).1) (some pv)
      ((scanL a (some pv) l).1 + 1) ((scanR a (some pv) r).1 - 1)
    exact ⟨by omega, by omega⟩

/-- Weight of a stack entry, used for termination of the explicit stack loop. -/
def segWeight (s : ℤ × ℤ) : ℕ := 3 ^ (s.2 - s.1 + 1).toNat

/-- Total weight of the explicit stack. -/
def stackWeight (st : List (ℤ × ℤ)) : ℕ := (st.map segWeight).sum

theorem stackWeight_cons (s : ℤ × ℤ) (st : List (ℤ × ℤ)) :
    stackWeight (s :: st) = segWeight s + stackWeight st := by
  simp [stackWeight]

theorem segWeight_pos (s : ℤ × ℤ) : 0 < segWeight s :=
  pow_pos (by norm_num) _

theorem stackWeight_nil : stackWeight [] = 0 := rfl

theorem stackWeight_append (s t : List (ℤ × ℤ)) :
    stackWeight (s ++ t) = stackWeight s + stackWeight t := by
  simp [stackWeight]

/-- The explicit-stack loop of `quickGen` (algos.js lines 41-66).  The top of
the JS array stack is the head of the list, so the two pushes
`stack.push([l, j]); stack.push([i, r])` make `[i, r]` the next range popped. -/
def quickLoop (a : List Val) (st : List (ℤ × ℤ)) : List Val × Trace :=
  match st with
  | [] => (a, [])
  | (l, r) :: rest =>
    if hlr : l ≥ r then quickLoop a rest
    else
      ((quickLoop (partLoop a (jsGet a (Int.fdiv (l + r) 2)) l r).1
          ((if (partLoop a (jsGet a (Int.fdiv (l + r) 2)) l r).2.1 < r then
              [((partLoop a (jsGet a (Int.fdiv (l + r) 2)) l r).2.1, r)] else []) ++
            (if l < (partLoop a (jsGet a (Int.fdiv (l + r) 2)) l r).2.2.1 then
              [(l, (partLoop a (jsGet a (Int.fdiv (l + r) 2)) l r).2.2.1)] else []) ++
            rest)).1,
        (partLoop a (jsGet a (Int.fdiv (l + r) 2)) l r).2.2.2 ++
          (quickLoop (partLoop a (jsGet a (Int.fdiv (l + r) 2)) l r).1
            ((if (partLoop a (jsGet a (Int.fdiv (l + r) 2)) l r).2.1 < r then
                [((partLoop a (jsGet a (Int.fdiv (l + r) 2)) l r).2.1, r)] else []) ++
              (if l < (partLoop a (jsGet a (Int.fdiv (l + r) 2)) l r).2.2.1 then
                [(l, (partLoop a (jsGet a (Int.fdiv (l + r) 2)) l r).2.2.1)] else []) ++
              rest)).2)
termination_by stackWeight st
decreasing_by
  · rw [stackWeight_cons]
    have := segWeight_pos (l, r)
    omega
  · obtain ⟨hp1, hp2⟩ := partLoop_progress a l r (by omega)
    rw [stackWeight_cons, stackWeight_append, stackWeight_append]
    have hw1 : stackWeight
        (if h : (partLoop a (jsGet a (Int.fdiv (l + r) 2)) l r).2.1 < r then
          [((partLoop a (jsGet a (Int.fdiv (l + r) 2)) l r).2.1, r)] else []) ≤
        3 ^ (r - l).toNat := by
      split
      · rw [stackWeight_cons, stackWeight_nil]
        unfold segWeight
        dsimp only
        have : 3 ^ (r - (partLoop a (jsGet a (Int.fdiv (l + r) 2)) l r).2.1 + 1).toNat ≤
            3 ^ (r - l).toNat :=
          Nat.pow_le_pow_right (by norm_num) (by omega)
        omega
      · rw [stackWeight_nil]
        exact Nat.zero_le _
    have hw2 : stackWeight
        (if h : l < (partLoop a (jsGet a (Int.fdiv (l + r) 2)) l r).2.2.1 then
          [(l, (partLoop a (jsGet a (Int.fdiv (l + r) 2)) l r).2.2.1)] else []) ≤
        3 ^ (r - l).toNat := by
      split
      · rw [stackWeight_cons, stackWeight_nil]
        unfold segWeight
        dsimp only
        have : 3 ^ ((partLoop a (jsGet a (Int.fdiv (l + r) 2)) l r).2.2.1 - l + 1).toNat ≤
            3 ^ (r - l).toNat :=
          Nat.pow_le_pow_right (by norm_num) (by omega)
        omega
      · rw [stackWeight_nil]
        exact Nat.zero_le _
    have hlt : 3 ^ (r - l).toNat + 3 ^ (r - l).toNat < segWeight (l, r) := by
      unfold segWeight
      dsimp only
      have he : (r - l + 1).toNat = (r - l).toNat + 1 := by omega
      rw [he, pow_succ]
      have hpos : 0 < 3 ^ (r - l).toNat := pow_pos (by norm_num) _
      omega
    omega

/-- The `quickGen` generator (algos.js lines 40-68). -/
def quickGen (arr : List Val) : List Val × Trace :=
  ((quickLoop arr [(0, (arr.length : ℤ) - 1)]).1,
    (quickLoop arr [(0, (arr.length : ℤ) - 1)]).2 ++
      [(Step.done, (quickLoop arr [(0, (arr.length : ℤ) - 1)]).1)])

theorem scanL_passed (a : List Val) (p : Option Val) :
    ∀ i k : ℤ, i ≤ k → k < (scanL a p i).1 → oLt (jsGet a k) p = true := by
  intro i
  induction i using scanL.induct a p with
  | case1 i h ih =>
    intro k hik hk
    rw [scanL, dif_pos h] at hk
    dsimp only at hk
    rcases Int.lt_or_le k (i + 1) with hki | hki
    · have : k = i := by omega
      rw [this]
      exact h
    · exact ih k hki hk
  | case2 i h =>
    intro k hik hk
    rw [scanL, dif_neg h] at hk
    dsimp only at hk
    omega

theorem scanR_passed (a : List Val) (p : Option Val) :
    ∀ j k : ℤ, (scanR a p j).1 < k → k ≤ j → oGt (jsGet a k) p = true := by
  intro j
  induction j using scanR.induct a p with
  | case1 j h ih =>
    intro k hk hkj
    rw [scanR, dif_pos h] at hk
    dsimp only at hk
    rcases Int.lt_or_le (j - 1) k with hki | hki
    · have : k = j := by omega
      rw [this]
      exact h
    · exact ih k hk hki
  | case2 j h =>
    intro k hk hkj
    rw [scanR, dif_neg h] at hk
    dsimp only at hk
    omega

theorem scanL_stopped (a : List Val) (p : Option Val) :
    ∀ i : ℤ, oLt (jsGet a (scanL a p i).1) p = false := by
  intro i
  induction i using scanL.induct a p with
  | case1 i h ih =>
    rw [scanL, dif_pos h]
    exact ih
  | case2 i h =>
    rw [scanL, dif_neg h]
    dsimp only
    exact Bool.not_eq_true _ ▸ (Bool.of_not_eq_true h)

theorem scanR_stopped (a : List Val) (p : Option Val) :
    ∀ j : ℤ, oGt (jsGet a (scanR a p j).1) p = false := by
  intro j
  induction j using scanR.induct a p with
  | case1 j h ih =>
    rw [scanR, dif_pos h]
    exact ih
  | case2 j h =>
    rw [scanR, dif_neg h]
    dsimp only
    exact Bool.not_eq_true _ ▸ (Bool.of_not_eq_true h)

theorem scanL_good (a : List Val) (p : Option Val) :
    ∀ i : ℤ, GoodTrace a (scanL a p i).2 a := by
  intro i
  induction i using scanL.induct a p with
  | case1 i h ih =>
    rw [scanL, dif_pos h]
    exact goodTrace_cons rfl ih
  | case2 i h =>
    rw [scanL, dif_neg h]
    exact goodTrace_nil a

theorem scanR_good (a : List Val) (p : Option Val) :
    ∀ j : ℤ, GoodTrace a (scanR a p j).2 a := by
  intro j
  induction j using scanR.induct a p with
  | case1 j h ih =>
    rw [scanR, dif_pos h]
    exact goodTrace_cons rfl ih
  | case2 j h =>
    rw [scanR, dif_neg h]
    exact goodTrace_nil a

theorem scanL_valid (a : List Val) (p : Option Val) :
    ∀ i : ℤ, ∀ s ∈ stepsOf (scanL a p i).2, validStep a.length s = true := by
  intro i
  induction i using scanL.induct a p with
  | case1 i h ih =>
    rw [scanL, dif_pos h]
    intro s hs
    simp only [stepsOf, List.map_cons, List.mem_cons] at hs
    rcases hs with hs | hs
    · subst hs
      obtain ⟨u, v, hu, _, _⟩ := oLt_true_elim h
      obtain ⟨h0, hl, _⟩ := jsGet_some_elim hu
      simp only [validStep, Bool.and_eq_true, decide_eq_true_eq]
      exact ⟨⟨by omega, by omega⟩, trivial⟩
    · exact ih s hs
  | case2 i h =>
    rw [scanL, dif_neg h]
    intro s hs
    simp [stepsOf] at hs

theorem scanR_valid (a : List Val) (p : Option Val) :
    ∀ j : ℤ, ∀ s ∈ stepsOf (scanR a p j).2, validStep a.length s = true := by
  intro j
  induction j using scanR.induct a p with
  | case1 j h ih =>
    rw [scanR, dif_pos h]
    intro s hs
    simp only [stepsOf, List.map_cons, List.mem_cons] at hs
    rcases hs with hs | hs
    · subst hs
      obtain ⟨u, v, hu, _, _⟩ := oGt_true_elim h
      obtain ⟨h0, hl, _⟩ := jsGet_some_elim hu
      simp only [validStep, Bool.and_eq_true, decide_eq_true_eq]
      exact ⟨⟨by omega, by omega⟩, trivial⟩
    · exact ih s hs
  | case2 j h =>
    rw [scanR, dif_neg h]
    intro s hs
    simp [stepsOf] at hs

theorem scanL_steps_compare (a : List Val) (p : Option Val) :
    ∀ i : ℤ, ∀ s ∈ stepsOf (scanL a p i).2, ∃ k : ℤ, s = Step.compare k none := by
  intro i
  induction i using scanL.induct a p with
  | case1 i h ih =>
    rw [scanL, dif_pos h]
    intro s hs
    simp only [stepsOf, List.map_cons, List.mem_cons] at hs
    rcases hs with hs | hs
    · exact ⟨i, hs⟩
    · exact ih s hs
  | case2 i h =>
    rw [scanL, dif_neg h]
    intro s hs
    simp [stepsOf] at hs

theorem scanR_steps_compare (a : List Val) (p : Option Val) :
    ∀ j : ℤ, ∀ s ∈ stepsOf (scanR a p j).2, ∃ k : ℤ, s = Step.compare k none := by
  intro j
  induction j using scanR.induct a p with
  | case1 j h ih =>
    rw [scanR, dif_pos h]
    intro s hs
    simp only [stepsOf, List.map_cons, List.mem_cons] at hs
    rcases hs with hs | hs
    · exact ⟨j, hs⟩
    · exact ih s hs
  | case2 j h =>
    rw [scanR, dif_neg h]
    intro s hs
    simp [stepsOf] at hs

theorem scanL_inspections_eq (a : List Val) (p : Option Val) :
    ∀ i : ℤ, scanLInspections a p i = (scanL a p i).2.length + 1 := by
  intro i
  induction i using scanL.induct a p with
  | case1 i h ih =>
    rw [scanL, dif_pos h, scanLInspections, dif_pos h]
    dsimp only
    rw [List.length_cons, ih]
  | case2 i h =>
    rw [scanL, dif_neg h, scanLInspections, dif_neg h]
    simp

theorem scanR_inspections_eq (a : List Val) (p : Option Val) :
    ∀ j : ℤ, scanRInspections a p j = (scanR a p j).2.length + 1 := by
  intro j
  induction j using scanR.induct a p with
  | case1 j h ih =>
    rw [scanR, dif_pos h, scanRInspections, dif_pos h]
    dsimp only
    rw [List.length_cons, ih]
  | case2 j h =>
    rw [scanR, dif_neg h, scanRInspections, dif_neg h]
    simp

theorem scanL_trace_shape (a : List Val) (p : Option Val) :
    ∀ i : ℤ, stepsOf (scanL a p i).2 =
      (List.range ((scanL a p i).1 - i).toNat).map
        (fun t : ℕ => Step.compare (i + (t : ℤ)) none) := by
  intro i
  induction i using scanL.induct a p with
  | case1 i h ih =>
    rw [scanL, dif_pos h]
    have hge := scanL_ge a p (i + 1)
    simp only [stepsOf, List.map_cons] at ih ⊢
    rw [ih]
    have hn : ((scanL a p (i + 1)).1 - i).toNat = ((scanL a p (i + 1)).1 - (i + 1)).toNat + 1 := by
      omega
    rw [hn, List.range_succ_eq_map, List.map_cons, List.map_map]
    congr 1
    · rw [Nat.cast_zero, add_zero]
    · apply List.map_congr_left
      intro t _
      simp only [Function.comp_apply]
      congr 1
      push_cast
      ring
  | case2 i h =>
    rw [scanL, dif_neg h]
    simp [stepsOf]

theorem scanR_trace_shape (a : List Val) (p : Option Val) :
    ∀ j : ℤ, stepsOf (scanR a p j).2 =
      (List.range (j - (scanR a p j).1).toNat).map
        (fun t : ℕ => Step.compare (j - (t : ℤ)) none) := by
  intro j
  induction j using scanR.induct a p with
  | case1 j h ih =>
    rw [scanR, dif_pos h]
    have hle := scanR_le a p (j - 1)
    simp only [stepsOf, List.map_cons] at ih ⊢
    rw [ih]
    have hn : (j - (scanR a p (j - 1)).1).toNat = ((j - 1) - (scanR a p (j - 1)).1).toNat + 1 := by
      omega
    rw [hn, List.range_succ_eq_map, List.map_cons, List.map_map]
    congr 1
    · rw [Nat.cast_zero, sub_zero]
    · apply List.map_congr_left
      intro t _
      simp only [Function.comp_apply]
      congr 1
      push_cast
      ring
  | case2 j h =>
    rw [scanR, dif_neg h]
    simp [stepsOf]

/-- The value at index `k` exists and is at most `pv`. -/
def vLe (a : List Val) (k : ℤ) (pv : Val) : Prop :=
  ∃ v, jsGet a k = some v ∧ v ≤ pv

/-- The value at index `k` exists and is at least `pv`. -/
def vGe (a : List Val) (k : ℤ) (pv : Val) : Prop :=
  ∃ v, jsGet a k = some v ∧ pv ≤ v

theorem jsGet_jsSwap_other {a : List Val} {i j k : ℤ} (hki : k ≠ i) (hkj : k ≠ j) :
    jsGet (jsSwap a i j) k = jsGet a k := by
  unfold jsSwap
  cases hgi : jsGet a i with
  | none => rfl
  | some x =>
    cases hgj : jsGet a j with
    | none => rfl
    | some y =>
      obtain ⟨h0i, hil, hx⟩ := jsGet_some_elim hgi
      obtain ⟨h0j, hjl, hy⟩ := jsGet_some_elim hgj
      show jsGet ((a.set i.toNat y).set j.toNat x) k = jsGet a k
      rcases Int.lt_or_le k 0 with hk0 | hk0
      · rw [jsGet, if_neg (by omega), jsGet, if_neg (by omega)]
      · rcases Int.lt_or_le k (a.length : ℤ) with hkl | hkl
        · have hkn : k.toNat < a.length := by omega
          have hkn2 : k.toNat < ((a.set i.toNat y).set j.toNat x).length := by
            simp only [List.length_set]
            omega
          rw [jsGet_eq_some hk0 hkn2, jsGet_eq_some hk0 hkn]
          have h1 : k.toNat ≠ i.toNat := by omega
          have h2 : k.toNat ≠ j.toNat := by omega
          rw [geti_set_other h2, geti_set_other h1]
        · rw [jsGet, if_pos hk0, jsGet, if_pos hk0]
          rw [@List.getElem?_eq_none _ ((a.set i.toNat y).set j.toNat x) _
              (by simp only [List.length_set]; omega),
            List.getElem?_eq_none (by omega)]

theorem jsGet_jsSwap_left {a : List Val} {i j : ℤ} (h0i : 0 ≤ i) (hi : i.toNat < a.length)
    (h0j : 0 ≤ j) (hj : j.toNat < a.length) :
    jsGet (jsSwap a i j) i = some (geti a j.toNat) := by
  have hlen : (jsSwap a i j).length = a.length := length_jsSwap a i j
  rw [jsGet_eq_some h0i (by omega), geti_jsSwap_left h0i hi h0j hj]

theorem jsGet_jsSwap_right {a : List Val} {i j : ℤ} (h0i : 0 ≤ i) (hi : i.toNat < a.length)
    (h0j : 0 ≤ j) (hj : j.toNat < a.length) :
    jsGet (jsSwap a i j) j = some (geti a i.toNat) := by
  have hlen : (jsSwap a i j).length = a.length := length_jsSwap a i j
  rw [jsGet_eq_some h0j (by omega), geti_jsSwap_right h0i hi h0j hj]

/-- Full specification of the Hoare partition loop, for a pivot value `pv` and
ghost range bounds `l ≤ i`, `j ≤ r` inside the array:  the loop permutes the
array touching only `[i, j]`, ends with crossed pointers, leaves everything
left of the final left pointer at most `pv` and everything right of the final
right pointer at least `pv`, and its trace is chained, in-bounds and without
`done`. -/
theorem partLoop_spec (pv : Val) (l r : ℤ) :
    ∀ (a : List Val) (p : Option Val) (i j : ℤ), p = some pv →
      0 ≤ l → r < (a.length : ℤ) → l ≤ i → j ≤ r →
      (∀ k, l ≤ k → k < i → vLe a k pv) →
      (∀ k, j < k → k ≤ r → vGe a k pv) →
      (partLoop a p i j).1.length = a.length ∧
      List.Perm (partLoop a p i j).1 a ∧
      (partLoop a p i j).2.2.1 < (partLoop a p i j).2.1 ∧
      (∀ k : ℤ, k < i ∨ j < k → jsGet (partLoop a p i j).1 k = jsGet a k) ∧
      (∀ k, l ≤ k → k < (partLoop a p i j).2.1 → vLe (partLoop a p i j).1 k pv) ∧
      (∀ k, (partLoop a p i j).2.2.1 < k → k ≤ r → vGe (partLoop a p i j).1 k pv) ∧
      GoodTrace a (partLoop a p i j).2.2.2 (partLoop a p i j).1 ∧
      (∀ s ∈ stepsOf (partLoop a p i j).2.2.2, validStep a.length s = true) ∧
      Step.done ∉ stepsOf (partLoop a p i j).2.2.2 := by
  intro a p i j
  induction a, p, i, j using partLoop.induct with
  | case3 a p i j hij =>
    intro hp h0l hrlen hli hjr hA hB
    rw [partLoop_eq_exit hij]
    dsimp only
    refine ⟨rfl, List.Perm.refl a, by omega, fun k _ => rfl, hA, hB, goodTrace_nil a, ?_, ?_⟩
    · intro s hs
      simp [stepsOf] at hs
    · simp [stepsOf]
  | case2 a p i j hij h₁ =>
    intro hp h0l hrlen hli hjr hA hB
    subst hp
    rw [partLoop_eq_stop hij h₁]
    dsimp only
    have hge := scanL_ge a (some pv) i
    have hle := scanR_le a (some pv) j
    refine ⟨rfl, List.Perm.refl a, by omega, fun k _ => rfl, ?_, ?_, ?_, ?_, ?_⟩
    · intro k hlk hki₁
      rcases Int.lt_or_le k i with hki | hki
      · exact hA k hlk hki
      · have hpass := scanL_passed a (some pv) i k hki hki₁
        obtain ⟨u, v, hu, hv, huv⟩ := oLt_true_elim hpass
        have hv' : v = pv := (Option.some.inj hv).symm
        exact ⟨u, hu, le_of_lt (hv' ▸ huv)⟩
    · intro k hj₁k hkr
      rcases Int.lt_or_le j k with hkj | hkj
      · exact hB k hkj hkr
      · have hpass := scanR_passed a (some pv) j k hj₁k hkj
        obtain ⟨u, v, hu, hv, huv⟩ := oGt_true_elim hpass
        have hv' : v = pv := (Option.some.inj hv).symm
        exact ⟨u, hu, le_of_lt (hv' ▸ huv)⟩
    · exact goodTrace_append (scanL_good a (some pv) i) (scanR_good a (some pv) j)
    · intro s hs
      simp only [stepsOf, List.map_append, List.mem_append] at hs
      rcases hs with hs | hs
      · exact scanL_valid a (some pv) i s hs
      · exact scanR_valid a (some pv) j s hs
    · intro hmem
      simp only [stepsOf, List.map_append, List.mem_append] at hmem
      rcases hmem with hmem | hmem
      · obtain ⟨k, hk⟩ := scanL_steps_compare a (some pv) i Step.done hmem
        exact Step.noConfusion hk
      · obtain ⟨k, hk⟩ := scanR_steps_compare a (some pv) j Step.done hmem
        exact Step.noConfusion hk
  | case1 a p i j hij h₁ ih =>
    intro hp h0l hrlen hli hjr hA hB
    subst hp
    rw [partLoop_eq_swap hij h₁]
    dsimp only
    have hge := scanL_ge a (some pv) i
    have hle := scanR_le a (some pv) j
    set i₁ := (scanL a (some pv) i).1 with hi₁def
    set j₁ := (scanR a (some pv) j).1 with hj₁def
    have h0i₁ : 0 ≤ i₁ := by omega
    have h0j₁ : 0 ≤ j₁ := by omega
    have hi₁len : i₁.toNat < a.length := by omega
    have hj₁len : j₁.toNat < a.length := by omega
    set a' := jsSwap a i₁ j₁ with ha'
    have hlen' : a'.length = a.length := length_jsSwap a i₁ j₁
    -- values at the stopping positions
    have hstopL : oLt (jsGet a i₁) (some pv) = false := scanL_stopped a (some pv) i
    have hstopR : oGt (jsGet a j₁) (some pv) = false := scanR_stopped a (some pv) j
    have hgetL : jsGet a i₁ = some (geti a i₁.toNat) := jsGet_eq_some h0i₁ hi₁len
    have hgetR : jsGet a j₁ = some (geti a j₁.toNat) := jsGet_eq_some h0j₁ hj₁len
    have hvi₁ : pv ≤ geti a i₁.toNat := by
      rw [hgetL] at hstopL
      exact oLt_false_some hstopL
    have hvj₁ : geti a j₁.toNat ≤ pv := by
      rw [hgetR] at hstopR
      exact oGt_false_some hstopR
    have hgl : jsGet a' i₁ = some (geti a j₁.toNat) :=
      jsGet_jsSwap_left h0i₁ hi₁len h0j₁ hj₁len
    have hgr : jsGet a' j₁ = some (geti a i₁.toNat) :=
      jsGet_jsSwap_right h0i₁ hi₁len h0j₁ hj₁len
    have hother : ∀ k : ℤ, k ≠ i₁ → k ≠ j₁ → jsGet a' k = jsGet a k := by
      intro k h1 h2
      exact jsGet_jsSwap_other h1 h2
    -- hypotheses for the recursive call
    have hA' : ∀ k, l ≤ k → k < i₁ + 1 → vLe a' k pv := by
      intro k hlk hk
      rcases Int.lt_or_le k i₁ with hki₁ | hki₁
      · have heq : jsGet a' k = jsGet a k := hother k (by omega) (by omega)
        rcases Int.lt_or_le k i with hki | hki
        · obtain ⟨u, hu, hupv⟩ := hA k hlk hki
          exact ⟨u, heq ▸ hu, hupv⟩
        · have hpass := scanL_passed a (some pv) i k hki hki₁
          obtain ⟨u, v, hu, hv, huv⟩ := oLt_true_elim hpass
          have hv' : v = pv := (Option.some.inj hv).symm
          exact ⟨u, heq ▸ hu, le_of_lt (hv' ▸ huv)⟩
      · have hk' : k = i₁ := by omega
        rw [hk']
        exact ⟨geti a j₁.toNat, hgl, hvj₁⟩
    have hB' : ∀ k, j₁ - 1 < k → k ≤ r → vGe a' k pv := by
      intro k hk hkr
      rcases Int.lt_or_le j₁ k with hkj₁ | hkj₁
      · have heq : jsGet a' k = jsGet a k := hother k (by omega) (by omega)
        rcases Int.lt_or_le j k with hkj | hkj
        · obtain ⟨u, hu, hupv⟩ := hB k hkj hkr
          exact ⟨u, heq ▸ hu, hupv⟩
        · have hpass := scanR_passed a (some pv) j k hkj₁ hkj
          obtain ⟨u, v, hu, hv, huv⟩ := oGt_true_elim hpass
          have hv' : v = pv := (Option.some.inj hv).symm
          exact ⟨u, heq ▸ hu, le_of_lt (hv' ▸ huv)⟩
      · have hk' : k = j₁ := by omega
        rw [hk']
        exact ⟨geti a i₁.toNat, hgr, hvi₁⟩
    obtain ⟨ihlen, ihperm, ihlt, ihun, ihA, ihB, ihgood, ihvalid, ihdone⟩ :=
      ih rfl h0l (by omega) (by omega) (by omega) hA' hB'
    refine ⟨?_, ?_, ihlt, ?_, ihA, ihB, ?_, ?_, ?_⟩
    · rw [ihlen, hlen']
    · exact ihperm.trans (jsSwap_perm_all a i₁ j₁)
    · intro k hk
      have hk' : k < i₁ + 1 ∨ j₁ - 1 < k := by omega
      rw [ihun k hk', hother k (by omega) (by omega)]
    · refine goodTrace_append (goodTrace_append (scanL_good a (some pv) i)
        (scanR_good a (some pv) j)) ?_
      exact goodTrace_cons rfl ihgood
    · intro s hs
      simp only [stepsOf, List.map_append, List.mem_append, List.map_cons,
        List.mem_cons] at hs
      rcases hs with (hs | hs) | hs | hs
      · exact scanL_valid a (some pv) i s hs
      · exact scanR_valid a (some pv) j s hs
      · subst hs
        simp only [validStep, Bool.and_eq_true, decide_eq_true_eq]
        exact ⟨⟨⟨by omega, by omega⟩, by omega⟩, by omega⟩
      · have := ihvalid s hs
        rwa [hlen'] at this
    · intro hmem
      simp only [stepsOf, List.map_append, List.mem_append, List.map_cons,
        List.mem_cons] at hmem
      rcases hmem with (hmem | hmem) | hmem | hmem
      · obtain ⟨k, hk⟩ := scanL_steps_compare a (some pv) i Step.done hmem
        exact Step.noConfusion hk
      · obtain ⟨k, hk⟩ := scanR_steps_compare a (some pv) j Step.done hmem
        exact Step.noConfusion hk
      · exact Step.noConfusion hmem
      · exact ihdone hmem

/-! ### Segment utilities for the stack-loop invariant -/

/-- The segment of `a` on positions `l .. r` (inclusive). -/
def midSeg (a : List Val) (l r : ℕ) : List Val :=
  (a.drop l).take (r + 1 - l)

theorem midSeg_decomp (a : List Val) (l r : ℕ) (h : l ≤ r + 1) :
    a.take l ++ (midSeg a l r ++ a.drop (r + 1)) = a := by
  unfold midSeg
  have h1 : (a.drop l).drop (r + 1 - l) = a.drop (r + 1) := by
    rw [List.drop_drop]
    congr 1
    omega
  rw [← h1, List.take_append_drop, List.take_append_drop]

theorem geti_mem_midSeg {a : List Val} {l r p : ℕ} (hlp : l ≤ p) (hpr : p ≤ r)
    (hrl : p < a.length) : geti a p ∈ midSeg a l r := by
  have hlen : p - l < (midSeg a l r).length := by
    unfold midSeg
    simp only [List.length_take, List.length_drop]
    omega
  have : (midSeg a l r)[p - l] = a[p] := by
    unfold midSeg
    rw [List.getElem_take]
    rw [List.getElem_drop]
    congr 1
    omega
  rw [geti_eq_getElem hrl, ← this]
  exact List.getElem_mem hlen

theorem mem_midSeg_elim {a : List Val} {l r : ℕ} {x : Val} (hx : x ∈ midSeg a l r) :
    ∃ q : ℕ, l ≤ q ∧ q ≤ r ∧ q < a.length ∧ geti a q = x := by
  obtain ⟨t, ht, hval⟩ := List.mem_iff_getElem.mp hx
  have hlen := ht
  unfold midSeg at hlen
  simp only [List.length_take, List.length_drop] at hlen
  have h1 : l + t < a.length := by omega
  refine ⟨l + t, by omega, by omega, h1, ?_⟩
  rw [geti_eq_getElem h1, ← hval]
  unfold midSeg
  rw [List.getElem_take, List.getElem_drop]

theorem take_eq_of_jsGet {a b : List Val} (hlen : b.length = a.length) (n : ℕ)
    (h : ∀ k : ℤ, 0 ≤ k → k < (n : ℤ) → jsGet b k = jsGet a k) : b.take n = a.take n := by
  apply List.ext_getElem
  · simp [hlen]
  · intro t h₁ h₂
    simp only [List.length_take] at h₁
    have hbt : t < b.length := by omega
    have hat : t < a.length := by omega
    rw [List.getElem_take, List.getElem_take]
    have := h t (by omega) (by omega)
    rw [jsGet_eq_some (by omega) (by simpa using hbt),
      jsGet_eq_some (by omega) (by simpa using hat)] at this
    have heq : geti b t = geti a t := by
      simpa using this
    rwa [geti_eq_getElem hbt, geti_eq_getElem hat] at heq

theorem drop_eq_of_jsGet {a b : List Val} (hlen : b.length = a.length) (n : ℕ)
    (h : ∀ k : ℤ, (n : ℤ) ≤ k → jsGet b k = jsGet a k) : b.drop n = a.drop n := by
  apply List.ext_getElem
  · simp [hlen]
  · intro t h₁ h₂
    simp only [List.length_drop] at h₁
    have hbt : n + t < b.length := by omega
    have hat : n + t < a.length := by omega
    rw [List.getElem_drop, List.getElem_drop]
    have := h (n + t) (by omega)
    rw [jsGet_eq_some (by omega) (by simpa using hbt),
      jsGet_eq_some (by omega) (by simpa using hat)] at this
    have heq : geti b (n + t) = geti a (n + t) := by
      simpa using this
    rwa [geti_eq_getElem hbt, geti_eq_getElem hat] at heq

theorem midSeg_perm {a b : List Val} (hlen : b.length = a.length)
    (hperm : List.Perm b a) (l r : ℕ) (hlr : l ≤ r + 1)
    (hout : ∀ k : ℤ, 0 ≤ k → (k < (l : ℤ) ∨ (r : ℤ) < k) → jsGet b k = jsGet a k) :
    List.Perm (midSeg b l r) (midSeg a l r) := by
  have ht : b.take l = a.take l :=
    take_eq_of_jsGet hlen l (fun k h0 hk => hout k h0 (Or.inl hk))
  have hd : b.drop (r + 1) = a.drop (r + 1) :=
    drop_eq_of_jsGet hlen (r + 1) (fun k hk => hout k (by omega) (Or.inr (by omega)))
  have hperm' : List.Perm (b.take l ++ (midSeg b l r ++ b.drop (r + 1)))
      (a.take l ++ (midSeg a l r ++ a.drop (r + 1))) := by
    rw [midSeg_decomp b l r hlr, midSeg_decomp a l r hlr]
    exact hperm
  rw [ht, hd] at hperm'
  have h1 := (List.perm_append_left_iff (a.take l)).mp hperm'
  exact (List.perm_append_right_iff (a.drop (r + 1))).mp h1

/-- Validity of the explicit stack: every range has its bounds inside the
array, and the ranges are pairwise disjoint. -/
def StackOk (n : ℕ) (st : List (ℤ × ℤ)) : Prop :=
  (∀ s ∈ st, 0 ≤ s.1 ∧ s.2 < (n : ℤ)) ∧
  List.Pairwise (fun s t => s.2 < t.1 ∨ t.2 < s.1) st

/-- Cross-segment sortedness: any two positions not covered together by a
pending stack range are already in order. -/
def CrossSorted (a : List Val) (st : List (ℤ × ℤ)) : Prop :=
  ∀ p q : ℤ, 0 ≤ p → p < q → q < (a.length : ℤ) →
    (∀ s ∈ st, ¬ (s.1 ≤ p ∧ q ≤ s.2)) → geti a p.toNat ≤ geti a q.toNat

theorem quickLoop_eq_nil (a : List Val) : quickLoop a [] = (a, []) := by
  simp [quickLoop]

theorem quickLoop_eq_skip {a : List Val} {l r : ℤ} {rest : List (ℤ × ℤ)} (hlr : l ≥ r) :
    quickLoop a ((l, r) :: rest) = quickLoop a rest := by
  rw [quickLoop, dif_pos hlr]

theorem quickLoop_eq_main {a : List Val} {l r : ℤ} {rest : List (ℤ × ℤ)} (hlr : ¬ l ≥ r) :
    quickLoop a ((l, r) :: rest) =
      ((quickLoop (partLoop a (jsGet a (Int.fdiv (l + r) 2)) l r).1
          ((if (partLoop a (jsGet a (Int.fdiv (l + r) 2)) l r).2.1 < r then
              [((partLoop a (jsGet a (Int.fdiv (l + r) 2)) l r).2.1, r)] else []) ++
            (if l < (partLoop a (jsGet a (Int.fdiv (l + r) 2)) l r).2.2.1 then
              [(l, (partLoop a (jsGet a (Int.fdiv (l + r) 2)) l r).2.2.1)] else []) ++
            rest)).1,
        (partLoop a (jsGet a (Int.fdiv (l + r) 2)) l r).2.2.2 ++
          (quickLoop (partLoop a (jsGet a (Int.fdiv (l + r) 2)) l r).1
            ((if (partLoop a (jsGet a (Int.fdiv (l + r) 2)) l r).2.1 < r then
                [((partLoop a (jsGet a (Int.fdiv (l + r) 2)) l r).2.1, r)] else []) ++
              (if l < (partLoop a (jsGet a (Int.fdiv (l + r) 2)) l r).2.2.1 then
                [(l, (partLoop a (jsGet a (Int.fdiv (l + r) 2)) l r).2.2.1)] else []) ++
              rest)).2) := by
  rw [quickLoop, dif_neg hlr]

theorem quickLoop_spec : ∀ (a : List Val) (st : List (ℤ × ℤ)),
    StackOk a.length st → CrossSorted a st →
    (quickLoop a st).1.length = a.length ∧
    List.Perm (quickLoop a st).1 a ∧
    NonDecr (quickLoop a st).1 ∧
    GoodTrace a (quickLoop a st).2 (quickLoop a st).1 ∧
    (∀ s ∈ stepsOf (quickLoop a st).2, validStep a.length s = true) ∧
    Step.done ∉ stepsOf (quickLoop a st).2 := by
  intro a st
  induction a, st using quickLoop.induct with
  | case1 a =>
    intro hok hcross
    rw [quickLoop_eq_nil]
    dsimp only
    refine ⟨rfl, List.Perm.refl a, ?_, goodTrace_nil a, ?_, by simp [stepsOf]⟩
    · refine nonDecr_of_geti ?_
      intro p q hpq hql
      have := hcross p q (by omega) (by omega) (by omega) (fun s hs => by cases hs)
      simpa using this
    · intro s hs
      simp [stepsOf] at hs
  | case2 a l r rest hlr ih =>
    intro hok hcross
    rw [quickLoop_eq_skip hlr]
    refine ih ⟨fun s hs => hok.1 s (List.mem_cons_of_mem _ hs),
      (List.pairwise_cons.mp hok.2).2⟩ ?_
    intro p q h0p hpq hql hnone
    refine hcross p q h0p hpq hql ?_
    intro s hs
    rw [List.mem_cons] at hs
    rcases hs with hs | hs
    · rw [hs]
      intro ⟨hc1, hc2⟩
      omega
    · exact hnone s hs
  | case3 a l r rest hlr ih =>
    intro hok hcross
    obtain ⟨h0l, hrlen⟩ := hok.1 (l, r) (List.mem_cons_self _ _)
    have hlr' : l < r := by omega
    obtain ⟨hml, hmr⟩ := fdiv_mid (le_of_lt hlr')
    have hmid0 : 0 ≤ Int.fdiv (l + r) 2 := by omega
    have hmidlen : (Int.fdiv (l + r) 2).toNat < a.length := by omega
    have hpv : jsGet a (Int.fdiv (l + r) 2) = some (geti a (Int.fdiv (l + r) 2).toNat) :=
      jsGet_eq_some hmid0 hmidlen
    rw [quickLoop_eq_main hlr]
    rw [hpv] at ih ⊢
    simp only [dite_eq_ite] at ih
    dsimp only
    obtain ⟨hplen, hpperm, hplt, hpun, hpA, hpB, hpgood, hpvalid, hpdone⟩ :=
      partLoop_spec (geti a (Int.fdiv (l + r) 2).toNat) l r a
        (some (geti a (Int.fdiv (l + r) 2).toNat)) l r rfl h0l hrlen (le_refl l) (le_refl r)
        (fun k h1 h2 => absurd h1 (by omega)) (fun k h1 h2 => absurd h1 (by omega))
    obtain ⟨hmono1, hmono2⟩ :=
      partLoop_mono a (some (geti a (Int.fdiv (l + r) 2).toNat)) l r
    set pv := geti a (Int.fdiv (l + r) 2).toNat with hpvdef
    set b := (partLoop a (some pv) l r).1 with hbdef
    set i' := (partLoop a (some pv) l r).2.1 with hidef
    set j' := (partLoop a (some pv) l r).2.2.1 with hjdef
    set st' := (if i' < r then [(i', r)] else []) ++
      (if l < j' then [(l, j')] else []) ++ rest with hstdef
    have hheadrel := (List.pairwise_cons.mp hok.2).1
    have hpairrest := (List.pairwise_cons.mp hok.2).2
    have hboundsrest := fun s hs => hok.1 s (List.mem_cons_of_mem _ hs)
    have hmemRest : ∀ u ∈ rest, u ∈ st' := by
      intro u hu
      rw [hstdef]
      simp [hu]
    have hmemA : i' < r → (i', r) ∈ st' := by
      intro h
      rw [hstdef]
      simp [h]
    have hmemB : l < j' → (l, j') ∈ st' := by
      intro h
      rw [hstdef]
      simp [h]
    -- bounds and disjointness of the new stack
    have hok' : StackOk b.length st' := by
      constructor
      · intro s hs
        rw [hstdef] at hs
        simp only [List.mem_append] at hs
        rw [hplen]
        rcases hs with (hs | hs) | hs
        · rcases Int.lt_or_le i' r with hir | hir
          · rw [if_pos hir] at hs
            simp only [List.mem_singleton] at hs
            rw [hs]
            exact ⟨by omega, by omega⟩
          · rw [if_neg (by omega)] at hs
            cases hs
        · rcases Int.lt_or_le l j' with hlj | hlj
          · rw [if_pos hlj] at hs
            simp only [List.mem_singleton] at hs
            rw [hs]
            exact ⟨by omega, by omega⟩
          · rw [if_neg (by omega)] at hs
            cases hs
        · exact hboundsrest s hs
      · rw [hstdef]
        rw [List.pairwise_append, List.pairwise_append]
        refine ⟨⟨?_, ?_, ?_⟩, hpairrest, ?_⟩
        · split
          · exact List.pairwise_singleton _ _
          · exact List.Pairwise.nil
        · split
          · exact List.pairwise_singleton _ _
          · exact List.Pairwise.nil
        · intro u hu w hw
          split at hu
          · simp only [List.mem_singleton] at hu
            split at hw
            · simp only [List.mem_singleton] at hw
              rw [hu, hw]
              dsimp only
              omega
            · cases hw
          · cases hu
        · intro u hu w hw
          have hrel := hheadrel w hw
          dsimp only at hrel
          simp only [List.mem_append] at hu
          rcases hu with hu | hu
          · split at hu
            · simp only [List.mem_singleton] at hu
              rw [hu]
              dsimp only
              omega
            · cases hu
          · split at hu
            · simp only [List.mem_singleton] at hu
              rw [hu]
              dsimp only
              omega
            · cases hu
    -- cross-segment sortedness for the new configuration
    have hgetiEq : ∀ k : ℤ, 0 ≤ k → (k < l ∨ r < k) → k < (a.length : ℤ) →
        geti b k.toNat = geti a k.toNat := by
      intro k h0 hk hkl
      have := hpun k hk
      rw [jsGet_eq_some h0 (by omega), jsGet_eq_some h0 (by omega)] at this
      exact Option.some.inj this
    have hsegperm : List.Perm (midSeg b l.toNat r.toNat) (midSeg a l.toNat r.toNat) := by
      refine midSeg_perm hplen hpperm l.toNat r.toNat (by omega) ?_
      intro k h0 hk
      exact hpun k (by omega)
    have hinseg : ∀ z : ℤ, l ≤ z → z ≤ r →
        ∃ q'' : ℕ, l ≤ (q'' : ℤ) ∧ (q'' : ℤ) ≤ r ∧ q'' < a.length ∧
          geti a q'' = geti b z.toNat := by
      intro z hlz hzr
      have hmm : geti b z.toNat ∈ midSeg b l.toNat r.toNat := by
        refine geti_mem_midSeg (by omega) (by omega) ?_
        rw [hplen]
        omega
      have hmm2 : geti b z.toNat ∈ midSeg a l.toNat r.toNat :=
        hsegperm.mem_iff.mp hmm
      obtain ⟨q'', h1, h2, h3, h4⟩ := mem_midSeg_elim hmm2
      exact ⟨q'', by omega, by omega, h3, h4⟩
    have hcross' : CrossSorted b st' := by
      intro p q h0p hpq hql hnone
      rw [hplen] at hql
      by_cases hpin : l ≤ p ∧ p ≤ r
      · by_cases hqin : l ≤ q ∧ q ≤ r
        · have hpi : p < i' := by
            by_contra hge'
            push_neg at hge'
            have hpush : i' < r := by omega
            exact (hnone _ (hmemA hpush)) ⟨by omega, by omega⟩
          have hqj : j' < q := by
            by_contra hle'
            push_neg at hle'
            have hpush : l < j' := by omega
            exact (hnone _ (hmemB hpush)) ⟨by omega, by omega⟩
          obtain ⟨u, hu, hule⟩ := hpA p (by omega) hpi
          obtain ⟨w, hw, hwge⟩ := hpB q hqj (by omega)
          obtain ⟨_, _, hu'⟩ := jsGet_some_elim hu
          obtain ⟨_, _, hw'⟩ := jsGet_some_elim hw
          rw [← hu', ← hw']
          exact le_trans hule hwge
        · have hqr : r < q := by omega
          have hbq : geti b q.toNat = geti a q.toNat :=
            hgetiEq q (by omega) (Or.inr hqr) (by omega)
          obtain ⟨q'', hq1, hq2, hq3, hq4⟩ := hinseg p (by omega) (by omega)
          have hold := hcross (q'' : ℤ) q (by omega) (by omega) (by omega) ?_
          · rw [hbq]
            have : ((q'' : ℤ)).toNat = q'' := by omega
            rw [this] at hold
            rw [← hq4]
            exact hold
          · intro s hs
            rw [List.mem_cons] at hs
            rcases hs with hs | hs
            · rw [hs]
              intro ⟨hc1, hc2⟩
              dsimp only at hc1 hc2
              omega
            · have := hheadrel s hs
              intro ⟨hc1, hc2⟩
              dsimp only at this
              omega
      · by_cases hqin : l ≤ q ∧ q ≤ r
        · have hpl : p < l := by omega
          have hbp : geti b p.toNat = geti a p.toNat :=
            hgetiEq p (by omega) (Or.inl hpl) (by omega)
          obtain ⟨q'', hq1, hq2, hq3, hq4⟩ := hinseg q (by omega) (by omega)
          have hold := hcross p (q'' : ℤ) (by omega) (by omega) (by omega) ?_
          · rw [hbp]
            have : ((q'' : ℤ)).toNat = q'' := by omega
            rw [this] at hold
            rw [← hq4]
            exact hold
          · intro s hs
            rw [List.mem_cons] at hs
            rcases hs with hs | hs
            · rw [hs]
              intro ⟨hc1, hc2⟩
              dsimp only at hc1 hc2
              omega
            · have := hheadrel s hs
              intro ⟨hc1, hc2⟩
              dsimp only at this
              omega
        · have houtp : p < l ∨ r < p := by omega
          have houtq : q < l ∨ r < q := by omega
          have hbp : geti b p.toNat = geti a p.toNat := hgetiEq p h0p houtp (by omega)
          have hbq : geti b q.toNat = geti a q.toNat := hgetiEq q (by omega) houtq (by omega)
          rw [hbp, hbq]
          refine hcross p q h0p hpq (by omega) ?_
          intro s hs
          rw [List.mem_cons] at hs
          rcases hs with hs | hs
          · rw [hs]
            intro ⟨hc1, hc2⟩
            dsimp only at hc1 hc2
            omega
          · exact hnone s (hmemRest s hs)
    obtain ⟨ihlen, ihperm, ihsort, ihgood, ihvalid, ihdone⟩ := ih hok' hcross'
    refine ⟨?_, ?_, ihsort, ?_, ?_, ?_⟩
    · rw [ihlen, hplen]
    · exact ihperm.trans hpperm
    · exact goodTrace_append hpgood ihgood
    · intro s hs
      simp only [stepsOf, List.map_append, List.mem_append] at hs
      rcases hs with hs | hs
      · exact hpvalid s hs
      · have := ihvalid s hs
        rwa [hplen] at this
    · intro hmem
      simp only [stepsOf, List.map_append, List.mem_append] at hmem
      rcases hmem with hmem | hmem
      · exact hpdone hmem
      · exact ihdone hmem

theorem quickGen_ok (arr : List Val) : GenOk arr (quickGen arr) := by
  have hok : StackOk arr.length [(0, (arr.length : ℤ) - 1)] := by
    constructor
    · intro s hs
      simp only [List.mem_singleton] at hs
      rw [hs]
      exact ⟨le_refl 0, by omega⟩
    · exact List.pairwise_singleton _ _
  have hcross : CrossSorted arr [(0, (arr.length : ℤ) - 1)] := by
    intro p q h0p hpq hql hnone
    exact absurd ⟨h0p, by omega⟩ (hnone _ (List.mem_singleton_self _))
  obtain ⟨hl, hp, hsrt, hg, hv, hd⟩ :=
    quickLoop_spec arr [(0, (arr.length : ℤ) - 1)] hok hcross
  exact genOk_of_parts hsrt hp hg hv hd

theorem quickGen_short (arr : List Val) (h : arr.length ≤ 1) :
    (quickGen arr).1 = arr ∧ stepsOf (quickGen arr).2 = [Step.done] := by
  have h1 : quickLoop arr [(0, (arr.length : ℤ) - 1)] = (arr, []) := by
    rw [quickLoop_eq_skip (by omega), quickLoop_eq_nil]
  rw [quickGen, h1]
  exact ⟨rfl, rfl⟩

/-! ## Merge sort (`mergeGen`, algos.js lines 71-106) -/

/-- JS `arr.slice(s, e)` for the in-range uses of `mergeGen`. -/
def jsSlice (a : List Val) (s e : ℤ) : List Val :=
  (a.drop s.toNat).take (e - s).toNat

/-- Main merge loop of `mergeGen` (algos.js lines 82-92):
`while (i < left.length && j < right.length) { yield compare; take the smaller;
yield set; k++ }`.  Returns the array, both cursors, the write position and
the trace. -/
def mergeMain (arr left right : List Val) (l m : ℤ) (i j : ℕ) (k : ℤ) :
    List Val × ℕ × ℕ × ℤ × Trace :=
  if h : i < left.length ∧ j < right.length then
    if left.getD i 0 ≤ right.getD j 0 then
      ((mergeMain (jsSet arr k (left.getD i 0)) left right l m (i + 1) j (k + 1)).1,
        (mergeMain (jsSet arr k (left.getD i 0)) left right l m (i + 1) j (k + 1)).2.1,
        (mergeMain (jsSet arr k (left.getD i 0)) left right l m (i + 1) j (k + 1)).2.2.1,
        (mergeMain (jsSet arr k (left.getD i 0)) left right l m (i + 1) j (k + 1)).2.2.2.1,
        (Step.compare (l + i) (some (m + 1 + j)), arr) ::
          (Step.set k (geti (jsSet arr k (left.getD i 0)) k.toNat),
            jsSet arr k (left.getD i 0)) ::
            (mergeMain (jsSet arr k (left.getD i 0)) left right l m (i + 1) j (k + 1)).2.2.2.2)
    else
      ((mergeMain (jsSet arr k (right.getD j 0)) left right l m i (j + 1) (k + 1)).1,
        (mergeMain (jsSet arr k (right.getD j 0)) left right l m i (j + 1) (k + 1)).2.1,
        (mergeMain (jsSet arr k (right.getD j 0)) left right l m i (j + 1) (k + 1)).2.2.1,
        (mergeMain (jsSet arr k (right.getD j 0)) left right l m i (j + 1) (k + 1)).2.2.2.1,
        (Step.compare (l + i) (some (m + 1 + j)), arr) ::
          (Step.set k (geti (jsSet arr k (right.getD j 0)) k.toNat),
            jsSet arr k (right.getD j 0)) ::
            (mergeMain (jsSet arr k (right.getD j 0)) left right l m i (j + 1) (k + 1)).2.2.2.2)
  else (arr, i, j, k, [])
termination_by left.length - i + (right.length - j)
decreasing_by
  all_goals omega

/-- First drain loop of `mergeGen` (algos.js lines 93-97). -/
def mergeDrainL (arr left : List Val) (i : ℕ) (k : ℤ) : List Val × ℤ × Trace :=
  if h : i < left.length then
    ((mergeDrainL (jsSet arr k (left.getD i 0)) left (i + 1) (k + 1)).1,
      (mergeDrainL (jsSet arr k (left.getD i 0)) left (i + 1) (k + 1)).2.1,
      (Step.set k (geti (jsSet arr k (left.getD i 0)) k.toNat),
        jsSet arr k (left.getD i 0)) ::
        (mergeDrainL (jsSet arr k (left.getD i 0)) left (i + 1) (k + 1)).2.2)
  else (arr, k, [])
termination_by left.length - i

/-- Second drain loop of `mergeGen` (algos.js lines 98-102). -/
def mergeDrainR (arr right : List Val) (j : ℕ) (k : ℤ) : List Val × ℤ × Trace :=
  if h : j < right.length then
    ((mergeDrainR (jsSet arr k (right.getD j 0)) right (j + 1) (k + 1)).1,
      (mergeDrainR (jsSet arr k (right.getD j 0)) right (j + 1) (k + 1)).2.1,
      (Step.set k (geti (jsSet arr k (right.getD j 0)) k.toNat),
        jsSet arr k (right.getD j 0)) ::
        (mergeDrainR (jsSet arr k (right.getD j 0)) right (j + 1) (k + 1)).2.2)
  else (arr, k, [])
termination_by right.length - j

/-- The merge phase of one `mergeRange` call (algos.js lines 77-102):
copy the two halves out, then merge back and drain. -/
def mergePhase (arr : List Val) (l m r : ℤ) : List Val × Trace :=
  let left := jsSlice arr l (m + 1)
  let right := jsSlice arr (m + 1) (r + 1)
  let s1 := mergeMain arr left right l m 0 0 l
  let s2 := mergeDrainL s1.1 left s1.2.1 s1.2.2.2.1
  let s3 := mergeDrainR s2.1 right s1.2.2.1 s2.2.1
  (s3.1, s1.2.2.2.2 ++ s2.2.2 ++ s3.2.2)

/-- The recursive `mergeRange` of `mergeGen` (algos.js lines 72-103). -/
def mergeRun (arr : List Val) (l r : ℤ) : List Val × Trace :=
  if h : l ≥ r then (arr, [])
  else
    ((mergePhase
        (mergeRun (mergeRun arr l (Int.fdiv (l + r) 2)).1 (Int.fdiv (l + r) 2 + 1) r).1
        l (Int.fdiv (l + r) 2) r).1,
      (mergeRun arr l (Int.fdiv (l + r) 2)).2 ++
        (mergeRun (mergeRun arr l (Int.fdiv (l + r) 2)).1 (Int.fdiv (l + r) 2 + 1) r).2 ++
        (mergePhase
          (mergeRun (mergeRun arr l (Int.fdiv (l + r) 2)).1 (Int.fdiv (l + r) 2 + 1) r).1
          l (Int.fdiv (l + r) 2) r).2)
termination_by (r - l).toNat
decreasing_by
  all_goals
    rw [Int.fdiv_eq_ediv _ (by norm_num)]
    omega

/-- The `mergeGen` generator (algos.js lines 71-106). -/
def mergeGen (arr : List Val) : List Val × Trace :=
  ((mergeRun arr 0 ((arr.length : ℤ) - 1)).1,
    (mergeRun arr 0 ((arr.length : ℤ) - 1)).2 ++
      [(Step.done, (mergeRun arr 0 ((arr.length : ℤ) - 1)).1)])

/-- Sequential write-back of a list of values starting at position `k`. -/
def writeSeq (a : List Val) (k : ℤ) : List Val → List Val
  | [] => a
  | v :: vs => writeSeq (jsSet a k v) (k + 1) vs

theorem length_writeSeq (vs : List Val) : ∀ (a : List Val) (k : ℤ),
    (writeSeq a k vs).length = a.length := by
  induction vs with
  | nil => intro a k; rfl
  | cons v vs ih =>
    intro a k
    rw [writeSeq, ih, length_jsSet]

theorem jsGet_jsSet_other {a : List Val} {i q : ℤ} (hq : q ≠ i) (v : Val) :
    jsGet (jsSet a i v) q = jsGet a q := by
  unfold jsSet
  split
  · rcases Int.lt_or_le q 0 with hq0 | hq0
    · rw [jsGet, if_neg (by omega), jsGet, if_neg (by omega)]
    · rcases Int.lt_or_le q (a.length : ℤ) with hql | hql
      · have h1 : q.toNat < a.length := by omega
        have h2 : q.toNat < (a.set i.toNat v).length := by
          rw [List.length_set]
          omega
        rw [jsGet_eq_some hq0 h2, jsGet_eq_some hq0 h1]
        by_cases hqi : q.toNat = i.toNat
        · have : q = i := by omega
          exact absurd this hq
        · rw [geti_set_other hqi]
      · rw [jsGet, if_pos hq0, jsGet, if_pos hq0]
        rw [@List.getElem?_eq_none _ (a.set i.toNat v) _ (by rw [List.length_set]; omega),
          List.getElem?_eq_none (by omega)]
  · rfl

theorem jsGet_writeSeq_outside (vs : List Val) : ∀ (a : List Val) (k q : ℤ),
    (q < k ∨ k + vs.length ≤ q) → jsGet (writeSeq a k vs) q = jsGet a q := by
  induction vs with
  | nil => intro a k q hq; rfl
  | cons v vs ih =>
    intro a k q hq
    simp only [List.length_cons] at hq
    rw [writeSeq, ih _ _ _ (by omega), jsGet_jsSet_other (by omega)]

theorem take_set_append {a : List Val} {kn : ℕ} (h : kn < a.length) (v : Val) :
    (a.set kn v).take (kn + 1) = a.take kn ++ [v] := by
  rw [List.set_eq_take_cons_drop v h]
  rw [List.take_append_eq_append_take]
  have h1 : (a.take kn).length = kn := by
    rw [List.length_take]
    omega
  rw [List.take_take]
  have h2 : min (kn + 1) kn = kn := by omega
  rw [h2, h1]
  have h3 : kn + 1 - kn = 1 := by omega
  rw [h3]
  rfl

theorem writeSeq_eq (vs : List Val) : ∀ (a : List Val) (k : ℤ), 0 ≤ k →
    k.toNat + vs.length ≤ a.length →
    writeSeq a k vs = a.take k.toNat ++ vs ++ a.drop (k.toNat + vs.length) := by
  induction vs with
  | nil =>
    intro a k h0 hle
    simp only [writeSeq, List.length_nil, Nat.add_zero, List.append_nil]
    rw [List.take_append_drop]
  | cons v vs ih =>
    intro a k h0 hle
    simp only [List.length_cons] at hle
    have hklen : k.toNat < a.length := by omega
    rw [writeSeq]
    have hset : jsSet a k v = a.set k.toNat v := by
      rw [jsSet, if_pos h0]
    rw [hset]
    have hlen' : (a.set k.toNat v).length = a.length := by rw [List.length_set]
    rw [ih (a.set k.toNat v) (k + 1) (by omega) (by rw [hlen']; omega)]
    have he : (k + 1).toNat = k.toNat + 1 := by omega
    rw [he]
    rw [take_set_append hklen]
    rw [List.drop_set_of_lt _ _ (by omega : k.toNat < k.toNat + 1 + vs.length)]
    simp only [List.append_assoc, List.singleton_append, List.length_cons]
    have : k.toNat + 1 + vs.length = k.toNat + (vs.length + 1) := by omega
    rw [this]

/-- Specification of the first drain loop: it writes the rest of `left`
sequentially and its trace is chained, valid and done-free. -/
theorem mergeDrainL_spec (left : List Val) : ∀ (i : ℕ) (k : ℤ) (arr : List Val),
    0 ≤ k → k + ((left.length - i : ℕ) : ℤ) ≤ (arr.length : ℤ) →
    (mergeDrainL arr left i k).1 = writeSeq arr k (left.drop i) ∧
    (mergeDrainL arr left i k).2.1 = k + ((left.length - i : ℕ) : ℤ) ∧
    GoodTrace arr (mergeDrainL arr left i k).2.2 (mergeDrainL arr left i k).1 ∧
    (∀ s ∈ stepsOf (mergeDrainL arr left i k).2.2, validStep arr.length s = true) ∧
    Step.done ∉ stepsOf (mergeDrainL arr left i k).2.2 := by
  intro i k arr
  induction arr, left, i, k using mergeDrainL.induct with
  | case1 arr left i k h ih =>
    intro h0 hle
    rw [mergeDrainL, dif_pos h]
    dsimp only
    have hklen : k.toNat < arr.length := by omega
    have hset : jsSet arr k (left.getD i 0) = arr.set k.toNat (left.getD i 0) := by
      rw [jsSet, if_pos h0]
    have hlen' : (jsSet arr k (left.getD i 0)).length = arr.length :=
      length_jsSet arr k _
    obtain ⟨ih1, ih2, ih3, ih4, ih5⟩ := ih (by omega) (by rw [hlen']; omega)
    have hdrop : left.drop i = left.getD i 0 :: left.drop (i + 1) := by
      rw [← List.getElem_cons_drop left i h]
      rw [List.getD_eq_getElem left 0 h]
    refine ⟨?_, ?_, ?_, ?_, ?_⟩
    · rw [ih1, hdrop, writeSeq]
    · rw [ih2]
      omega
    · refine goodTrace_cons ?_ ih3
      show jsSet arr k (left.getD i 0) =
        jsSet arr k (geti (jsSet arr k (left.getD i 0)) k.toNat)
      rw [geti_jsSet_self h0 (by omega)]
    · intro s hs
      simp only [stepsOf, List.map_cons, List.mem_cons] at hs
      rcases hs with hs | hs
      · subst hs
        simp only [validStep, Bool.and_eq_true, decide_eq_true_eq]
        exact ⟨by omega, by omega⟩
      · have := ih4 s hs
        rwa [hlen'] at this
    · intro hmem
      simp only [stepsOf, List.map_cons, List.mem_cons] at hmem
      rcases hmem with hmem | hmem
      · exact Step.noConfusion hmem
      · exact ih5 hmem
  | case2 arr left i k h =>
    intro h0 hle
    rw [mergeDrainL, dif_neg h]
    dsimp only
    have hdrop : left.drop i = [] := by
      rw [List.drop_eq_nil_iff]
      omega
    refine ⟨by rw [hdrop]; rfl, by omega, goodTrace_nil arr, ?_, ?_⟩
    · intro s hs
      simp [stepsOf] at hs
    · simp [stepsOf]

/-- Specification of the second drain loop, symmetric to `mergeDrainL_spec`. -/
theorem mergeDrainR_spec (right : List Val) : ∀ (j : ℕ) (k : ℤ) (arr : List Val),
    0 ≤ k → k + ((right.length - j : ℕ) : ℤ) ≤ (arr.length : ℤ) →
    (mergeDrainR arr right j k).1 = writeSeq arr k (right.drop j) ∧
    (mergeDrainR arr right j k).2.1 = k + ((right.length - j : ℕ) : ℤ) ∧
    GoodTrace arr (mergeDrainR arr right j k).2.2 (mergeDrainR arr right j k).1 ∧
    (∀ s ∈ stepsOf (mergeDrainR arr right j k).2.2, validStep arr.length s = true) ∧
    Step.done ∉ stepsOf (mergeDrainR arr right j k).2.2 := by
  intro j k arr
  induction arr, right, j, k using mergeDrainR.induct with
  | case1 arr right j k h ih =>
    intro h0 hle
    rw [mergeDrainR, dif_pos h]
    dsimp only
    have hklen : k.toNat < arr.length := by omega
    have hlen' : (jsSet arr k (right.getD j 0)).length = arr.length :=
      length_jsSet arr k _
    obtain ⟨ih1, ih2, ih3, ih4, ih5⟩ := ih (by omega) (by rw [hlen']; omega)
    have hdrop : right.drop j = right.getD j 0 :: right.drop (j + 1) := by
      rw [← List.getElem_cons_drop right j h]
      rw [List.getD_eq_getElem right 0 h]
    refine ⟨?_, ?_, ?_, ?_, ?_⟩
    · rw [ih1, hdrop, writeSeq]
    · rw [ih2]
      omega
    · refine goodTrace_cons ?_ ih3
      show jsSet arr k (right.getD j 0) =
        jsSet arr k (geti (jsSet arr k (right.getD j 0)) k.toNat)
      rw [geti_jsSet_self h0 (by omega)]
    · intro s hs
      simp only [stepsOf, List.map_cons, List.mem_cons] at hs
      rcases hs with hs | hs
      · subst hs
        simp only [validStep, Bool.and_eq_true, decide_eq_true_eq]
        exact ⟨by omega, by omega⟩
      · have := ih4 s hs
        rwa [hlen'] at this
    · intro hmem
      simp only [stepsOf, List.map_cons, List.mem_cons] at hmem
      rcases hmem with hmem | hmem
      · exact Step.noConfusion hmem
      · exact ih5 hmem
  | case2 arr right j k h =>
    intro h0 hle
    rw [mergeDrainR, dif_neg h]
    dsimp only
    have hdrop : right.drop j = [] := by
      rw [List.drop_eq_nil_iff]
      omega
    refine ⟨by rw [hdrop]; rfl, by omega, goodTrace_nil arr, ?_, ?_⟩
    · intro s hs
      simp [stepsOf] at hs
    · simp [stepsOf]

/-- The two drain loops in sequence, as run after the main merge loop. -/
def mergeTail (arr left right : List Val) (i j : ℕ) (k : ℤ) : List Val × Trace :=
  ((mergeDrainR (mergeDrainL arr left i k).1 right j (mergeDrainL arr left i k).2.1).1,
    (mergeDrainL arr left i k).2.2 ++
      (mergeDrainR (mergeDrainL arr left i k).1 right j (mergeDrainL arr left i k).2.1).2.2)

/-- The main merge loop followed by the two drain loops. -/
def mergeCore (arr left right : List Val) (l m : ℤ) (i j : ℕ) (k : ℤ) : List Val × Trace :=
  ((mergeTail (mergeMain arr left right l m i j k).1 left right
      (mergeMain arr left right l m i j k).2.1
      (mergeMain arr left right l m i j k).2.2.1
      (mergeMain arr left right l m i j k).2.2.2.1).1,
    (mergeMain arr left right l m i j k).2.2.2.2 ++
      (mergeTail (mergeMain arr left right l m i j k).1 left right
        (mergeMain arr left right l m i j k).2.1
        (mergeMain arr left right l m i j k).2.2.1
        (mergeMain arr left right l m i j k).2.2.2.1).2)

theorem mergePhase_eq_core (arr : List Val) (l m r : ℤ) :
    mergePhase arr l m r =
      mergeCore arr (jsSlice arr l (m + 1)) (jsSlice arr (m + 1) (r + 1)) l m 0 0 l := by
  simp only [mergePhase, mergeCore, mergeTail, List.append_assoc]

theorem mergeMain_eq_left {arr left right : List Val} {l m : ℤ} {i j : ℕ} {k : ℤ}
    (h : i < left.length ∧ j < right.length) (hle : left.getD i 0 ≤ right.getD j 0) :
    mergeMain arr left right l m i j k =
      ((mergeMain (jsSet arr k (left.getD i 0)) left right l m (i + 1) j (k + 1)).1,
        (mergeMain (jsSet arr k (left.getD i 0)) left right l m (i + 1) j (k + 1)).2.1,
        (mergeMain (jsSet arr k (left.getD i 0)) left right l m (i + 1) j (k + 1)).2.2.1,
        (mergeMain (jsSet arr k (left.getD i 0)) left right l m (i + 1) j (k + 1)).2.2.2.1,
        (Step.compare (l + i) (some (m + 1 + j)), arr) ::
          (Step.set k (geti (jsSet arr k (left.getD i 0)) k.toNat),
            jsSet arr k (left.getD i 0)) ::
            (mergeMain (jsSet arr k (left.getD i 0)) left right l m (i + 1) j (k + 1)).2.2.2.2) := by
  rw [mergeMain, dif_pos h, if_pos hle]

theorem mergeMain_eq_right {arr left right : List Val} {l m : ℤ} {i j : ℕ} {k : ℤ}
    (h : i < left.length ∧ j < right.length) (hle : ¬ left.getD i 0 ≤ right.getD j 0) :
    mergeMain arr left right l m i j k =
      ((mergeMain (jsSet arr k (right.getD j 0)) left right l m i (j + 1) (k + 1)).1,
        (mergeMain (jsSet arr k (right.getD j 0)) left right l m i (j + 1) (k + 1)).2.1,
        (mergeMain (jsSet arr k (right.getD j 0)) left right l m i (j + 1) (k + 1)).2.2.1,
        (mergeMain (jsSet arr k (right.getD j 0)) left right l m i (j + 1) (k + 1)).2.2.2.1,
        (Step.compare (l + i) (some (m + 1 + j)), arr) ::
          (Step.set k (geti (jsSet arr k (right.getD j 0)) k.toNat),
            jsSet arr k (right.getD j 0)) ::
            (mergeMain (jsSet arr k (right.getD j 0)) left right l m i (j + 1) (k + 1)).2.2.2.2) := by
  rw [mergeMain, dif_pos h, if_neg hle]

theorem mergeMain_eq_exit {arr left right : List Val} {l m : ℤ} {i j : ℕ} {k : ℤ}
    (h : ¬ (i < left.length ∧ j < right.length)) :
    mergeMain arr left right l m i j k = (arr, i, j, k, []) := by
  rw [mergeMain, dif_neg h]

theorem mergeCore_eq_left {arr left right : List Val} {l m : ℤ} {i j : ℕ} {k : ℤ}
    (h : i < left.length ∧ j < right.length) (hle : left.getD i 0 ≤ right.getD j 0) :
    mergeCore arr left right l m i j k =
      ((mergeCore (jsSet arr k (left.getD i 0)) left right l m (i + 1) j (k + 1)).1,
        (Step.compare (l + i) (some (m + 1 + j)), arr) ::
          (Step.set k (geti (jsSet arr k (left.getD i 0)) k.toNat),
            jsSet arr k (left.getD i 0)) ::
            (mergeCore (jsSet arr k (left.getD i 0)) left right l m (i + 1) j (k + 1)).2) := by
  unfold mergeCore
  rw [mergeMain_eq_left h hle]
  dsimp only
  rw [List.cons_append, List.cons_append]

theorem mergeCore_eq_right {arr left right : List Val} {l m : ℤ} {i j : ℕ} {k : ℤ}
    (h : i < left.length ∧ j < right.length) (hle : ¬ left.getD i 0 ≤ right.getD j 0) :
    mergeCore arr left right l m i j k =
      ((mergeCore (jsSet arr k (right.getD j 0)) left right l m i (j + 1) (k + 1)).1,
        (Step.compare (l + i) (some (m + 1 + j)), arr) ::
          (Step.set k (geti (jsSet arr k (right.getD j 0)) k.toNat),
            jsSet arr k (right.getD j 0)) ::
            (mergeCore (jsSet arr k (right.getD j 0)) left right l m i (j + 1) (k + 1)).2) := by
  unfold mergeCore
  rw [mergeMain_eq_right h hle]
  dsimp only
  rw [List.cons_append, List.cons_append]

theorem mergeCore_eq_exit {arr left right : List Val} {l m : ℤ} {i j : ℕ} {k : ℤ}
    (h : ¬ (i < left.length ∧ j < right.length)) :
    mergeCore arr left right l m i j k =
      ((mergeTail arr left right i j k).1, (mergeTail arr left right i j k).2) := by
  unfold mergeCore
  rw [mergeMain_eq_exit h]
  dsimp only
  rw [List.nil_append]

theorem mergeTail_spec (left right : List Val) (i j : ℕ) (k : ℤ) (arr : List Val)
    (h0 : 0 ≤ k)
    (hle : k + ((left.length - i : ℕ) : ℤ) + ((right.length - j : ℕ) : ℤ) ≤ (arr.length : ℤ)) :
    (mergeTail arr left right i j k).1 =
      writeSeq (writeSeq arr k (left.drop i)) (k + ((left.length - i : ℕ) : ℤ))
        (right.drop j) ∧
    GoodTrace arr (mergeTail arr left right i j k).2 (mergeTail arr left right i j k).1 ∧
    (∀ s ∈ stepsOf (mergeTail arr left right i j k).2, validStep arr.length s = true) ∧
    Step.done ∉ stepsOf (mergeTail arr left right i j k).2 := by
  obtain ⟨dl1, dl2, dl3, dl4, dl5⟩ := mergeDrainL_spec left i k arr h0 (by omega)
  have hlen1 : (mergeDrainL arr left i k).1.length = arr.length := by
    rw [dl1, length_writeSeq]
  obtain ⟨dr1, dr2, dr3, dr4, dr5⟩ :=
    mergeDrainR_spec right j (mergeDrainL arr left i k).2.1 (mergeDrainL arr left i k).1
      (by rw [dl2]; omega) (by rw [dl2, hlen1]; omega)
  unfold mergeTail
  refine ⟨?_, ?_, ?_, ?_⟩
  · rw [dr1, dl1, dl2]
  · exact goodTrace_append ⟨dl3.1, dl3.2⟩ ⟨dr3.1, dr3.2⟩
  · intro s hs
    simp only [stepsOf, List.map_append, List.mem_append] at hs
    rcases hs with hs | hs
    · exact dl4 s hs
    · have := dr4 s hs
      rwa [hlen1] at this
  · intro hmem
    simp only [stepsOf, List.map_append, List.mem_append] at hmem
    rcases hmem with hmem | hmem
    · exact dl5 hmem
    · exact dr5 hmem

/-- Specification of the whole merge write-back (main loop plus drains): it
writes exactly the standard merge of the two halves starting at `k`, with a
chained, in-bounds, done-free trace. -/
theorem mergeCore_spec (r : ℤ) :
    ∀ (arr left right : List Val) (l m : ℤ) (i j : ℕ) (k : ℤ),
      0 ≤ l → l + (left.length : ℤ) = m + 1 → m + 1 + (right.length : ℤ) = r + 1 →
      i ≤ left.length → j ≤ right.length → k = l + i + j → r < (arr.length : ℤ) →
      (mergeCore arr left right l m i j k).1 =
        writeSeq arr k
          (List.merge (left.drop i) (right.drop j) (fun x y => decide (x ≤ y))) ∧
      GoodTrace arr (mergeCore arr left right l m i j k).2
        (mergeCore arr left right l m i j k).1 ∧
      (∀ s ∈ stepsOf (mergeCore arr left right l m i j k).2,
        validStep arr.length s = true) ∧
      Step.done ∉ stepsOf (mergeCore arr left right l m i j k).2 := by
  intro arr left right l m i j k
  induction arr, left, right, l, m, i, j, k using mergeMain.induct with
  | case1 arr left right l m i j k h hle ih =>
    intro h0l hm hr hil hjr hk hrlen
    have hkr : k ≤ r := by omega
    have h0k : 0 ≤ k := by omega
    have hklen : k.toNat < arr.length := by omega
    rw [mergeCore_eq_left h hle]
    dsimp only
    have hlen' : (jsSet arr k (left.getD i 0)).length = arr.length := length_jsSet arr k _
    obtain ⟨ih1, ih2, ih3, ih4⟩ :=
      ih h0l hm hr (by omega) hjr (by omega) (by rw [hlen']; exact hrlen)
    have hmerge : List.merge (left.drop i) (right.drop j) (fun x y => decide (x ≤ y)) =
        left.getD i 0 ::
          List.merge (left.drop (i + 1)) (right.drop j) (fun x y => decide (x ≤ y)) := by
      rw [← List.getElem_cons_drop left i h.1, ← List.getElem_cons_drop right j h.2,
        List.merge]
      rw [List.getD_eq_getElem left 0 h.1, List.getD_eq_getElem right 0 h.2] at hle
      rw [if_pos (by simpa using hle)]
      rw [List.getElem_cons_drop, List.getD_eq_getElem left 0 h.1]
    refine ⟨?_, ?_, ?_, ?_⟩
    · rw [ih1, hmerge, writeSeq]
    · refine goodTrace_cons rfl (goodTrace_cons ?_ ih2)
      show jsSet arr k (left.getD i 0) =
        applyStep arr (Step.set k (geti (jsSet arr k (left.getD i 0)) k.toNat))
      show jsSet arr k (left.getD i 0) =
        jsSet arr k (geti (jsSet arr k (left.getD i 0)) k.toNat)
      rw [geti_jsSet_self h0k hklen]
    · intro s hs
      simp only [stepsOf, List.map_cons, List.mem_cons] at hs
      rcases hs with hs | hs | hs
      · subst hs
        simp only [validStep, Bool.and_eq_true, decide_eq_true_eq]
        refine ⟨⟨by omega, by omega⟩, by omega, by omega⟩
      · subst hs
        simp only [validStep, Bool.and_eq_true, decide_eq_true_eq]
        exact ⟨by omega, by omega⟩
      · have := ih3 s hs
        rwa [hlen'] at this
    · intro hmem
      simp only [stepsOf, List.map_cons, List.mem_cons] at hmem
      rcases hmem with hmem | hmem | hmem
      · exact Step.noConfusion hmem
      · exact Step.noConfusion hmem
      · exact ih4 hmem
  | case2 arr left right l m i j k h hle ih =>
    intro h0l hm hr hil hjr hk hrlen
    have hkr : k ≤ r := by omega
    have h0k : 0 ≤ k := by omega
    have hklen : k.toNat < arr.length := by omega
    rw [mergeCore_eq_right h hle]
    dsimp only
    have hlen' : (jsSet arr k (right.getD j 0)).length = arr.length := length_jsSet arr k _
    obtain ⟨ih1, ih2, ih3, ih4⟩ :=
      ih h0l hm hr hil (by omega) (by omega) (by rw [hlen']; exact hrlen)
    have hmerge : List.merge (left.drop i) (right.drop j) (fun x y => decide (x ≤ y)) =
        right.getD j 0 ::
          List.merge (left.drop i) (right.drop (j + 1)) (fun x y => decide (x ≤ y)) := by
      rw [← List.getElem_cons_drop left i h.1, ← List.getElem_cons_drop right j h.2,
        List.merge]
      rw [List.getD_eq_getElem left 0 h.1, List.getD_eq_getElem right 0 h.2] at hle
      rw [if_neg (by simpa using hle)]
      rw [List.getElem_cons_drop, List.getD_eq_getElem right 0 h.2]
    refine ⟨?_, ?_, ?_, ?_⟩
    · rw [ih1, hmerge, writeSeq]
    · refine goodTrace_cons rfl (goodTrace_cons ?_ ih2)
      show jsSet arr k (right.getD j 0) =
        jsSet arr k (geti (jsSet arr k (right.getD j 0)) k.toNat)
      rw [geti_jsSet_self h0k hklen]
    · intro s hs
      simp only [stepsOf, List.map_cons, List.mem_cons] at hs
      rcases hs with hs | hs | hs
      · subst hs
        simp only [validStep, Bool.and_eq_true, decide_eq_true_eq]
        refine ⟨⟨by omega, by omega⟩, by omega, by omega⟩
      · subst hs
        simp only [validStep, Bool.and_eq_true, decide_eq_true_eq]
        exact ⟨by omega, by omega⟩
      · have := ih3 s hs
        rwa [hlen'] at this
    · intro hmem
      simp only [stepsOf, List.map_cons, List.mem_cons] at hmem
      rcases hmem with hmem | hmem | hmem
      · exact Step.noConfusion hmem
      · exact Step.noConfusion hmem
      · exact ih4 hmem
  | case3 arr left right l m i j k h =>
    intro h0l hm hr hil hjr hk hrlen
    rw [mergeCore_eq_exit h]
    dsimp only
    obtain ⟨t1, t2, t3, t4⟩ := mergeTail_spec left right i j k arr (by omega) (by omega)
    refine ⟨?_, t2, t3, t4⟩
    rw [t1]
    rcases Nat.lt_or_ge i left.length with hi | hi
    · have hj : right.length ≤ j := by
        by_contra hj'
        exact h ⟨hi, by omega⟩
      have hrj : right.drop j = [] := by
        rw [List.drop_eq_nil_iff]
        omega
      rw [hrj, List.merge_right, writeSeq]
    · have hli : left.drop i = [] := by
        rw [List.drop_eq_nil_iff]
        omega
      have he : left.length - i = 0 := by omega
      rw [hli, List.nil_merge, he]
      show writeSeq (writeSeq arr k []) (k + ((0 : ℕ) : ℤ)) (right.drop j) = _
      rw [writeSeq]
      congr 1
      omega

theorem length_jsSlice (a : List Val) (s e : ℤ) (h0 : 0 ≤ s) (hse : s ≤ e)
    (he : e ≤ (a.length : ℤ)) : ((jsSlice a s e).length : ℤ) = e - s := by
  unfold jsSlice
  simp only [List.length_take, List.length_drop]
  omega

theorem mergePhase_spec (arr : List Val) (l m r : ℤ)
    (h0l : 0 ≤ l) (hlm : l ≤ m) (hmr : m < r) (hrlen : r < (arr.length : ℤ)) :
    (mergePhase arr l m r).1 =
      arr.take l.toNat ++
        List.merge (jsSlice arr l (m + 1)) (jsSlice arr (m + 1) (r + 1))
          (fun x y => decide (x ≤ y)) ++ arr.drop (r.toNat + 1) ∧
    (∀ k : ℤ, k < l ∨ r < k → jsGet (mergePhase arr l m r).1 k = jsGet arr k) ∧
    (mergePhase arr l m r).1.length = arr.length ∧
    GoodTrace arr (mergePhase arr l m r).2 (mergePhase arr l m r).1 ∧
    (∀ s ∈ stepsOf (mergePhase arr l m r).2, validStep arr.length s = true) ∧
    Step.done ∉ stepsOf (mergePhase arr l m r).2 := by
  have hllen : ((jsSlice arr l (m + 1)).length : ℤ) = m + 1 - l :=
    length_jsSlice arr l (m + 1) h0l (by omega) (by omega)
  have hrlen2 : ((jsSlice arr (m + 1) (r + 1)).length : ℤ) = r - m := by
    have := length_jsSlice arr (m + 1) (r + 1) (by omega) (by omega) (by omega)
    omega
  obtain ⟨c1, c2, c3, c4⟩ :=
    mergeCore_spec r arr (jsSlice arr l (m + 1)) (jsSlice arr (m + 1) (r + 1)) l m 0 0 l
      h0l (by omega) (by omega) (by omega) (by omega) (by omega) hrlen
  rw [mergePhase_eq_core]
  have hmlen : ((List.merge (jsSlice arr l (m + 1)) (jsSlice arr (m + 1) (r + 1))
      (fun x y => decide (x ≤ y))).length : ℤ) = r + 1 - l := by
    rw [List.length_merge]
    push_cast
    omega
  rw [List.drop_zero, List.drop_zero] at c1
  refine ⟨?_, ?_, ?_, c2, c3, c4⟩
  · rw [c1]
    rw [writeSeq_eq _ arr l h0l (by omega)]
    congr 1
    congr 1
    omega
  · intro k hk
    rw [c1]
    apply jsGet_writeSeq_outside
    omega
  · rw [c1, length_writeSeq]

theorem geti_append_middle (pre mid post : List Val) (p : ℕ) (hp : pre.length ≤ p)
    (hp2 : p < pre.length + mid.length) :
    geti (pre ++ mid ++ post) p = geti mid (p - pre.length) := by
  unfold geti
  have h3 : p < (pre ++ mid).length := by
    simp only [List.length_append]
    omega
  rw [List.getD_append (pre ++ mid) post 0 p h3]
  rw [List.getD_append_right pre mid 0 p hp]

theorem sorted_midSeg_of_geti {a : List Val} {l r : ℕ}
    (h : ∀ p q : ℕ, l ≤ p → p ≤ q → q ≤ r → q < a.length → geti a p ≤ geti a q) :
    List.Sorted (fun x y : Val => x ≤ y) (midSeg a l r) := by
  unfold List.Sorted
  rw [List.pairwise_iff_getElem]
  intro t₁ t₂ h₁ h₂ hlt
  have hlen : (midSeg a l r).length = min (r + 1 - l) (a.length - l) := by
    unfold midSeg
    simp
  have hb₁ : l + t₁ < a.length := by omega
  have hb₂ : l + t₂ < a.length := by omega
  have e₁ : (midSeg a l r)[t₁] = a[l + t₁] := by
    unfold midSeg
    rw [List.getElem_take, List.getElem_drop]
  have e₂ : (midSeg a l r)[t₂] = a[l + t₂] := by
    unfold midSeg
    rw [List.getElem_take, List.getElem_drop]
  rw [e₁, e₂, ← geti_eq_getElem (by omega), ← geti_eq_getElem (by omega)]
  exact h (l + t₁) (l + t₂) (by omega) (by omega) (by omega) (by omega)

theorem geti_of_jsGet_eq {a b : List Val} {k : ℤ} (h : jsGet b k = jsGet a k)
    (h0 : 0 ≤ k) (hb : k.toNat < b.length) (ha : k.toNat < a.length) :
    geti b k.toNat = geti a k.toNat := by
  rw [jsGet_eq_some h0 hb, jsGet_eq_some h0 ha] at h
  exact Option.some.inj h

theorem jsSlice_eq_midSeg (a : List Val) (s e : ℤ) (h0 : 0 ≤ s) (hse : s < e) :
    jsSlice a s e = midSeg a s.toNat (e - 1).toNat := by
  unfold jsSlice midSeg
  have he : (e - s).toNat = (e - 1).toNat + 1 - s.toNat := by omega
  rw [he]

theorem mergeRun_spec : ∀ (arr : List Val) (l r : ℤ), 0 ≤ l → r < (arr.length : ℤ) →
    (mergeRun arr l r).1.length = arr.length ∧
    List.Perm (mergeRun arr l r).1 arr ∧
    (∀ k : ℤ, k < l ∨ r < k → jsGet (mergeRun arr l r).1 k = jsGet arr k) ∧
    (∀ p q : ℤ, l ≤ p → p ≤ q → q ≤ r →
      geti (mergeRun arr l r).1 p.toNat ≤ geti (mergeRun arr l r).1 q.toNat) ∧
    GoodTrace arr (mergeRun arr l r).2 (mergeRun arr l r).1 ∧
    (∀ s ∈ stepsOf (mergeRun arr l r).2, validStep arr.length s = true) ∧
    Step.done ∉ stepsOf (mergeRun arr l r).2 := by
  intro arr l r
  induction arr, l, r using mergeRun.induct with
  | case1 arr l r h =>
    intro h0l hrlen
    rw [mergeRun, dif_pos h]
    dsimp only
    refine ⟨rfl, List.Perm.refl arr, fun k _ => rfl, ?_, goodTrace_nil arr, ?_, ?_⟩
    · intro p q hlp hpq hqr
      have : p = q := by omega
      rw [this]
    · intro s hs
      simp [stepsOf] at hs
    · simp [stepsOf]
  | case2 arr l r h ih1 ih2 =>
    intro h0l hrlen
    have hlr : l < r := by omega
    have hm1 : l ≤ Int.fdiv (l + r) 2 := (fdiv_mid (by omega)).1
    have hm2 : Int.fdiv (l + r) 2 < r := by
      rw [Int.fdiv_eq_ediv _ (by norm_num)]
      omega
    rw [mergeRun, dif_neg h]
    dsimp only
    obtain ⟨l1, p1, u1, s1, g1, v1, d1⟩ := ih1 h0l (by omega)
    obtain ⟨l2, p2, u2, s2, g2, v2, d2⟩ := ih2 (by omega) (by rw [l1]; omega)
    obtain ⟨c1, cu, cl, cg, cv, cd⟩ :=
      mergePhase_spec (mergeRun (mergeRun arr l (Int.fdiv (l + r) 2)).1
          (Int.fdiv (l + r) 2 + 1) r).1 l (Int.fdiv (l + r) 2) r h0l hm1 hm2
        (by rw [l2, l1]; omega)
    set m := Int.fdiv (l + r) 2 with hmdef
    set b1 := (mergeRun arr l m).1 with hb1def
    set b2 := (mergeRun b1 (m + 1) r).1 with hb2def
    have hb2len : b2.length = arr.length := by rw [l2, l1]
    have hb2lenZ : r < (b2.length : ℤ) := by rw [hb2len]; omega
    set le' := fun x y : Val => decide (x ≤ y) with hledef
    set lft := jsSlice b2 l (m + 1) with hlftdef
    set rgt := jsSlice b2 (m + 1) (r + 1) with hrgtdef
    set mrg := List.merge lft rgt le' with hmrgdef
    have hllen : ((lft.length : ℤ)) = m + 1 - l := by
      rw [hlftdef]
      exact length_jsSlice b2 l (m + 1) h0l (by omega) (by omega)
    have hrglen : ((rgt.length : ℤ)) = r - m := by
      rw [hrgtdef]
      have := length_jsSlice b2 (m + 1) (r + 1) (by omega) (by omega) (by omega)
      omega
    have hmrglen : ((mrg.length : ℤ)) = r + 1 - l := by
      rw [hmrgdef, List.length_merge]
      push_cast
      omega
    have hseg : midSeg b2 l.toNat r.toNat = lft ++ rgt := by
      rw [hlftdef, hrgtdef]
      unfold midSeg jsSlice
      have ht : r.toNat + 1 - l.toNat = (m + 1 - l).toNat + (r + 1 - (m + 1)).toNat := by
        omega
      rw [ht, List.take_add]
      congr 1
      rw [List.drop_drop]
      congr 2
      omega
    have htklen : (b2.take l.toNat).length = l.toNat := by
      rw [List.length_take]
      omega
    -- permutation of the phase result with the array before the phase
    have hpermphase : List.Perm (mergePhase b2 l m r).1 b2 := by
      rw [c1]
      have hp1 : List.Perm mrg (lft ++ rgt) := List.merge_perm_append le'
      have hp2' : List.Perm (b2.take l.toNat ++ mrg ++ b2.drop (r.toNat + 1))
          (b2.take l.toNat ++ (lft ++ rgt) ++ b2.drop (r.toNat + 1)) :=
        (hp1.append_left (b2.take l.toNat)).append_right (b2.drop (r.toNat + 1))
      refine hp2'.trans ?_
      rw [← hseg]
      rw [List.append_assoc]
      rw [midSeg_decomp b2 l.toNat r.toNat (by omega)]
    -- sortedness of the two halves
    have hsortL : List.Sorted (fun x y : Val => x ≤ y) lft := by
      rw [hlftdef, jsSlice_eq_midSeg b2 l (m + 1) h0l (by omega)]
      have he : m + 1 - 1 = m := by ring
      rw [he]
      refine sorted_midSeg_of_geti ?_
      intro p q hlp hpq hqr hql
      have hu2p : jsGet b2 (p : ℤ) = jsGet b1 (p : ℤ) := u2 (p : ℤ) (Or.inl (by omega))
      have hu2q : jsGet b2 (q : ℤ) = jsGet b1 (q : ℤ) := u2 (q : ℤ) (Or.inl (by omega))
      have hb1len : b1.length = arr.length := l1
      have hplen2 : p < b2.length := by omega
      have hqlen2 : q < b2.length := by omega
      have hplen1 : p < b1.length := by omega
      have hqlen1 : q < b1.length := by omega
      have hgp : geti b2 p = geti b1 p := by
        have := geti_of_jsGet_eq hu2p (by omega) (by simpa using hplen2)
          (by simpa using hplen1)
        simpa using this
      have hgq : geti b2 q = geti b1 q := by
        have := geti_of_jsGet_eq hu2q (by omega) (by simpa using hqlen2)
          (by simpa using hqlen1)
        simpa using this
      rw [hgp, hgq]
      have := s1 (p : ℤ) (q : ℤ) (by omega) (by omega) (by omega)
      simpa [Int.toNat_natCast] using this
    have hsortR : List.Sorted (fun x y : Val => x ≤ y) rgt := by
      rw [hrgtdef, jsSlice_eq_midSeg b2 (m + 1) (r + 1) (by omega) (by omega)]
      have he : r + 1 - 1 = r := by ring
      rw [he]
      refine sorted_midSeg_of_geti ?_
      intro p q hlp hpq hqr hql
      have := s2 (p : ℤ) (q : ℤ) (by omega) (by omega) (by omega)
      simpa [Int.toNat_natCast] using this
    have hsortM : List.Sorted (fun x y : Val => x ≤ y) mrg := by
      rw [hmrgdef, hledef]
      exact List.Sorted.merge hsortL hsortR
    refine ⟨?_, ?_, ?_, ?_, ?_, ?_, ?_⟩
    · rw [cl, hb2len]
    · exact hpermphase.trans (p2.trans p1)
    · intro k hk
      rw [cu k hk, u2 k (by omega), u1 k (by omega)]
    · intro p q hlp hpq hqr
      rcases Int.lt_or_le p q with hpq' | hpq'
      · have hplt : p.toNat < l.toNat + mrg.length := by omega
        have hqlt : q.toNat < l.toNat + mrg.length := by omega
        have e1 : geti (mergePhase b2 l m r).1 p.toNat = geti mrg (p.toNat - l.toNat) := by
          rw [c1]
          have := geti_append_middle (b2.take l.toNat) mrg (b2.drop (r.toNat + 1))
            p.toNat (by omega) (by omega)
          rwa [htklen] at this
        have e2 : geti (mergePhase b2 l m r).1 q.toNat = geti mrg (q.toNat - l.toNat) := by
          rw [c1]
          have := geti_append_middle (b2.take l.toNat) mrg (b2.drop (r.toNat + 1))
            q.toNat (by omega) (by omega)
          rwa [htklen] at this
        rw [e1, e2]
        have ht1 : p.toNat - l.toNat < mrg.length := by omega
        have ht2 : q.toNat - l.toNat < mrg.length := by omega
        rw [geti_eq_getElem ht1, geti_eq_getElem ht2]
        have := List.pairwise_iff_getElem.mp hsortM (p.toNat - l.toNat)
          (q.toNat - l.toNat) ht1 ht2 (by omega)
        exact this
      · have : p = q := by omega
        rw [this]
    · exact goodTrace_append (goodTrace_append g1 g2) cg
    · intro s hs
      simp only [stepsOf, List.map_append, List.mem_append] at hs
      rcases hs with (hs | hs) | hs
      · exact v1 s hs
      · have := v2 s hs
        rwa [l1] at this
      · have := cv s hs
        rwa [hb2len] at this
    · intro hmem
      simp only [stepsOf, List.map_append, List.mem_append] at hmem
      rcases hmem with (hmem | hmem) | hmem
      · exact d1 hmem
      · exact d2 hmem
      · exact cd hmem


theorem mergeGen_ok (arr : List Val) : GenOk arr (mergeGen arr) := by
  obtain ⟨l1, p1, u1, s1, g1, v1, d1⟩ :=
    mergeRun_spec arr 0 ((arr.length : ℤ) - 1) (le_refl 0) (by omega)
  refine genOk_of_parts ?_ p1 g1 v1 d1
  refine nonDecr_of_geti ?_
  intro p q hpq hq
  have hq' : q < arr.length := by omega
  have := s1 (p : ℤ) (q : ℤ) (by omega) (by omega) (by omega)
  simpa [Int.toNat_natCast] using this

theorem mergeGen_short (arr : List Val) (h : arr.length ≤ 1) :
    (mergeGen arr).1 = arr ∧ stepsOf (mergeGen arr).2 = [Step.done] := by
  have hrun : mergeRun arr 0 ((arr.length : ℤ) - 1) = (arr, []) := by
    rw [mergeRun, dif_pos (by omega)]
  rw [mergeGen, hrun]
  exact ⟨rfl, rfl⟩


/-! ## Heap sort (`heapGen`, algos.js lines 109-138) -/

/-- The child selected by `siftDown` (algos.js lines 114-119): the left child
`2*root+1`, bumped to the right child when it exists and is larger. -/
def hChild (a : List Val) (root e : ℕ) : ℕ :=
  if 2 * root + 2 ≤ e ∧ oLt (jsGet a (2 * root + 1 : ℕ)) (jsGet a (2 * root + 2 : ℕ)) = true
  then 2 * root + 2 else 2 * root + 1

/-- The compare step emitted while selecting the larger child (algos.js
lines 116-118), present only when the right child is inside the heap. -/
def childCmp (a : List Val) (root e : ℕ) : Trace :=
  if 2 * root + 2 ≤ e then [(Step.compare (2 * root + 1 : ℕ) (some (2 * root + 2 : ℕ)), a)]
  else []

theorem hChild_gt (a : List Val) (root e : ℕ) : root < hChild a root e := by
  unfold hChild
  split <;> omega

theorem hChild_le {a : List Val} {root e : ℕ} (h : 2 * root + 1 ≤ e) :
    hChild a root e ≤ e := by
  unfold hChild
  split
  · omega
  · omega

theorem hChild_cases (a : List Val) (root e : ℕ) :
    hChild a root e = 2 * root + 1 ∨ hChild a root e = 2 * root + 2 := by
  unfold hChild
  split
  · exact Or.inr rfl
  · exact Or.inl rfl

/-- The `siftDown` inner generator of `heapGen` (algos.js lines 111-127). -/
def siftDown (a : List Val) (root e : ℕ) : List Val × Trace :=
  if h1 : e < 2 * root + 1 then (a, [])
  else
    if h2 : oLt (jsGet a (root : ℕ)) (jsGet a (hChild a root e : ℕ)) = true then
      ((siftDown (jsSwap a (root : ℕ) (hChild a root e : ℕ)) (hChild a root e) e).1,
        childCmp a root e ++
          (Step.compare (root : ℕ) (some (hChild a root e : ℕ)), a) ::
          (Step.swap (root : ℕ) (hChild a root e : ℕ),
            jsSwap a (root : ℕ) (hChild a root e : ℕ)) ::
          (siftDown (jsSwap a (root : ℕ) (hChild a root e : ℕ)) (hChild a root e) e).2)
    else
      (a, childCmp a root e ++ [(Step.compare (root : ℕ) (some (hChild a root e : ℕ)), a)])
termination_by e + 1 - root
decreasing_by
  have h3 := hChild_gt a root e
  have h4 := @hChild_le a root e (by omega)
  omega

theorem siftDown_eq_exit {a : List Val} {root e : ℕ} (h1 : e < 2 * root + 1) :
    siftDown a root e = (a, []) := by
  rw [siftDown, dif_pos h1]

theorem siftDown_eq_swap {a : List Val} {root e : ℕ} (h1 : ¬ e < 2 * root + 1)
    (h2 : oLt (jsGet a (root : ℕ)) (jsGet a (hChild a root e : ℕ)) = true) :
    siftDown a root e =
      ((siftDown (jsSwap a (root : ℕ) (hChild a root e : ℕ)) (hChild a root e) e).1,
        childCmp a root e ++
          (Step.compare (root : ℕ) (some (hChild a root e : ℕ)), a) ::
          (Step.swap (root : ℕ) (hChild a root e : ℕ),
            jsSwap a (root : ℕ) (hChild a root e : ℕ)) ::
          (siftDown (jsSwap a (root : ℕ) (hChild a root e : ℕ)) (hChild a root e) e).2) := by
  rw [siftDown, dif_neg h1, dif_pos h2]

theorem siftDown_eq_stop {a : List Val} {root e : ℕ} (h1 : ¬ e < 2 * root + 1)
    (h2 : ¬ oLt (jsGet a (root : ℕ)) (jsGet a (hChild a root e : ℕ)) = true) :
    siftDown a root e =
      (a, childCmp a root e ++ [(Step.compare (root : ℕ) (some (hChild a root e : ℕ)), a)]) := by
  rw [siftDown, dif_neg h1, dif_neg h2]

/-- The heap-building loop of `heapGen` (algos.js lines 129-131). -/
def buildLoop (a : List Val) (n : ℕ) (start : ℤ) : List Val × Trace :=
  if h : 0 ≤ start then
    ((buildLoop (siftDown a start.toNat (n - 1)).1 n (start - 1)).1,
      (siftDown a start.toNat (n - 1)).2 ++
        (buildLoop (siftDown a start.toNat (n - 1)).1 n (start - 1)).2)
  else (a, [])
termination_by (start + 1).toNat
decreasing_by omega

/-- The extraction loop of `heapGen` (algos.js lines 132-136). -/
def extractLoop (a : List Val) (e : ℤ) : List Val × Trace :=
  if h : 0 < e then
    ((extractLoop (siftDown (jsSwap a 0 e) 0 (e - 1).toNat).1 (e - 1)).1,
      (Step.swap 0 e, jsSwap a 0 e) ::
        ((siftDown (jsSwap a 0 e) 0 (e - 1).toNat).2 ++
          (extractLoop (siftDown (jsSwap a 0 e) 0 (e - 1).toNat).1 (e - 1)).2))
  else (a, [])
termination_by e.toNat
decreasing_by omega

/-- The `heapGen` generator (algos.js lines 109-138). -/
def heapGen (arr : List Val) : List Val × Trace :=
  ((extractLoop (buildLoop arr arr.length (Int.fdiv ((arr.length : ℤ) - 2) 2)).1
      ((arr.length : ℤ) - 1)).1,
    ((buildLoop arr arr.length (Int.fdiv ((arr.length : ℤ) - 2) 2)).2 ++
        (extractLoop (buildLoop arr arr.length (Int.fdiv ((arr.length : ℤ) - 2) 2)).1
          ((arr.length : ℤ) - 1)).2) ++
      [(Step.done,
        (extractLoop (buildLoop arr arr.length (Int.fdiv ((arr.length : ℤ) - 2) 2)).1
          ((arr.length : ℤ) - 1)).1)])

/-- Membership of `k` in the binary-heap subtree rooted at `root`
(reachability through repeated parent steps). -/
def inSub (root k : ℕ) : Bool :=
  if k < root then false
  else if k = root then true
  else inSub root ((k - 1) / 2)
termination_by k
decreasing_by omega

theorem inSub_self (root : ℕ) : inSub root root = true := by
  rw [inSub]
  simp

theorem inSub_lt {root k : ℕ} (h : k < root) : inSub root k = false := by
  rw [inSub, if_pos h]

theorem inSub_ge {root k : ℕ} (h : inSub root k = true) : root ≤ k := by
  by_contra hc
  rw [inSub_lt (by omega)] at h
  exact Bool.false_ne_true h

theorem inSub_step {root k : ℕ} (h : root < k) :
    inSub root k = inSub root ((k - 1) / 2) := by
  rw [inSub, if_neg (by omega), if_neg (by omega)]

theorem inSub_zero (k : ℕ) : inSub 0 k = true := by
  induction k using Nat.strong_induction_on with
  | _ k ih =>
    rcases Nat.eq_zero_or_pos k with hk | hk
    · rw [hk]; exact inSub_self 0
    · rw [inSub_step hk]
      exact ih _ (by omega)

theorem inSub_trans {a b c : ℕ} (h1 : inSub a b = true) (h2 : inSub b c = true) :
    inSub a c = true := by
  induction c using Nat.strong_induction_on with
  | _ c ih =>
    rcases Nat.lt_trichotomy b c with hbc | hbc | hbc
    · have hab := inSub_ge h1
      rw [inSub_step hbc] at h2
      have := ih ((c - 1) / 2) (by omega) h2
      rw [inSub_step (by omega)]
      exact this
    · rw [← hbc]; exact h1
    · rw [inSub_lt hbc] at h2
      exact absurd h2 Bool.false_ne_true

theorem inSub_child_left (root : ℕ) : inSub root (2 * root + 1) = true := by
  rw [inSub_step (by omega)]
  have h : (2 * root + 1 - 1) / 2 = root := by omega
  rw [h]
  exact inSub_self root

theorem inSub_child_right (root : ℕ) : inSub root (2 * root + 2) = true := by
  rw [inSub_step (by omega)]
  have h : (2 * root + 2 - 1) / 2 = root := by omega
  rw [h]
  exact inSub_self root

/-- Parent dominance on heap edges with parent index at least `lo` and child
index at most `e`. -/
def DomFrom (a : List Val) (lo e : ℕ) : Prop :=
  ∀ p j : ℕ, j ≤ e → (j = 2 * p + 1 ∨ j = 2 * p + 2) → lo ≤ p → geti a j ≤ geti a p

/-- Along any parent chain inside the subtree of `root`, values are bounded
by the value at `root` whenever the edges below `root` are dominant. -/
theorem chain_le {a : List Val} {root e : ℕ}
    (H : ∀ p j : ℕ, j ≤ e → (j = 2 * p + 1 ∨ j = 2 * p + 2) → root ≤ p →
      geti a j ≤ geti a p) :
    ∀ k : ℕ, inSub root k = true → k ≤ e → geti a k ≤ geti a root := by
  intro k
  induction k using Nat.strong_induction_on with
  | _ k ih =>
    intro hk hke
    rcases Nat.eq_or_lt_of_le (inSub_ge hk) with hr | hr
    · rw [← hr]
    · have hp : inSub root ((k - 1) / 2) = true := by
        rw [inSub_step hr] at hk
        exact hk
      have hedge : k = 2 * ((k - 1) / 2) + 1 ∨ k = 2 * ((k - 1) / 2) + 2 := by omega
      have h1 : geti a k ≤ geti a ((k - 1) / 2) :=
        H ((k - 1) / 2) k hke hedge (inSub_ge hp)
      have h2 : geti a ((k - 1) / 2) ≤ geti a root :=
        ih ((k - 1) / 2) (by omega) hp (by omega)
      exact h1.trans h2

/-- The values of `l` at the positions below `n` selected by `f`. -/
def regionList (f : ℕ → Bool) (n : ℕ) (l : List Val) : List Val :=
  ((List.range n).filter f).map (fun k => geti l k)

theorem map_geti_range (l : List Val) :
    (List.range l.length).map (fun k => geti l k) = l := by
  apply List.ext_getElem
  · simp
  · intro t h1 h2
    simp only [List.getElem_map, List.getElem_range]
    exact geti_eq_getElem h2

theorem jsGet_eq_of_geti {a b : List Val} {k : ℤ} (hlen : b.length = a.length)
    (h : geti b k.toNat = geti a k.toNat) : jsGet b k = jsGet a k := by
  unfold jsGet
  by_cases h0 : 0 ≤ k
  · rw [if_pos h0, if_pos h0]
    by_cases hk : k.toNat < a.length
    · rw [List.getElem?_eq_getElem (by omega), List.getElem?_eq_getElem (by omega)]
      rw [← geti_eq_getElem (by omega), ← geti_eq_getElem (by omega), h]
    · rw [List.getElem?_eq_none (by omega), List.getElem?_eq_none (by omega)]
  · rw [if_neg h0, if_neg h0]

theorem region_perm {a b : List Val} (f : ℕ → Bool) (hlen : b.length = a.length)
    (hperm : List.Perm b a)
    (hoff : ∀ k : ℕ, k < a.length → f k = false → geti b k = geti a k) :
    List.Perm (regionList f a.length b) (regionList f a.length a) := by
  set n := a.length with hn
  have hsplit : ∀ l : List Val, l.length = n →
      ∀ v : Val, l.count v =
        (regionList f n l).count v +
          (((List.range n).filter (fun k => ! f k)).map (fun k => geti l k)).count v := by
    intro l hl v
    have h1 : List.Perm ((List.range n).filter f ++ (List.range n).filter (fun k => ! f k))
        (List.range n) := List.filter_append_perm f (List.range n)
    have h2 : List.Perm
        (((List.range n).filter f ++ (List.range n).filter (fun k => ! f k)).map
          (fun k => geti l k))
        ((List.range n).map (fun k => geti l k)) := h1.map _
    rw [← hl] at h2
    rw [map_geti_range l] at h2
    rw [← h2.count_eq v, List.map_append, List.count_append]
    rw [hl]
    rfl
  have hoffeq : ((List.range n).filter (fun k => ! f k)).map (fun k => geti b k) =
      ((List.range n).filter (fun k => ! f k)).map (fun k => geti a k) := by
    apply List.map_congr_left
    intro k hk
    simp only [List.mem_filter, List.mem_range, Bool.not_eq_eq_eq_not, Bool.not_true] at hk
    exact hoff k hk.1 hk.2
  rw [List.perm_iff_count]
  intro v
  have hb := hsplit b hlen
  have ha := hsplit a rfl
  have hcnt := hperm.count_eq v
  rw [hb v, ha v, hoffeq] at hcnt
  omega

theorem region_bound {a b : List Val} {f : ℕ → Bool} {M : Val}
    (hlen : b.length = a.length) (hperm : List.Perm b a)
    (hoff : ∀ k : ℕ, k < a.length → f k = false → geti b k = geti a k)
    (hbnd : ∀ k : ℕ, k < a.length → f k = true → geti a k ≤ M) :
    ∀ j : ℕ, j < a.length → f j = true → geti b j ≤ M := by
  intro j hj hfj
  have hperm' := region_perm f hlen hperm hoff
  have hmem : geti b j ∈ regionList f a.length b := by
    unfold regionList
    refine List.mem_map_of_mem _ ?_
    rw [List.mem_filter]
    exact ⟨List.mem_range.mpr hj, hfj⟩
  have hmem' : geti b j ∈ regionList f a.length a := hperm'.mem_iff.mp hmem
  unfold regionList at hmem'
  obtain ⟨k, hk, hval⟩ := List.mem_map.mp hmem'
  rw [List.mem_filter, List.mem_range] at hk
  rw [← hval]
  exact hbnd k hk.1 hk.2

theorem hChild_ge_left {a : List Val} {root e : ℕ} (h1 : 2 * root + 1 ≤ e)
    (hlen : e < a.length) :
    geti a (2 * root + 1) ≤ geti a (hChild a root e) := by
  unfold hChild
  split
  · next hcond =>
    obtain ⟨u, v, hu, hv, huv⟩ := oLt_true_elim hcond.2
    obtain ⟨_, _, hu'⟩ := jsGet_some_elim hu
    obtain ⟨_, _, hv'⟩ := jsGet_some_elim hv
    simp only [Int.toNat_natCast] at hu' hv'
    rw [hu', hv'] at huv
    exact le_of_lt huv
  · exact le_refl _

theorem hChild_ge_right {a : List Val} {root e : ℕ} (h1 : 2 * root + 2 ≤ e)
    (hlen : e < a.length) :
    geti a (2 * root + 2) ≤ geti a (hChild a root e) := by
  unfold hChild
  split
  · exact le_refl _
  · next hcond =>
    have hlt : ¬ oLt (jsGet a ((2 * root + 1 : ℕ) : ℤ)) (jsGet a ((2 * root + 2 : ℕ) : ℤ))
        = true := by
      intro hc
      exact hcond ⟨h1, hc⟩
    rw [jsGet_natCast a (2 * root + 1) (by omega), jsGet_natCast a (2 * root + 2) (by omega)]
      at hlt
    simp only [oLt, decide_eq_true_eq] at hlt
    exact le_of_not_lt hlt

theorem oLt_natCast_elim {a : List Val} {p q : ℕ} (hp : p < a.length) (hq : q < a.length)
    (h : oLt (jsGet a (p : ℕ)) (jsGet a (q : ℕ)) = true) : geti a p < geti a q := by
  rw [jsGet_natCast a p hp, jsGet_natCast a q hq] at h
  simpa [oLt] using h

theorem oLt_natCast_not {a : List Val} {p q : ℕ} (hp : p < a.length) (hq : q < a.length)
    (h : ¬ oLt (jsGet a (p : ℕ)) (jsGet a (q : ℕ)) = true) : geti a q ≤ geti a p := by
  rw [jsGet_natCast a p hp, jsGet_natCast a q hq] at h
  simp only [oLt, decide_eq_true_eq] at h
  exact le_of_not_lt h

theorem validStep_compareNat {n x y : ℕ} (hx : x < n) (hy : y < n) :
    validStep n (Step.compare (x : ℕ) (some ((y : ℕ) : ℤ))) = true := by
  simp only [validStep, Bool.and_eq_true, decide_eq_true_eq]
  omega

theorem validStep_swapNat {n x y : ℕ} (hx : x < n) (hy : y < n) :
    validStep n (Step.swap (x : ℕ) (y : ℕ)) = true := by
  simp only [validStep, Bool.and_eq_true, decide_eq_true_eq]
  omega

theorem goodTrace_childCmp (a : List Val) (root e : ℕ) :
    GoodTrace a (childCmp a root e) a := by
  unfold childCmp
  split
  · exact ⟨⟨rfl, trivial⟩, rfl⟩
  · exact goodTrace_nil a

theorem childCmp_steps {a : List Val} {root e : ℕ} {s : Step}
    (hs : s ∈ stepsOf (childCmp a root e)) :
    2 * root + 2 ≤ e ∧ s = Step.compare ((2 * root + 1 : ℕ) : ℤ) (some ((2 * root + 2 : ℕ) : ℤ)) := by
  unfold childCmp at hs
  split at hs
  · next h =>
    simp only [stepsOf, List.map_cons, List.map_nil, List.mem_singleton] at hs
    exact ⟨h, hs⟩
  · simp [stepsOf] at hs

theorem geti_swapNat_other {a : List Val} {i j k : ℕ} (hki : k ≠ i) (hkj : k ≠ j) :
    geti (jsSwap a ((i : ℕ) : ℤ) ((j : ℕ) : ℤ)) k = geti a k :=
  @geti_jsSwap_other a (i : ℤ) (j : ℤ) k (by simpa using hki) (by simpa using hkj)

theorem geti_swapNat_left {a : List Val} {i j : ℕ} (hi : i < a.length) (hj : j < a.length) :
    geti (jsSwap a ((i : ℕ) : ℤ) ((j : ℕ) : ℤ)) i = geti a j := by
  have := @geti_jsSwap_left a (i : ℤ) (j : ℤ) (by omega) (by simpa using hi) (by omega)
    (by simpa using hj)
  simpa using this

theorem geti_swapNat_right {a : List Val} {i j : ℕ} (hi : i < a.length) (hj : j < a.length) :
    geti (jsSwap a ((i : ℕ) : ℤ) ((j : ℕ) : ℤ)) j = geti a i := by
  have := @geti_jsSwap_right a (i : ℤ) (j : ℤ) (by omega) (by simpa using hi) (by omega)
    (by simpa using hj)
  simpa using this

theorem jsSwapNat_perm {a : List Val} {i j : ℕ} (hi : i < a.length) (hj : j < a.length) :
    List.Perm (jsSwap a ((i : ℕ) : ℤ) ((j : ℕ) : ℤ)) a :=
  jsSwap_perm (by omega) (by simpa using hi) (by omega) (by simpa using hj)

/-- Full specification of `siftDown`: starting from an array whose heap edges
below `root` are all dominant, sifting restores dominance for every edge with
parent at least `root`, permutes the array, touches only the subtree of
`root` (and only inside the heap bound `e`), and emits a chained, valid,
`done`-free trace. -/
theorem siftDown_spec : ∀ (a : List Val) (root e : ℕ), e < a.length →
    DomFrom a (root + 1) e →
    (siftDown a root e).1.length = a.length ∧
    List.Perm (siftDown a root e).1 a ∧
    (∀ k : ℕ, inSub root k = false ∨ e < k → geti (siftDown a root e).1 k = geti a k) ∧
    DomFrom (siftDown a root e).1 root e ∧
    GoodTrace a (siftDown a root e).2 (siftDown a root e).1 ∧
    (∀ s ∈ stepsOf (siftDown a root e).2, validStep a.length s = true) ∧
    Step.done ∉ stepsOf (siftDown a root e).2 := by
  intro a root e
  induction a, root, e using siftDown.induct with
  | case1 a root e h1 =>
    intro hlen H
    rw [siftDown_eq_exit h1]
    refine ⟨rfl, List.Perm.refl a, fun k _ => rfl, ?_, goodTrace_nil a, ?_, ?_⟩
    · intro p j hj hedge hp
      rcases Nat.eq_or_lt_of_le hp with hpr | hpr
      · exact absurd hj (by omega)
      · exact H p j hj hedge (by omega)
    · intro s hs
      simp [stepsOf] at hs
    · simp [stepsOf]
  | case2 a root e h1 h2 ih =>
    intro hlen H
    rw [siftDown_eq_swap h1 h2]
    dsimp only
    set c := hChild a root e with hcdef
    have hc1 : root < c := hChild_gt a root e
    have hc2 : c ≤ e := @hChild_le a root e (by omega)
    have hclb : 2 * root + 1 ≤ c := by
      rcases hChild_cases a root e with hcv | hcv
      · rw [hcdef, hcv]
      · rw [hcdef, hcv]; omega
    have hcub : c ≤ 2 * root + 2 := by
      rcases hChild_cases a root e with hcv | hcv
      · rw [hcdef, hcv]; omega
      · rw [hcdef, hcv]
    have hclen : c < a.length := by omega
    have hrlen : root < a.length := by omega
    set a' := jsSwap a ((root : ℕ) : ℤ) ((c : ℕ) : ℤ) with hadef
    have hlen' : a'.length = a.length := length_jsSwap a _ _
    have hperma' : List.Perm a' a := jsSwapNat_perm hrlen hclen
    have H' : DomFrom a' (c + 1) e := by
      intro p j hj hedge hp
      have hpne : p ≠ root := by omega
      have hpnec : p ≠ c := by omega
      have hjne : j ≠ root := by omega
      have hjnec : j ≠ c := by omega
      rw [hadef, geti_swapNat_other hpne hpnec, geti_swapNat_other hjne hjnec]
      exact H p j hj hedge (by omega)
    obtain ⟨L, P, F, D, G, V, Dn⟩ := ih (by rw [hlen']; exact hlen) H'
    have hlt : geti a root < geti a c := oLt_natCast_elim hrlen hclen h2
    have hchain : ∀ k : ℕ, inSub c k = true → k ≤ e → geti a k ≤ geti a c := by
      refine chain_le ?_
      intro p j hj hedge hp
      exact H p j hj hedge (by omega)
    have hbnd : ∀ k : ℕ, k < a'.length → (inSub c k && decide (k ≤ e)) = true →
        geti a' k ≤ geti a c := by
      intro k hk hf
      simp only [Bool.and_eq_true, decide_eq_true_eq] at hf
      by_cases hkc : k = c
      · subst hkc
        rw [hadef, geti_swapNat_right hrlen hclen]
        exact le_of_lt hlt
      · have hkgt : c < k := by
          have := inSub_ge hf.1
          omega
        rw [hadef, geti_swapNat_other (by omega) hkc]
        exact hchain k hf.1 hf.2
    have hoff : ∀ k : ℕ, k < a'.length → (inSub c k && decide (k ≤ e)) = false →
        geti (siftDown a' c e).1 k = geti a' k := by
      intro k hk hf
      by_cases hsub : inSub c k = true
      · rw [hsub] at hf
        simp only [Bool.true_and, decide_eq_false_iff_not] at hf
        exact F k (Or.inr (by omega))
      · exact F k (Or.inl (by simpa using hsub))
    have hbbound := @region_bound a' (siftDown a' c e).1
      (fun k => inSub c k && decide (k ≤ e)) (geti a c) L P hoff hbnd
    have hrc : inSub root c = true := by
      rcases hChild_cases a root e with hcv | hcv
      · rw [hcdef, hcv]; exact inSub_child_left root
      · rw [hcdef, hcv]; exact inSub_child_right root
    have hbroot : geti (siftDown a' c e).1 root = geti a c := by
      rw [F root (Or.inl (inSub_lt hc1)), hadef, geti_swapNat_left hrlen hclen]
    refine ⟨?_, ?_, ?_, ?_, ?_, ?_, ?_⟩
    · exact L.trans hlen'
    · exact P.trans hperma'
    · intro k hk
      rcases hk with hk | hk
      · have hknr : k ≠ root := by
          intro hkr
          rw [hkr, inSub_self] at hk
          exact absurd hk (by simp)
        have hknc : inSub c k = false := by
          by_contra hcc
          rw [Bool.not_eq_false] at hcc
          rw [inSub_trans hrc hcc] at hk
          exact absurd hk (by simp)
        have hknc' : k ≠ c := by
          intro hkc
          rw [hkc, inSub_self] at hknc
          exact absurd hknc (by simp)
        rw [F k (Or.inl hknc), hadef, geti_swapNat_other hknr hknc']
      · rw [F k (Or.inr hk), hadef, geti_swapNat_other (by omega) (by omega)]
    · intro p j hj hedge hp
      rcases Nat.lt_or_ge p c with hpc | hpc
      · rcases Nat.eq_or_lt_of_le hp with hpr | hpr
        · subst hpr
          by_cases hjc : j = c
          · rw [hjc, hbroot]
            exact hbbound c (by omega) (by
              simp only [inSub_self, Bool.true_and, decide_eq_true_eq]
              exact hc2)
          · have hjs : inSub c j = false := by
              rcases Nat.lt_or_ge j c with hjlt | hjge
              · exact inSub_lt hjlt
              · rw [inSub_step (by omega)]
                have hpar : (j - 1) / 2 = root := by omega
                rw [hpar]
                exact inSub_lt hc1
            have hjse : geti (siftDown a' c e).1 j = geti a j := by
              rw [F j (Or.inl hjs), hadef, geti_swapNat_other (by omega) hjc]
            rw [hjse, hbroot]
            rcases hedge with hje | hje
            · subst hje
              rw [hcdef]
              exact hChild_ge_left (by omega) hlen
            · subst hje
              rw [hcdef]
              exact hChild_ge_right (by omega) hlen
        · have hpnr : p ≠ root := by omega
          have hpnc : p ≠ c := by omega
          have hpsub : inSub c p = false := inSub_lt hpc
          have hjsub : inSub c j = false := by
            rw [inSub_step (by omega)]
            have hpar : (j - 1) / 2 = p := by omega
            rw [hpar]
            exact inSub_lt hpc
          rw [F p (Or.inl hpsub), F j (Or.inl hjsub), hadef,
            geti_swapNat_other hpnr hpnc, geti_swapNat_other (by omega) (by omega)]
          exact H p j hj hedge (by omega)
      · exact D p j hj hedge hpc
    · refine goodTrace_append (goodTrace_childCmp a root e) ?_
      refine goodTrace_cons rfl ?_
      exact goodTrace_cons hadef G
    · intro s hs
      simp only [stepsOf, List.map_append, List.map_cons, List.mem_append,
        List.mem_cons] at hs
      rcases hs with hs | hs | hs | hs
      · obtain ⟨hle, hval⟩ := childCmp_steps hs
        rw [hval]
        exact validStep_compareNat (by omega) (by omega)
      · rw [hs]
        exact validStep_compareNat (by omega) (by omega)
      · rw [hs]
        exact validStep_swapNat (by omega) (by omega)
      · have := V s hs
        rwa [hlen'] at this
    · intro hmem
      simp only [stepsOf, List.map_append, List.map_cons, List.mem_append,
        List.mem_cons] at hmem
      rcases hmem with hmem | hmem | hmem | hmem
      · obtain ⟨_, hval⟩ := childCmp_steps hmem
        exact Step.noConfusion hval
      · exact Step.noConfusion hmem
      · exact Step.noConfusion hmem
      · exact Dn hmem
  | case3 a root e h1 h2 =>
    intro hlen H
    rw [siftDown_eq_stop h1 h2]
    dsimp only
    set c := hChild a root e with hcdef
    have hc1 : root < c := hChild_gt a root e
    have hc2 : c ≤ e := @hChild_le a root e (by omega)
    have hclen : c < a.length := by omega
    have hrlen : root < a.length := by omega
    have hge : geti a c ≤ geti a root := oLt_natCast_not hrlen hclen h2
    refine ⟨rfl, List.Perm.refl a, fun k _ => rfl, ?_, ?_, ?_, ?_⟩
    · intro p j hj hedge hp
      rcases Nat.eq_or_lt_of_le hp with hpr | hpr
      · subst hpr
        rcases hedge with hje | hje
        · subst hje
          refine le_trans ?_ hge
          rw [hcdef]
          exact hChild_ge_left (by omega) hlen
        · subst hje
          refine le_trans ?_ hge
          rw [hcdef]
          exact hChild_ge_right (by omega) hlen
      · exact H p j hj hedge (by omega)
    · refine goodTrace_append (goodTrace_childCmp a root e) ?_
      exact ⟨⟨rfl, trivial⟩, rfl⟩
    · intro s hs
      simp only [stepsOf, List.map_append, List.map_cons, List.map_nil, List.mem_append,
        List.mem_cons, List.not_mem_nil, or_false] at hs
      rcases hs with hs | hs
      · obtain ⟨hle, hval⟩ := childCmp_steps hs
        rw [hval]
        exact validStep_compareNat (by omega) (by omega)
      · rw [hs]
        exact validStep_compareNat (by omega) (by omega)
    · intro hmem
      simp only [stepsOf, List.map_append, List.map_cons, List.map_nil, List.mem_append,
        List.mem_cons, List.not_mem_nil, or_false] at hmem
      rcases hmem with hmem | hmem
      · obtain ⟨_, hval⟩ := childCmp_steps hmem
        exact Step.noConfusion hval
      · exact Step.noConfusion hmem

/-- The build loop turns the whole array into a max-heap: starting from
dominance on all edges with parent index above `start`, it finishes with
dominance on every heap edge. -/
theorem buildLoop_spec : ∀ (a : List Val) (n : ℕ) (start : ℤ), a.length = n →
    start < (n : ℤ) →
    (∀ p j : ℕ, j ≤ n - 1 → (j = 2 * p + 1 ∨ j = 2 * p + 2) → start < (p : ℤ) →
      geti a j ≤ geti a p) →
    (buildLoop a n start).1.length = n ∧
    List.Perm (buildLoop a n start).1 a ∧
    DomFrom (buildLoop a n start).1 0 (n - 1) ∧
    GoodTrace a (buildLoop a n start).2 (buildLoop a n start).1 ∧
    (∀ s ∈ stepsOf (buildLoop a n start).2, validStep n s = true) ∧
    Step.done ∉ stepsOf (buildLoop a n start).2 := by
  intro a n start
  induction a, n, start using buildLoop.induct with
  | case1 a n start h ih =>
    intro hlen hsn H
    rw [buildLoop, dif_pos h]
    dsimp only
    have hn1 : 1 ≤ n := by omega
    obtain ⟨L1, P1, F1, D1, G1, V1, Dn1⟩ :=
      siftDown_spec a start.toNat (n - 1) (by omega)
        (fun p j hj hedge hp => H p j hj hedge (by omega))
    obtain ⟨L2, P2, D2, G2, V2, Dn2⟩ :=
      ih (by rw [L1, hlen]) (by omega)
        (fun p j hj hedge hp => D1 p j hj hedge (by omega))
    refine ⟨L2, P2.trans P1, D2, goodTrace_append G1 G2, ?_, ?_⟩
    · intro s hs
      simp only [stepsOf, List.map_append, List.mem_append] at hs
      rcases hs with hs | hs
      · have := V1 s hs
        rwa [hlen] at this
      · exact V2 s hs
    · intro hmem
      simp only [stepsOf, List.map_append, List.mem_append] at hmem
      rcases hmem with hmem | hmem
      · exact Dn1 hmem
      · exact Dn2 hmem
  | case2 a n start h =>
    intro hlen hsn H
    rw [buildLoop, dif_neg h]
    refine ⟨hlen, List.Perm.refl a, ?_, goodTrace_nil a, ?_, ?_⟩
    · intro p j hj hedge hp
      exact H p j hj hedge (by omega)
    · intro s hs
      simp [stepsOf] at hs
    · simp [stepsOf]

/-- The extraction loop of `heapGen`: given a heap on the prefix `[0, e]`,
a sorted suffix beyond `e` dominating the prefix, repeatedly swapping the
root to position `e` and re-sifting sorts the whole array. -/
theorem extractLoop_spec : ∀ (a : List Val) (e : ℤ), e < (a.length : ℤ) →
    (∀ p j : ℕ, (j : ℤ) ≤ e → (j = 2 * p + 1 ∨ j = 2 * p + 2) → geti a j ≤ geti a p) →
    (∀ p q : ℕ, e < (p : ℤ) → p ≤ q → q < a.length → geti a p ≤ geti a q) →
    (∀ k m : ℕ, (k : ℤ) ≤ e → e < (m : ℤ) → m < a.length → geti a k ≤ geti a m) →
    (extractLoop a e).1.length = a.length ∧
    List.Perm (extractLoop a e).1 a ∧
    (∀ p q : ℕ, p ≤ q → q < a.length → geti (extractLoop a e).1 p ≤ geti (extractLoop a e).1 q) ∧
    GoodTrace a (extractLoop a e).2 (extractLoop a e).1 ∧
    (∀ s ∈ stepsOf (extractLoop a e).2, validStep a.length s = true) ∧
    Step.done ∉ stepsOf (extractLoop a e).2 := by
  intro a e
  induction a, e using extractLoop.induct with
  | case1 a e h ih =>
    intro hlen hheap hsorted hcross
    rw [extractLoop, dif_pos h]
    dsimp only
    have h0len : 0 < a.length := by omega
    have helen : e.toNat < a.length := by omega
    set a' := jsSwap a 0 e with hadef
    have hacast : a' = jsSwap a ((0 : ℕ) : ℤ) ((e.toNat : ℕ) : ℤ) := by
      rw [hadef]
      congr 1
      omega
    have hlen' : a'.length = a.length := length_jsSwap a 0 e
    have hperm' : List.Perm a' a := jsSwap_perm (by omega) (by simpa using h0len)
      (by omega) (by omega)
    have hmax : ∀ k : ℕ, (k : ℤ) ≤ e → geti a k ≤ geti a 0 := by
      intro k hk
      exact @chain_le a 0 e.toNat (fun p j hj hedge hp => hheap p j (by omega) hedge) k
        (inSub_zero k) (by omega)
    obtain ⟨L1, P1, F1, D1, G1, V1, Dn1⟩ :=
      siftDown_spec a' 0 (e - 1).toNat (by omega)
        (by
          intro p j hj hedge hp
          have hpne : p ≠ 0 := by omega
          have hjne : j ≠ 0 := by omega
          have hpnee : p ≠ e.toNat := by omega
          have hjnee : j ≠ e.toNat := by omega
          rw [hacast, geti_swapNat_other hpne hpnee, geti_swapNat_other hjne hjnee]
          exact hheap p j (by omega) hedge)
    have hF1 : ∀ k : ℕ, e ≤ (k : ℤ) → geti (siftDown a' 0 (e - 1).toNat).1 k = geti a' k :=
      fun k hk => F1 k (Or.inr (by omega))
    have hae : geti a' e.toNat = geti a 0 := by
      rw [hacast]
      have := @geti_swapNat_right a 0 e.toNat (by omega) helen
      simpa using this
    have haout : ∀ k : ℕ, e < (k : ℤ) → geti a' k = geti a k := by
      intro k hk
      rw [hacast]
      exact geti_swapNat_other (by omega) (by omega)
    obtain ⟨L2, P2, S2, G2, V2, Dn2⟩ :=
      ih (by rw [L1, hlen']; omega)
        (by
          intro p j hj hedge
          exact D1 p j (by omega) hedge (by omega))
        (by
          intro p q hp hpq hq
          rw [L1, hlen'] at hq
          by_cases hpe : (p : ℤ) = e
          · have hpe' : p = e.toNat := by omega
            by_cases hqe : q = p
            · rw [hqe]
            · have hqgt : e < (q : ℤ) := by omega
              rw [hF1 p (by omega), hF1 q (by omega), hpe', hae, haout q hqgt]
              exact hcross 0 q (by omega) hqgt hq
          · have hpgt : e < (p : ℤ) := by omega
            have hqgt : e < (q : ℤ) := by omega
            rw [hF1 p (by omega), hF1 q (by omega), haout p hpgt, haout q hqgt]
            exact hsorted p q hpgt hpq hq)
        (by
          intro k m hk hm hmlen
          rw [L1, hlen'] at hmlen
          have hmval : geti a 0 ≤ geti (siftDown a' 0 (e - 1).toNat).1 m := by
            by_cases hme : (m : ℤ) = e
            · have hme' : m = e.toNat := by omega
              rw [hF1 m (by omega), hme', hae]
            · have hmgt : e < (m : ℤ) := by omega
              rw [hF1 m (by omega), haout m hmgt]
              exact hcross 0 m (by omega) hmgt hmlen
          refine le_trans ?_ hmval
          have hprefperm : List.Perm (midSeg (siftDown a' 0 (e - 1).toNat).1 0 (e - 1).toNat)
              (midSeg a' 0 (e - 1).toNat) := by
            refine midSeg_perm (by rw [L1]) P1 0 (e - 1).toNat (by omega) ?_
            intro q h0q hq
            rcases hq with hq | hq
            · omega
            · refine jsGet_eq_of_geti (by rw [L1]) ?_
              exact F1 q.toNat (Or.inr (by omega))
          have hkm : geti (siftDown a' 0 (e - 1).toNat).1 k ∈
              midSeg (siftDown a' 0 (e - 1).toNat).1 0 (e - 1).toNat :=
            geti_mem_midSeg (by omega) (by omega) (by rw [L1, hlen']; omega)
          have hk' := hprefperm.mem_iff.mp hkm
          obtain ⟨q, hq0, hqe, hqlen, hqval⟩ := mem_midSeg_elim hk'
          rw [← hqval]
          by_cases hq00 : q = 0
          · rw [hq00, hacast]
            rw [@geti_swapNat_left a 0 e.toNat (by omega) helen]
            exact hmax e.toNat (by omega)
          · rw [hacast, geti_swapNat_other hq00 (by omega)]
            exact hmax q (by omega))
    refine ⟨?_, ?_, ?_, ?_, ?_, ?_⟩
    · rw [L2, L1, hlen']
    · exact P2.trans (P1.trans hperm')
    · intro p q hpq hq
      rw [← hlen', ← L1] at hq
      exact S2 p q hpq hq
    · refine goodTrace_cons hadef ?_
      exact goodTrace_append G1 G2
    · intro s hs
      simp only [stepsOf, List.map_cons, List.map_append, List.mem_cons,
        List.mem_append] at hs
      rcases hs with hs | hs | hs
      · rw [hs]
        simp only [validStep, Bool.and_eq_true, decide_eq_true_eq]
        omega
      · have := V1 s hs
        rwa [hlen'] at this
      · have := V2 s hs
        rwa [L1, hlen'] at this
    · intro hmem
      simp only [stepsOf, List.map_cons, List.map_append, List.mem_cons,
        List.mem_append] at hmem
      rcases hmem with hmem | hmem | hmem
      · exact Step.noConfusion hmem
      · exact Dn1 hmem
      · exact Dn2 hmem
  | case2 a e h =>
    intro hlen hheap hsorted hcross
    rw [extractLoop, dif_neg h]
    refine ⟨rfl, List.Perm.refl a, ?_, goodTrace_nil a, ?_, ?_⟩
    · intro p q hpq hq
      rcases Nat.eq_or_lt_of_le hpq with hpq' | hpq'
      · rw [hpq']
      · rcases Int.lt_or_le e (p : ℤ) with hpe | hpe
        · exact hsorted p q hpe hpq hq
        · have he0 : e = 0 := by omega
          have hp0 : p = 0 := by omega
          rw [hp0]
          exact hcross 0 q (by omega) (by omega) hq
    · intro s hs
      simp [stepsOf] at hs
    · simp [stepsOf]

theorem heapGen_ok (arr : List Val) : GenOk arr (heapGen arr) := by
  have hfd : Int.fdiv ((arr.length : ℤ) - 2) 2 = ((arr.length : ℤ) - 2) / 2 :=
    Int.fdiv_eq_ediv _ (by norm_num)
  obtain ⟨L1, P1, D1, G1, V1, Dn1⟩ :=
    buildLoop_spec arr arr.length (Int.fdiv ((arr.length : ℤ) - 2) 2) rfl
      (by rw [hfd]; omega)
      (by
        intro p j hj hedge hp
        rw [hfd] at hp
        exact absurd hj (by omega))
  obtain ⟨L2, P2, S2, G2, V2, Dn2⟩ :=
    extractLoop_spec (buildLoop arr arr.length (Int.fdiv ((arr.length : ℤ) - 2) 2)).1
      ((arr.length : ℤ) - 1) (by rw [L1]; omega)
      (by intro p j hj hedge; exact D1 p j (by omega) hedge (by omega))
      (by intro p q hp hpq hq; rw [L1] at hq; omega)
      (by intro k m hk hm hmlen; rw [L1] at hmlen; omega)
  exact genOk_of_parts
    (nonDecr_of_geti (fun p q hpq hq => S2 p q (le_of_lt hpq) (by rw [L2] at hq; exact hq)))
    (P2.trans P1) (goodTrace_append G1 G2)
    (fun s hs => by
      simp only [stepsOf, List.map_append, List.mem_append] at hs
      rcases hs with hs | hs
      · exact V1 s hs
      · have := V2 s hs
        rwa [L1] at this)
    (fun hmem => by
      simp only [stepsOf, List.map_append, List.mem_append] at hmem
      rcases hmem with hmem | hmem
      · exact Dn1 hmem
      · exact Dn2 hmem)

theorem heapGen_short (arr : List Val) (h : arr.length ≤ 1) :
    (heapGen arr).1 = arr ∧ stepsOf (heapGen arr).2 = [Step.done] := by
  have hfd : Int.fdiv ((arr.length : ℤ) - 2) 2 = ((arr.length : ℤ) - 2) / 2 :=
    Int.fdiv_eq_ediv _ (by norm_num)
  have hb : buildLoop arr arr.length (Int.fdiv ((arr.length : ℤ) - 2) 2) = (arr, []) := by
    rw [buildLoop, dif_neg (by rw [hfd]; omega)]
  have hx : extractLoop arr ((arr.length : ℤ) - 1) = (arr, []) := by
    rw [extractLoop, dif_neg (by omega)]
  rw [heapGen, hb]
  dsimp only
  rw [hx]
  exact ⟨rfl, rfl⟩

/-! ## Radix sort (`radixGen`, algos.js lines 141-168) -/

/-- JS truncation toward zero, as used by the `%` operator on numbers. -/
def jsTrunc (q : ℚ) : ℤ := if q < 0 then ⌈q⌉ else ⌊q⌋

/-- The JS `%` operator on numbers: `x - y * trunc(x / y)`. -/
def jsMod (x y : ℚ) : ℚ := x - y * (jsTrunc (x / y) : ℚ)

/-- The bucket index `Math.floor((A[i] / exp) % 10)` (algos.js line 152). -/
def digitOf (v exp : ℤ) : ℤ := ⌊jsMod ((v : ℚ) / (exp : ℚ)) 10⌋

/-- The running maximum `let max = 0; for (const v of A) if (v > max) max = v;`
(algos.js lines 146-147). -/
def maxOf (A : List ℤ) : ℤ := A.foldl (fun m v => if v > m then v else m) 0

/-- JS write `A[i] = v` into the scaled integer array. -/
def jsSetZ (A : List ℤ) (i : ℤ) (v : ℤ) : List ℤ :=
  if 0 ≤ i then A.set i.toNat v else A

/-- `buckets[d].push(v)` (algos.js line 154) on the runs where it succeeds:
appends to bucket `d` when the index is one of the ten buckets.  For an
out-of-range `d` (the digit of a negative scaled value) the source throws a
TypeError instead; that error path is modelled by `pushBucketE`, and this
total projection is only used where the divergence cannot matter. -/
def pushBucket (bs : List (List ℤ)) (d : ℤ) (v : ℤ) : List (List ℤ) :=
  if 0 ≤ d ∧ d.toNat < bs.length then bs.set d.toNat ((bs.getD d.toNat []) ++ [v]) else bs

/-- The bucketing loop of a radix pass (algos.js lines 150-155): one
single-index `compare` per element inspected, elements pushed into the
bucket of their current digit. -/
def bucketLoop (A : List ℤ) (n : ℕ) (exp : ℤ) (arr : List Val) (i : ℕ)
    (bs : List (List ℤ)) : List (List ℤ) × Trace :=
  if h : i < n then
    ((bucketLoop A n exp arr (i + 1) (pushBucket bs (digitOf (A.getD i 0) exp) (A.getD i 0))).1,
      (Step.compare (i : ℕ) none, arr) ::
        (bucketLoop A n exp arr (i + 1)
          (pushBucket bs (digitOf (A.getD i 0) exp) (A.getD i 0))).2)
  else (bs, [])
termination_by n - i

/-- Write-back of one bucket (algos.js lines 158-163): each value is stored
in the scaled array, written back to the working array divided by the scale,
and reported with a `set` step. -/
def writeBucket (A : List ℤ) (arr : List Val) (idx : ℤ) :
    List ℤ → List ℤ × List Val × ℤ × Trace
  | [] => (A, arr, idx, [])
  | v :: tl =>
    ((writeBucket (jsSetZ A idx v) (jsSet arr idx ((v : ℚ) / 1000)) (idx + 1) tl).1,
      (writeBucket (jsSetZ A idx v) (jsSet arr idx ((v : ℚ) / 1000)) (idx + 1) tl).2.1,
      (writeBucket (jsSetZ A idx v) (jsSet arr idx ((v : ℚ) / 1000)) (idx + 1) tl).2.2.1,
      (Step.set idx (geti (jsSet arr idx ((v : ℚ) / 1000)) idx.toNat),
          jsSet arr idx ((v : ℚ) / 1000)) ::
        (writeBucket (jsSetZ A idx v) (jsSet arr idx ((v : ℚ) / 1000)) (idx + 1) tl).2.2.2)

/-- Write-back of all ten buckets in bucket order (algos.js lines 157-163). -/
def writeBuckets (A : List ℤ) (arr : List Val) (idx : ℤ) :
    List (List ℤ) → List ℤ × List Val × ℤ × Trace
  | [] => (A, arr, idx, [])
  | b :: rest =>
    ((writeBuckets (writeBucket A arr idx b).1 (writeBucket A arr idx b).2.1
        (writeBucket A arr idx b).2.2.1 rest).1,
      (writeBuckets (writeBucket A arr idx b).1 (writeBucket A arr idx b).2.1
        (writeBucket A arr idx b).2.2.1 rest).2.1,
      (writeBuckets (writeBucket A arr idx b).1 (writeBucket A arr idx b).2.1
        (writeBucket A arr idx b).2.2.1 rest).2.2.1,
      (writeBucket A arr idx b).2.2.2 ++
        (writeBuckets (writeBucket A arr idx b).1 (writeBucket A arr idx b).2.1
          (writeBucket A arr idx b).2.2.1 rest).2.2.2)

theorem ediv_ediv {a b c : ℤ} (hb : 0 < b) (hc : 0 < c) : a / b / c = a / (b * c) := by
  have h1 : b * (a / b) + a % b = a := Int.ediv_add_emod a b
  have h2 : c * (a / b / c) + (a / b) % c = a / b := Int.ediv_add_emod (a / b) c
  have hr1 : 0 ≤ a % b := Int.emod_nonneg a (by omega)
  have hr2 : a % b < b := Int.emod_lt_of_pos a hb
  have hr3 : 0 ≤ (a / b) % c := Int.emod_nonneg _ (by omega)
  have hr4 : (a / b) % c < c := Int.emod_lt_of_pos _ hc
  have key : a = b * ((a / b) % c) + a % b + (b * c) * (a / b / c) := by
    linear_combination - h1 - b * h2
  have hmul : b * ((a / b) % c) ≤ b * (c - 1) :=
    mul_le_mul_of_nonneg_left (by omega) (by omega)
  have hs2 : b * ((a / b) % c) + a % b < b * c := by
    have hbc : b * (c - 1) = b * c - b := by ring
    omega
  have hs1 : 0 ≤ b * ((a / b) % c) + a % b := by
    have := mul_nonneg (le_of_lt hb) hr3
    omega
  conv_rhs => rw [key]
  rw [Int.add_mul_ediv_left _ _ (by positivity : b * c ≠ 0)]
  rw [Int.ediv_eq_zero_of_lt hs1 hs2]
  omega

theorem digitOf_eq {v exp : ℤ} (hv : 0 ≤ v) (he : 0 < exp) :
    digitOf v exp = (v / exp) % 10 := by
  unfold digitOf jsMod jsTrunc
  set x : ℚ := (v : ℚ) / (exp : ℚ) with hx
  have hx0 : (0 : ℚ) ≤ x := by
    rw [hx]
    apply div_nonneg
    · exact_mod_cast hv
    · exact_mod_cast le_of_lt he
  have hx10 : ¬ (x / 10 < 0) := not_lt.mpr (div_nonneg hx0 (by norm_num))
  rw [if_neg hx10]
  have h1 : (10 : ℚ) * (⌊x / 10⌋ : ℚ) = ((10 * ⌊x / 10⌋ : ℤ) : ℚ) := by push_cast; ring
  rw [h1, Int.floor_sub_int]
  have hcast : (exp : ℚ) = ((exp.toNat : ℕ) : ℚ) := by
    exact_mod_cast (Int.toNat_of_nonneg (le_of_lt he)).symm
  have hfx : ⌊x⌋ = v / exp := by
    rw [hx, hcast, Rat.floor_intCast_div_natCast]
    rw [Int.toNat_of_nonneg (le_of_lt he)]
  have hcast2 : ((exp * 10 : ℤ) : ℚ) = (((exp * 10).toNat : ℕ) : ℚ) := by
    exact_mod_cast (Int.toNat_of_nonneg (by omega : (0 : ℤ) ≤ exp * 10)).symm
  have hfx10 : ⌊x / 10⌋ = v / exp / 10 := by
    have hx2 : x / 10 = (v : ℚ) / ((exp * 10 : ℤ) : ℚ) := by
      rw [hx]
      push_cast
      ring
    rw [hx2, hcast2, Rat.floor_intCast_div_natCast, Int.toNat_of_nonneg (by omega)]
    rw [ediv_ediv he (by norm_num)]
  rw [hfx, hfx10]
  omega

theorem emod_mul_ten {v exp : ℤ} (he : 0 < exp) :
    v % (exp * 10) = v % exp + exp * ((v / exp) % 10) := by
  have hdd : v / (exp * 10) = v / exp / 10 := (ediv_ediv he (by norm_num)).symm
  rw [Int.emod_def, Int.emod_def, Int.emod_def, hdd]
  ring

/-- The main digit loop of `radixGen` (algos.js lines 149-165). -/
def radixLoop (n : ℕ) (mx : ℤ) (A : List ℤ) (arr : List Val) (exp : ℤ) :
    List ℤ × List Val × Trace :=
  if h : 0 < Int.fdiv mx exp then
    ((radixLoop n mx
        (writeBuckets A arr 0 (bucketLoop A n exp arr 0 (List.replicate 10 [])).1).1
        (writeBuckets A arr 0 (bucketLoop A n exp arr 0 (List.replicate 10 [])).1).2.1
        (exp * 10)).1,
      (radixLoop n mx
        (writeBuckets A arr 0 (bucketLoop A n exp arr 0 (List.replicate 10 [])).1).1
        (writeBuckets A arr 0 (bucketLoop A n exp arr 0 (List.replicate 10 [])).1).2.1
        (exp * 10)).2.1,
      (bucketLoop A n exp arr 0 (List.replicate 10 [])).2 ++
        (writeBuckets A arr 0 (bucketLoop A n exp arr 0 (List.replicate 10 [])).1).2.2.2 ++
        (radixLoop n mx
          (writeBuckets A arr 0 (bucketLoop A n exp arr 0 (List.replicate 10 [])).1).1
          (writeBuckets A arr 0 (bucketLoop A n exp arr 0 (List.replicate 10 [])).1).2.1
          (exp * 10)).2.2)
  else (A, arr, [])
termination_by (Int.fdiv mx exp).toNat
decreasing_by
  rcases Int.lt_trichotomy exp 0 with hneg | hz | hpos
  · rcases Int.lt_trichotomy mx 0 with hmneg | hmz | hmpos
    · obtain ⟨m, rfl⟩ := Int.eq_negSucc_of_lt_zero hmneg
      obtain ⟨p, rfl⟩ := Int.eq_negSucc_of_lt_zero hneg
      have hexp10 : Int.negSucc p * 10 = Int.negSucc (10 * p + 9) := by
        rw [Int.negSucc_eq, Int.negSucc_eq]
        push_cast
        ring
      rw [hexp10]
      have e1 : Int.fdiv (Int.negSucc m) (Int.negSucc p) = (((m + 1) / (p + 1) : ℕ) : ℤ) := rfl
      have e2 : Int.fdiv (Int.negSucc m) (Int.negSucc (10 * p + 9)) =
          (((m + 1) / (10 * p + 9 + 1) : ℕ) : ℤ) := rfl
      rw [e1] at h
      rw [e1, e2]
      have hq : (m + 1) / (10 * p + 9 + 1) = (m + 1) / (p + 1) / 10 := by
        rw [Nat.div_div_eq_div_mul]
        congr 1
        omega
      have hq1 : 1 ≤ (m + 1) / (p + 1) := by
        by_contra hc
        have h0 : (m + 1) / (p + 1) = 0 := by omega
        rw [h0] at h
        simp at h
      omega
    · subst hmz
      rw [Int.zero_fdiv] at h
      exact absurd h (by omega)
    · have := Int.fdiv_nonpos (le_of_lt hmpos) (le_of_lt hneg)
      exact absurd h (by omega)
  · subst hz
    rw [Int.fdiv_zero] at h
    exact absurd h (by omega)
  · have he1 : Int.fdiv mx exp = mx / exp := Int.fdiv_eq_ediv mx (le_of_lt hpos)
    have he2 : Int.fdiv mx (exp * 10) = mx / (exp * 10) := Int.fdiv_eq_ediv mx (by omega)
    have hdd : mx / (exp * 10) = mx / exp / 10 := (ediv_ediv hpos (by norm_num)).symm
    rw [he1] at h
    rw [he1, he2, hdd]
    omega

/-- The `radixGen` generator (algos.js lines 141-168). -/
def radixGen (arr : List Val) : List Val × Trace :=
  ((radixLoop arr.length (maxOf (arr.map (fun x => ⌊x * 1000⌋))) (arr.map (fun x => ⌊x * 1000⌋))
      arr 1).2.1,
    (radixLoop arr.length (maxOf (arr.map (fun x => ⌊x * 1000⌋))) (arr.map (fun x => ⌊x * 1000⌋))
        arr 1).2.2 ++
      [(Step.done,
        (radixLoop arr.length (maxOf (arr.map (fun x => ⌊x * 1000⌋)))
          (arr.map (fun x => ⌊x * 1000⌋)) arr 1).2.1)])

theorem foldlMax_ge_init (A : List ℤ) :
    ∀ m : ℤ, m ≤ A.foldl (fun m v => if v > m then v else m) m := by
  induction A with
  | nil => intro m; exact le_refl m
  | cons v tl ih =>
    intro m
    rw [List.foldl_cons]
    refine le_trans ?_ (ih (if v > m then v else m))
    split
    · omega
    · omega

theorem foldlMax_ge_mem (A : List ℤ) :
    ∀ (m v : ℤ), v ∈ A → v ≤ A.foldl (fun m v => if v > m then v else m) m := by
  induction A with
  | nil =>
    intro m v hv
    simp at hv
  | cons u tl ih =>
    intro m v hv
    rw [List.foldl_cons]
    rcases List.mem_cons.mp hv with hv | hv
    · refine le_trans ?_ (foldlMax_ge_init tl _)
      rw [hv]
      split
      · omega
      · omega
    · exact ih _ v hv

theorem le_maxOf {A : List ℤ} {v : ℤ} (hv : v ∈ A) : v ≤ maxOf A :=
  foldlMax_ge_mem A 0 v hv

theorem maxOf_nonneg (A : List ℤ) : 0 ≤ maxOf A := foldlMax_ge_init A 0

theorem foldlMax_const (A : List ℤ) :
    ∀ m : ℤ, (∀ v ∈ A, v ≤ m) → A.foldl (fun m v => if v > m then v else m) m = m := by
  induction A with
  | nil => intro m _; rfl
  | cons u tl ih =>
    intro m h
    rw [List.foldl_cons]
    have hu : ¬ u > m := not_lt.mpr (h u (List.mem_cons_self u tl))
    rw [if_neg hu]
    exact ih m (fun v hv => h v (List.mem_cons_of_mem u hv))

theorem maxOf_nonpos {A : List ℤ} (h : ∀ v ∈ A, v ≤ 0) : maxOf A = 0 :=
  foldlMax_const A 0 h

theorem getD_set_self {α : Type _} {l : List α} {k : ℕ} (h : k < l.length) (x d : α) :
    (l.set k x).getD k d = x := by
  rw [List.getD_eq_getElem?_getD, List.getElem?_set_eq_of_lt x h]
  rfl

theorem getD_set_ne {α : Type _} {l : List α} {k m : ℕ} (h : k ≠ m) (x d : α) :
    (l.set k x).getD m d = l.getD m d := by
  rw [List.getD_eq_getElem?_getD, List.getD_eq_getElem?_getD, List.getElem?_set_ne h]

/-- Characterisation of the bucketing loop: starting from buckets `bs`, the
final bucket `d` is `bs`'s bucket `d` extended by the not-yet-processed
elements whose digit is `d`, in array order (stability). -/
theorem bucketLoop_spec (A : List ℤ) (n : ℕ) (exp : ℤ) (arr : List Val)
    (hA : A.length = n) (hd : ∀ v ∈ A, 0 ≤ digitOf v exp ∧ digitOf v exp < 10) :
    ∀ (i : ℕ) (bs : List (List ℤ)), bs.length = 10 →
    (bucketLoop A n exp arr i bs).1.length = 10 ∧
    (∀ d : ℕ, d < 10 → (bucketLoop A n exp arr i bs).1.getD d [] =
      bs.getD d [] ++ (A.drop i).filter (fun v => decide (digitOf v exp = (d : ℤ)))) ∧
    GoodTrace arr (bucketLoop A n exp arr i bs).2 arr ∧
    (∀ s ∈ stepsOf (bucketLoop A n exp arr i bs).2, ∃ k : ℕ, k < n ∧
      s = Step.compare (k : ℕ) none) := by
  intro i bs
  induction i, bs using bucketLoop.induct A n exp arr with
  | case1 i bs h ih =>
    intro hbs
    rw [bucketLoop, dif_pos h]
    dsimp only
    have hi : i < A.length := by omega
    have hvA : A.getD i 0 ∈ A := by
      rw [List.getD_eq_getElem?_getD, List.getElem?_eq_getElem hi]
      exact List.getElem_mem hi
    obtain ⟨hd0, hd10⟩ := hd _ hvA
    have hpush : pushBucket bs (digitOf (A.getD i 0) exp) (A.getD i 0) =
        bs.set (digitOf (A.getD i 0) exp).toNat
          ((bs.getD (digitOf (A.getD i 0) exp).toNat []) ++ [A.getD i 0]) := by
      rw [pushBucket, if_pos ⟨hd0, by omega⟩]
    have hlen' : (pushBucket bs (digitOf (A.getD i 0) exp) (A.getD i 0)).length = 10 := by
      rw [hpush, List.length_set, hbs]
    obtain ⟨L, B, G, V⟩ := ih hlen'
    have hdropA : A.drop i = A.getD i 0 :: A.drop (i + 1) := by
      rw [List.getD_eq_getElem?_getD, List.getElem?_eq_getElem hi]
      exact (List.getElem_cons_drop A i hi).symm
    refine ⟨L, ?_, goodTrace_cons rfl G, ?_⟩
    · intro d hd'
      rw [B d hd', hdropA, List.filter_cons]
      by_cases hdig : digitOf (A.getD i 0) exp = (d : ℤ)
      · have hdn : (digitOf (A.getD i 0) exp).toNat = d := by omega
        rw [if_pos (by simpa using hdig), hpush, hdn, getD_set_self (by omega) _ []]
        rw [List.append_assoc, List.singleton_append]
      · have hdn : (digitOf (A.getD i 0) exp).toNat ≠ d := by omega
        rw [if_neg (by simpa using hdig), hpush, getD_set_ne hdn _ []]
    · intro s hs
      simp only [stepsOf, List.map_cons, List.mem_cons] at hs
      rcases hs with hs | hs
      · exact ⟨i, h, hs⟩
      · exact V s hs
  | case2 i bs h =>
    intro hbs
    rw [bucketLoop, dif_neg h]
    have hdrop : A.drop i = [] := List.drop_eq_nil_iff.mpr (by omega)
    refine ⟨hbs, ?_, goodTrace_nil arr, ?_⟩
    · intro d hd'
      rw [hdrop]
      simp
    · intro s hs
      simp [stepsOf] at hs

theorem take_set_appendZ {a : List ℤ} {kn : ℕ} (h : kn < a.length) (v : ℤ) :
    (a.set kn v).take (kn + 1) = a.take kn ++ [v] := by
  rw [List.set_eq_take_cons_drop v h]
  rw [List.take_append_eq_append_take]
  have h1 : (a.take kn).length = kn := by
    rw [List.length_take]
    omega
  rw [List.take_take]
  have h2 : min (kn + 1) kn = kn := by omega
  rw [h2, h1]
  have h3 : kn + 1 - kn = 1 := by omega
  rw [h3]
  rfl

/-- One bucket written back: both arrays receive the bucket contents (the
working array scaled down), positions outside are untouched, and the trace is
a chained, valid, done-free run of `set` steps. -/
theorem writeBucket_spec : ∀ (b : List ℤ) (A : List ℤ) (arr : List Val) (idx : ℤ),
    0 ≤ idx → idx.toNat + b.length ≤ A.length → arr.length = A.length →
    (writeBucket A arr idx b).1 = A.take idx.toNat ++ b ++ A.drop (idx.toNat + b.length) ∧
    (writeBucket A arr idx b).2.1 =
      arr.take idx.toNat ++ b.map (fun v : ℤ => (v : ℚ) / 1000) ++
        arr.drop (idx.toNat + b.length) ∧
    (writeBucket A arr idx b).2.2.1 = idx + b.length ∧
    GoodTrace arr (writeBucket A arr idx b).2.2.2 (writeBucket A arr idx b).2.1 ∧
    (∀ s ∈ stepsOf (writeBucket A arr idx b).2.2.2, validStep arr.length s = true) ∧
    Step.done ∉ stepsOf (writeBucket A arr idx b).2.2.2 := by
  intro b
  induction b with
  | nil =>
    intro A arr idx h0 hle hlen
    refine ⟨?_, ?_, by simp [writeBucket], ?_, ?_, ?_⟩
    · simp only [writeBucket, List.length_nil, Nat.add_zero, List.append_nil]
      rw [List.take_append_drop]
    · simp only [writeBucket, List.map_nil, List.length_nil, Nat.add_zero, List.append_nil]
      rw [List.take_append_drop]
    · exact goodTrace_nil arr
    · intro s hs
      simp [writeBucket, stepsOf] at hs
    · simp [writeBucket, stepsOf]
  | cons v tl ih =>
    intro A arr idx h0 hle hlen
    simp only [List.length_cons] at hle
    have hidxA : idx.toNat < A.length := by omega
    have hidxa : idx.toNat < arr.length := by omega
    have hsetZ : jsSetZ A idx v = A.set idx.toNat v := by
      rw [jsSetZ, if_pos h0]
    have hset : jsSet arr idx ((v : ℚ) / 1000) = arr.set idx.toNat ((v : ℚ) / 1000) := by
      rw [jsSet, if_pos h0]
    have hgv : geti (jsSet arr idx ((v : ℚ) / 1000)) idx.toNat = (v : ℚ) / 1000 := by
      rw [hset]
      exact geti_set_self hidxa _
    obtain ⟨R1, R2, R3, RG, RV, RD⟩ := ih (jsSetZ A idx v) (jsSet arr idx ((v : ℚ) / 1000))
      (idx + 1) (by omega)
      (by rw [hsetZ, List.length_set]; omega)
      (by rw [hsetZ, hset, List.length_set, List.length_set]; omega)
    have he1 : (idx + 1).toNat = idx.toNat + 1 := by omega
    refine ⟨?_, ?_, ?_, ?_, ?_, ?_⟩
    · rw [writeBucket]
      dsimp only
      rw [R1, hsetZ, he1, take_set_appendZ hidxA,
        List.drop_set_of_lt _ _ (by omega : idx.toNat < idx.toNat + 1 + tl.length)]
      simp only [List.append_assoc, List.singleton_append, List.length_cons]
      have : idx.toNat + 1 + tl.length = idx.toNat + (tl.length + 1) := by omega
      rw [this]
    · rw [writeBucket]
      dsimp only
      rw [R2, hset, he1, take_set_append hidxa,
        List.drop_set_of_lt _ _ (by omega : idx.toNat < idx.toNat + 1 + tl.length)]
      simp only [List.map_cons, List.append_assoc, List.singleton_append, List.length_cons]
      have : idx.toNat + 1 + tl.length = idx.toNat + (tl.length + 1) := by omega
      rw [this]
    · rw [writeBucket]
      dsimp only
      rw [R3]
      simp only [List.length_cons]
      push_cast
      ring
    · rw [writeBucket]
      dsimp only
      refine goodTrace_cons ?_ RG
      show jsSet arr idx ((v : ℚ) / 1000) =
        jsSet arr idx (geti (jsSet arr idx ((v : ℚ) / 1000)) idx.toNat)
      rw [hgv]
    · intro s hs
      rw [writeBucket] at hs
      dsimp only at hs
      simp only [stepsOf, List.map_cons, List.mem_cons] at hs
      rcases hs with hs | hs
      · rw [hs]
        simp only [validStep, Bool.and_eq_true, decide_eq_true_eq]
        omega
      · have := RV s hs
        rwa [hset, List.length_set] at this
    · intro hmem
      rw [writeBucket] at hmem
      dsimp only at hmem
      simp only [stepsOf, List.map_cons, List.mem_cons] at hmem
      rcases hmem with hmem | hmem
      · exact Step.noConfusion hmem
      · exact RD hmem

/-- All buckets written back in order: the arrays become the pre-segment,
the concatenation of the buckets (scaled down in the working array), and the
untouched tail. -/
theorem writeBuckets_spec : ∀ (bs : List (List ℤ)) (A : List ℤ) (arr : List Val) (idx : ℤ),
    0 ≤ idx → idx.toNat + bs.flatten.length ≤ A.length → arr.length = A.length →
    (writeBuckets A arr idx bs).1 =
      A.take idx.toNat ++ bs.flatten ++ A.drop (idx.toNat + bs.flatten.length) ∧
    (writeBuckets A arr idx bs).2.1 =
      arr.take idx.toNat ++ bs.flatten.map (fun v : ℤ => (v : ℚ) / 1000) ++
        arr.drop (idx.toNat + bs.flatten.length) ∧
    (writeBuckets A arr idx bs).2.2.1 = idx + bs.flatten.length ∧
    GoodTrace arr (writeBuckets A arr idx bs).2.2.2 (writeBuckets A arr idx bs).2.1 ∧
    (∀ s ∈ stepsOf (writeBuckets A arr idx bs).2.2.2, validStep arr.length s = true) ∧
    Step.done ∉ stepsOf (writeBuckets A arr idx bs).2.2.2 := by
  intro bs
  induction bs with
  | nil =>
    intro A arr idx h0 hle hlen
    refine ⟨?_, ?_, by simp [writeBuckets], ?_, ?_, ?_⟩
    · simp only [writeBuckets, List.flatten_nil, List.length_nil, Nat.add_zero,
        List.append_nil]
      rw [List.take_append_drop]
    · simp only [writeBuckets, List.flatten_nil, List.map_nil, List.length_nil, Nat.add_zero,
        List.append_nil]
      rw [List.take_append_drop]
    · exact goodTrace_nil arr
    · intro s hs
      simp [writeBuckets, stepsOf] at hs
    · simp [writeBuckets, stepsOf]
  | cons b rest ih =>
    intro A arr idx h0 hle hlen
    simp only [List.flatten_cons, List.length_append] at hle
    obtain ⟨W1, W2, W3, WG, WV, WD⟩ := writeBucket_spec b A arr idx h0 (by omega) hlen
    have hW1len : (writeBucket A arr idx b).1.length = A.length := by
      rw [W1]
      simp only [List.length_append, List.length_take, List.length_drop]
      omega
    have hW2len : (writeBucket A arr idx b).2.1.length = A.length := by
      rw [W2]
      simp only [List.length_append, List.length_take, List.length_drop, List.length_map]
      omega
    have hidx' : (idx + (b.length : ℤ)).toNat = idx.toNat + b.length := by omega
    obtain ⟨R1, R2, R3, RG, RV, RD⟩ := ih (writeBucket A arr idx b).1
      (writeBucket A arr idx b).2.1 (idx + b.length) (by omega)
      (by rw [hW1len, hidx']; omega)
      (by rw [hW2len, hW1len])
    have htakeA : (writeBucket A arr idx b).1.take (idx.toNat + b.length) =
        A.take idx.toNat ++ b := by
      rw [W1]
      refine List.take_left' ?_
      simp only [List.length_append, List.length_take]
      omega
    have hdropA : ∀ m : ℕ, (writeBucket A arr idx b).1.drop (idx.toNat + b.length + m) =
        A.drop (idx.toNat + b.length + m) := by
      intro m
      rw [W1]
      have h2 : (A.take idx.toNat ++ b).length = idx.toNat + b.length := by
        simp only [List.length_append, List.length_take]
        omega
      calc ((A.take idx.toNat ++ b) ++ A.drop (idx.toNat + b.length)).drop
            (idx.toNat + b.length + m)
          = ((A.take idx.toNat ++ b) ++ A.drop (idx.toNat + b.length)).drop
            ((A.take idx.toNat ++ b).length + m) := by rw [h2]
        _ = (A.drop (idx.toNat + b.length)).drop m := List.drop_append m
        _ = A.drop (idx.toNat + b.length + m) := by rw [List.drop_drop]
    have htakea : (writeBucket A arr idx b).2.1.take (idx.toNat + b.length) =
        arr.take idx.toNat ++ b.map (fun v : ℤ => (v : ℚ) / 1000) := by
      rw [W2]
      refine List.take_left' ?_
      simp only [List.length_append, List.length_take, List.length_map]
      omega
    have hdropa : ∀ m : ℕ, (writeBucket A arr idx b).2.1.drop (idx.toNat + b.length + m) =
        arr.drop (idx.toNat + b.length + m) := by
      intro m
      rw [W2]
      have h2 : (arr.take idx.toNat ++ b.map (fun v : ℤ => (v : ℚ) / 1000)).length =
          idx.toNat + b.length := by
        simp only [List.length_append, List.length_take, List.length_map]
        omega
      calc ((arr.take idx.toNat ++ b.map (fun v : ℤ => (v : ℚ) / 1000)) ++
              arr.drop (idx.toNat + b.length)).drop (idx.toNat + b.length + m)
          = ((arr.take idx.toNat ++ b.map (fun v : ℤ => (v : ℚ) / 1000)) ++
              arr.drop (idx.toNat + b.length)).drop
            ((arr.take idx.toNat ++ b.map (fun v : ℤ => (v : ℚ) / 1000)).length + m) := by
            rw [h2]
        _ = (arr.drop (idx.toNat + b.length)).drop m := List.drop_append m
        _ = arr.drop (idx.toNat + b.length + m) := by rw [List.drop_drop]
    refine ⟨?_, ?_, ?_, ?_, ?_, ?_⟩
    · rw [writeBuckets]
      dsimp only
      rw [W3, R1, hidx', htakeA, hdropA]
      simp only [List.flatten_cons, List.length_append, List.append_assoc]
      have : idx.toNat + b.length + rest.flatten.length =
          idx.toNat + (b.length + rest.flatten.length) := by omega
      rw [this]
    · rw [writeBuckets]
      dsimp only
      rw [W3, R2, hidx', htakea, hdropa]
      simp only [List.flatten_cons, List.map_append, List.length_append, List.append_assoc]
      have : idx.toNat + b.length + rest.flatten.length =
          idx.toNat + (b.length + rest.flatten.length) := by omega
      rw [this]
    · rw [writeBuckets]
      dsimp only
      rw [W3, R3]
      simp only [List.flatten_cons, List.length_append]
      push_cast
      ring
    · rw [writeBuckets]
      dsimp only
      rw [W3]
      exact goodTrace_append WG RG
    · intro s hs
      rw [writeBuckets] at hs
      dsimp only at hs
      rw [W3] at hs
      simp only [stepsOf, List.map_append, List.mem_append] at hs
      rcases hs with hs | hs
      · exact WV s hs
      · have := RV s hs
        rwa [hW2len, ← hlen] at this
    · intro hmem
      rw [writeBuckets] at hmem
      dsimp only at hmem
      rw [W3] at hmem
      simp only [stepsOf, List.map_append, List.mem_append] at hmem
      rcases hmem with hmem | hmem
      · exact WD hmem
      · exact RD hmem

theorem sum_map_range_single (f : ℕ → ℕ) (d : ℕ) (hz : ∀ k, k ≠ d → f k = 0) :
    ∀ n : ℕ, d < n → ((List.range n).map f).sum = f d := by
  intro n
  induction n with
  | zero => intro h; omega
  | succ n ih =>
    intro hd
    rw [List.range_succ, List.map_append, List.sum_append]
    rcases Nat.lt_or_ge d n with hdn | hdn
    · rw [ih hdn]
      have hfn : f n = 0 := hz n (by omega)
      simp [hfn]
    · have hdn' : d = n := by omega
      subst hdn'
      have hzero : ((List.range d).map f).sum = 0 := by
        refine List.sum_eq_zero ?_
        intro x hx
        obtain ⟨k, hk, hke⟩ := List.mem_map.mp hx
        rw [← hke]
        exact hz k (by rw [List.mem_range] at hk; omega)
      rw [hzero]
      simp

/-- Each element lands in exactly one bucket, so concatenating the buckets
permutes the array. -/
theorem perm_flatten_buckets (A : List ℤ) (exp : ℤ)
    (hd : ∀ v ∈ A, 0 ≤ digitOf v exp ∧ digitOf v exp < 10) :
    List.Perm (((List.range 10).map
      (fun d : ℕ => A.filter (fun v => decide (digitOf v exp = (d : ℤ))))).flatten) A := by
  rw [List.perm_iff_count]
  intro x
  rw [List.count_flatten, List.map_map]
  by_cases hx : x ∈ A
  · obtain ⟨h0, h10⟩ := hd x hx
    have hf : ∀ k : ℕ, k ≠ (digitOf x exp).toNat →
        (List.count x ∘ fun d : ℕ =>
          A.filter (fun v => decide (digitOf v exp = (d : ℤ)))) k = 0 := by
      intro k hk
      simp only [Function.comp_apply]
      rw [List.count_eq_zero]
      intro hmem
      rw [List.mem_filter] at hmem
      have h2 := hmem.2
      simp only [decide_eq_true_eq] at h2
      omega
    rw [sum_map_range_single _ _ hf 10 (by omega)]
    simp only [Function.comp_apply]
    exact List.count_filter (by simp only [decide_eq_true_eq]; omega)
  · have hcA : List.count x A = 0 := List.count_eq_zero.mpr hx
    rw [hcA]
    refine List.sum_eq_zero ?_
    intro y hy
    obtain ⟨k, hk, hke⟩ := List.mem_map.mp hy
    rw [← hke]
    simp only [Function.comp_apply]
    rw [List.count_eq_zero]
    intro hmem
    exact hx (List.mem_filter.mp hmem).1

/-- The concatenated buckets are sorted by the next-larger digit key: within a
bucket by stability of `filter`, across buckets because the digit dominates. -/
theorem sorted_flatten_buckets (A : List ℤ) (exp : ℤ) (he : 0 < exp)
    (hnn : ∀ v ∈ A, 0 ≤ v)
    (hs : List.Pairwise (fun u v => u % exp ≤ v % exp) A) :
    List.Pairwise (fun u v => u % (exp * 10) ≤ v % (exp * 10))
      (((List.range 10).map
        (fun d : ℕ => A.filter (fun v => decide (digitOf v exp = (d : ℤ))))).flatten) := by
  rw [List.pairwise_flatten]
  constructor
  · intro l hl
    obtain ⟨d, hd, hdl⟩ := List.mem_map.mp hl
    rw [← hdl]
    refine List.Pairwise.imp_of_mem ?_ (hs.filter _)
    intro u v hu hv huv
    rw [List.mem_filter] at hu hv
    have hdu : digitOf u exp = (d : ℤ) := by simpa using hu.2
    have hdv : digitOf v exp = (d : ℤ) := by simpa using hv.2
    have hu0 : 0 ≤ u := hnn u hu.1
    have hv0 : 0 ≤ v := hnn v hv.1
    rw [digitOf_eq hu0 he] at hdu
    rw [digitOf_eq hv0 he] at hdv
    rw [emod_mul_ten he, emod_mul_ten he, hdu, hdv]
    exact add_le_add huv (le_refl _)
  · refine List.Pairwise.map _ ?_ (List.pairwise_lt_range 10)
    intro d1 d2 hlt x hx y hy
    rw [List.mem_filter] at hx hy
    have hdx : digitOf x exp = (d1 : ℤ) := by simpa using hx.2
    have hdy : digitOf y exp = (d2 : ℤ) := by simpa using hy.2
    have hx0 : 0 ≤ x := hnn x hx.1
    have hy0 : 0 ≤ y := hnn y hy.1
    rw [digitOf_eq hx0 he] at hdx
    rw [digitOf_eq hy0 he] at hdy
    rw [emod_mul_ten he, emod_mul_ten he, hdx, hdy]
    have h3 : exp * ((d1 : ℤ) + 1) ≤ exp * (d2 : ℤ) :=
      mul_le_mul_of_nonneg_left (by exact_mod_cast hlt) (le_of_lt he)
    have h4 : x % exp < exp := Int.emod_lt_of_pos x he
    have h5 : 0 ≤ y % exp := Int.emod_nonneg y (by omega)
    nlinarith

/-- Invariant proof of the radix main loop: keeping the working array in sync
with the scaled integer array, each pass refines sortedness by one digit, and
once the maximum's digits are exhausted the integer array is fully sorted. -/
theorem radixLoop_spec (n : ℕ) (mx : ℤ) : ∀ (A : List ℤ) (arr : List Val) (exp : ℤ),
    A.length = n → arr.length = n →
    arr = A.map (fun v : ℤ => (v : ℚ) / 1000) →
    (∀ v ∈ A, 0 ≤ v) → (∀ v ∈ A, v ≤ mx) → 0 < exp →
    List.Pairwise (fun u v => u % exp ≤ v % exp) A →
    List.Perm (radixLoop n mx A arr exp).1 A ∧
    (radixLoop n mx A arr exp).2.1 =
      (radixLoop n mx A arr exp).1.map (fun v : ℤ => (v : ℚ) / 1000) ∧
    List.Pairwise (fun u v : ℤ => u ≤ v) (radixLoop n mx A arr exp).1 ∧
    GoodTrace arr (radixLoop n mx A arr exp).2.2 (radixLoop n mx A arr exp).2.1 ∧
    (∀ s ∈ stepsOf (radixLoop n mx A arr exp).2.2, validStep n s = true) ∧
    Step.done ∉ stepsOf (radixLoop n mx A arr exp).2.2 := by
  intro A arr exp
  induction A, arr, exp using radixLoop.induct n mx with
  | case1 A arr exp h ih =>
    intro hA harr hsync hnn hmax hexp hs
    rw [radixLoop, dif_pos h]
    dsimp only
    have hdr : ∀ v ∈ A, 0 ≤ digitOf v exp ∧ digitOf v exp < 10 := by
      intro v hv
      rw [digitOf_eq (hnn v hv) hexp]
      exact ⟨Int.emod_nonneg _ (by norm_num), Int.emod_lt_of_pos _ (by norm_num)⟩
    obtain ⟨BL, BB, BG, BV⟩ :=
      bucketLoop_spec A n exp arr hA hdr 0 (List.replicate 10 []) (by simp)
    have hbs : (bucketLoop A n exp arr 0 (List.replicate 10 [])).1 =
        (List.range 10).map
          (fun d : ℕ => A.filter (fun v => decide (digitOf v exp = (d : ℤ)))) := by
      apply List.ext_getElem
      · rw [BL]
        simp
      · intro d h1 h2
        have hd10 : d < 10 := by rw [BL] at h1; exact h1
        have hB := BB d hd10
        rw [List.getD_eq_getElem?_getD, List.getElem?_eq_getElem h1] at hB
        simp only [Option.getD_some] at hB
        rw [hB]
        simp only [List.getElem_map, List.getElem_range]
        rw [List.drop_zero]
        have hrep : (List.replicate 10 ([] : List ℤ)).getD d [] = [] := by
          rw [List.getD_eq_getElem?_getD, List.getElem?_replicate, if_pos hd10]
          rfl
        rw [hrep, List.nil_append]
    set F := (((List.range 10).map
      (fun d : ℕ => A.filter (fun v => decide (digitOf v exp = (d : ℤ))))).flatten)
      with hFdef
    have hFperm : List.Perm F A := perm_flatten_buckets A exp hdr
    have hFlen : F.length = n := by rw [hFperm.length_eq, hA]
    obtain ⟨W1, W2, W3, WG, WV, WD⟩ :=
      writeBuckets_spec (bucketLoop A n exp arr 0 (List.replicate 10 [])).1 A arr 0
        (le_refl 0)
        (by rw [hbs, ← hFdef, hFlen, hA]; simp)
        (by rw [harr, hA])
    have hA1 : (writeBuckets A arr 0 (bucketLoop A n exp arr 0 (List.replicate 10 [])).1).1
        = F := by
      rw [W1, hbs, ← hFdef]
      simp only [Int.toNat_zero, List.take_zero, List.nil_append, Nat.zero_add]
      rw [hFlen, ← hA, List.drop_length, List.append_nil]
    have harr1 : (writeBuckets A arr 0
        (bucketLoop A n exp arr 0 (List.replicate 10 [])).1).2.1
        = F.map (fun v : ℤ => (v : ℚ) / 1000) := by
      rw [W2, hbs, ← hFdef]
      simp only [Int.toNat_zero, List.take_zero, List.nil_append, Nat.zero_add]
      rw [hFlen, ← harr, List.drop_length, List.append_nil]
    have hF2len : (F.map (fun v : ℤ => (v : ℚ) / 1000)).length = n := by
      rw [List.length_map, hFlen]
    obtain ⟨R1, R2, R3, RG, RV, RD⟩ := ih
      (by rw [hA1, hFlen])
      (by rw [harr1, hF2len])
      (by rw [hA1, harr1])
      (by
        intro v hv
        rw [hA1] at hv
        exact hnn v (hFperm.mem_iff.mp hv))
      (by
        intro v hv
        rw [hA1] at hv
        exact hmax v (hFperm.mem_iff.mp hv))
      (by omega)
      (by
        rw [hA1, hFdef]
        exact sorted_flatten_buckets A exp hexp hnn hs)
    refine ⟨?_, R2, R3, ?_, ?_, ?_⟩
    · refine R1.trans ?_
      rw [hA1]
      exact hFperm
    · exact goodTrace_append (goodTrace_append BG WG) RG
    · intro s hs'
      simp only [stepsOf, List.map_append, List.mem_append] at hs'
      rcases hs' with (hs' | hs') | hs'
      · obtain ⟨k, hk, hke⟩ := BV s hs'
        rw [hke]
        simp only [validStep, Bool.and_eq_true, decide_eq_true_eq]
        exact ⟨⟨by omega, by omega⟩, trivial⟩
      · have := WV s hs'
        rwa [harr] at this
      · exact RV s hs'
    · intro hmem
      simp only [stepsOf, List.map_append, List.mem_append] at hmem
      rcases hmem with (hmem | hmem) | hmem
      · obtain ⟨k, hk, hke⟩ := BV Step.done hmem
        exact Step.noConfusion hke
      · exact WD hmem
      · exact RD hmem
  | case2 A arr exp h =>
    intro hA harr hsync hnn hmax hexp hs
    rw [radixLoop, dif_neg h]
    have hmxlt : mx < exp := by
      by_contra hc
      push_neg at hc
      have h1 : (1 : ℤ) ≤ mx / exp := by
        rw [Int.le_ediv_iff_mul_le hexp]
        omega
      have hfd : Int.fdiv mx exp = mx / exp := Int.fdiv_eq_ediv mx (by omega)
      rw [hfd] at h
      omega
    refine ⟨List.Perm.refl A, hsync, ?_, goodTrace_nil arr, ?_, ?_⟩
    · refine List.Pairwise.imp_of_mem ?_ hs
      intro u v hu hv huv
      have hu' : u % exp = u := Int.emod_eq_of_lt (hnn u hu) (by have := hmax u hu; omega)
      have hv' : v % exp = v := Int.emod_eq_of_lt (hnn v hv) (by have := hmax v hv; omega)
      rwa [hu', hv'] at huv
    · intro s hs'
      simp [stepsOf] at hs'
    · simp [stepsOf]

/-- Full correctness of `radixGen` on exact inputs: when every element is a
nonnegative integer multiple of `1/1000` (so scaling loses nothing), the run
sorts the array into a permutation of the input with a faithful trace. -/
theorem radixGen_exact_ok (arr : List Val)
    (hex : ∀ x ∈ arr, ∃ k : ℕ, x = (k : ℚ) / 1000) : GenOk arr (radixGen arr) := by
  have hval : ∀ x ∈ arr, (⌊x * 1000⌋ : ℚ) / 1000 = x ∧ 0 ≤ ⌊x * 1000⌋ := by
    intro x hx
    obtain ⟨k, rfl⟩ := hex x hx
    have hk : (k : ℚ) / 1000 * 1000 = (k : ℚ) := div_mul_cancel₀ _ (by norm_num)
    rw [hk, Int.floor_natCast]
    constructor
    · rfl
    · positivity
  have hsync : arr = (arr.map (fun x => ⌊x * 1000⌋)).map (fun v : ℤ => (v : ℚ) / 1000) := by
    rw [List.map_map]
    have hc : ∀ x ∈ arr, ((fun v : ℤ => (v : ℚ) / 1000) ∘ (fun x => ⌊x * 1000⌋)) x = x :=
      fun x hx => (hval x hx).1
    rw [List.map_congr_left hc]
    exact (List.map_id' arr).symm
  have hnn : ∀ v ∈ arr.map (fun x => ⌊x * 1000⌋), 0 ≤ v := by
    intro v hv
    obtain ⟨x, hx, hxe⟩ := List.mem_map.mp hv
    rw [← hxe]
    exact (hval x hx).2
  have hmax : ∀ v ∈ arr.map (fun x => ⌊x * 1000⌋),
      v ≤ maxOf (arr.map (fun x => ⌊x * 1000⌋)) := fun v hv => le_maxOf hv
  have hs1 : List.Pairwise (fun u v : ℤ => u % 1 ≤ v % 1)
      (arr.map (fun x => ⌊x * 1000⌋)) := by
    refine List.pairwise_iff_getElem.mpr ?_
    intro p q hp hq hpq
    simp [Int.emod_one]
  obtain ⟨R1, R2, R3, RG, RV, RD⟩ :=
    radixLoop_spec arr.length (maxOf (arr.map (fun x => ⌊x * 1000⌋)))
      (arr.map (fun x => ⌊x * 1000⌋)) arr 1 (List.length_map arr _) rfl hsync hnn hmax
      (by norm_num) hs1
  refine genOk_of_parts ?_ ?_ RG RV RD
  · rw [R2]
    unfold NonDecr
    refine List.Pairwise.map _ ?_ R3
    intro u v huv
    have : (u : ℚ) ≤ (v : ℚ) := Int.cast_le.mpr huv
    exact div_le_div_of_nonneg_right this (by norm_num)
  · rw [R2]
    conv_rhs => rw [hsync]
    exact R1.map _

/-- When every element scales to a nonpositive integer, the digit loop of
`radixGen` never runs: the array is untouched and only `done` is yielded. -/
theorem radixGen_nonpos (arr : List Val) (h : ∀ x ∈ arr, ⌊x * 1000⌋ ≤ 0) :
    (radixGen arr).1 = arr ∧ stepsOf (radixGen arr).2 = [Step.done] := by
  have hmz : maxOf (arr.map (fun x => ⌊x * 1000⌋)) = 0 := by
    refine maxOf_nonpos ?_
    intro v hv
    obtain ⟨x, hx, hxe⟩ := List.mem_map.mp hv
    rw [← hxe]
    exact h x hx
  have hloop : radixLoop arr.length (maxOf (arr.map (fun x => ⌊x * 1000⌋)))
      (arr.map (fun x => ⌊x * 1000⌋)) arr 1 = (arr.map (fun x => ⌊x * 1000⌋), arr, []) := by
    rw [radixLoop, dif_neg]
    rw [hmz, Int.zero_fdiv]
    omega
  rw [radixGen, hloop]
  exact ⟨rfl, rfl⟩

theorem flatten_length_set_append (v : ℤ) : ∀ (bs : List (List ℤ)) (k : ℕ), k < bs.length →
    ((bs.set k ((bs.getD k []) ++ [v])).flatten).length = bs.flatten.length + 1 := by
  intro bs
  induction bs with
  | nil =>
    intro k hk
    simp at hk
  | cons b rest ih =>
    intro k hk
    cases k with
    | zero =>
      have he : (b :: rest).set 0 (((b :: rest).getD 0 []) ++ [v]) = (b ++ [v]) :: rest := rfl
      rw [he]
      simp only [List.flatten_cons, List.length_append, List.length_cons, List.length_nil]
      omega
    | succ k =>
      have he : (b :: rest).set (k + 1) (((b :: rest).getD (k + 1) []) ++ [v]) =
          b :: rest.set k ((rest.getD k []) ++ [v]) := rfl
      rw [he]
      simp only [List.flatten_cons, List.length_append]
      have := ih k (by simpa using Nat.lt_of_succ_lt_succ hk)
      omega

theorem flatten_length_pushBucket (bs : List (List ℤ)) (d v : ℤ) :
    ((pushBucket bs d v).flatten).length ≤ bs.flatten.length + 1 := by
  unfold pushBucket
  split
  · next h =>
    rw [flatten_length_set_append v bs _ h.2]
  · omega

/-- Trace facts of the bucketing loop that need no assumption on the values:
the buckets grow by at most one element per iteration, the trace leaves the
working array untouched, and every step is a single-index compare below `n`. -/
theorem bucketLoop_trace (A : List ℤ) (n : ℕ) (exp : ℤ) (arr : List Val) :
    ∀ (i : ℕ) (bs : List (List ℤ)),
    ((bucketLoop A n exp arr i bs).1.flatten).length ≤ bs.flatten.length + (n - i) ∧
    GoodTrace arr (bucketLoop A n exp arr i bs).2 arr ∧
    (∀ s ∈ stepsOf (bucketLoop A n exp arr i bs).2, ∃ k : ℕ, k < n ∧
      s = Step.compare (k : ℕ) none) := by
  intro i bs
  induction i, bs using bucketLoop.induct A n exp arr with
  | case1 i bs h ih =>
    obtain ⟨L, G, V⟩ := ih
    rw [bucketLoop, dif_pos h]
    dsimp only
    refine ⟨?_, goodTrace_cons rfl G, ?_⟩
    · have := flatten_length_pushBucket bs (digitOf (A.getD i 0) exp) (A.getD i 0)
      omega
    · intro s hs
      simp only [stepsOf, List.map_cons, List.mem_cons] at hs
      rcases hs with hs | hs
      · exact ⟨i, h, hs⟩
      · exact V s hs
  | case2 i bs h =>
    rw [bucketLoop, dif_neg h]
    dsimp only
    refine ⟨by omega, goodTrace_nil arr, ?_⟩
    intro s hs
    simp [stepsOf] at hs

/-- Trace facts of the radix main loop for arbitrary inputs: the working
array keeps its length, the trace is chained, every step is valid and no
`done` is emitted inside the loop. -/
theorem radixLoop_trace (n : ℕ) (mx : ℤ) : ∀ (A : List ℤ) (arr : List Val) (exp : ℤ),
    A.length = n → arr.length = n →
    (radixLoop n mx A arr exp).2.1.length = n ∧
    GoodTrace arr (radixLoop n mx A arr exp).2.2 (radixLoop n mx A arr exp).2.1 ∧
    (∀ s ∈ stepsOf (radixLoop n mx A arr exp).2.2, validStep n s = true) ∧
    Step.done ∉ stepsOf (radixLoop n mx A arr exp).2.2 := by
  intro A arr exp
  induction A, arr, exp using radixLoop.induct n mx with
  | case1 A arr exp h ih =>
    intro hA harr
    rw [radixLoop, dif_pos h]
    dsimp only
    obtain ⟨BLe, BG, BV⟩ := bucketLoop_trace A n exp arr 0 (List.replicate 10 [])
    have hble : (bucketLoop A n exp arr 0 (List.replicate 10 [])).1.flatten.length ≤ n := by
      simpa using BLe
    obtain ⟨W1, W2, W3, WG, WV, WD⟩ :=
      writeBuckets_spec (bucketLoop A n exp arr 0 (List.replicate 10 [])).1 A arr 0
        (le_refl 0) (by simp only [Int.toNat_zero, Nat.zero_add]; omega)
        (by rw [harr, hA])
    have hW1len : (writeBuckets A arr 0 (bucketLoop A n exp arr 0 (List.replicate 10 [])).1).1.length = n := by
      rw [W1]
      simp only [Int.toNat_zero, List.take_zero, List.nil_append, Nat.zero_add,
        List.length_append, List.length_drop]
      omega
    have hW2len : (writeBuckets A arr 0
        (bucketLoop A n exp arr 0 (List.replicate 10 [])).1).2.1.length = n := by
      rw [W2]
      simp only [Int.toNat_zero, List.take_zero, List.nil_append, Nat.zero_add,
        List.length_append, List.length_drop, List.length_map]
      omega
    obtain ⟨R1, RG, RV, RD⟩ := ih hW1len hW2len
    refine ⟨R1, goodTrace_append (goodTrace_append BG WG) RG, ?_, ?_⟩
    · intro s hs
      simp only [stepsOf, List.map_append, List.mem_append] at hs
      rcases hs with (hs | hs) | hs
      · obtain ⟨k, hk, hke⟩ := BV s hs
        rw [hke]
        simp only [validStep, Bool.and_eq_true, decide_eq_true_eq]
        exact ⟨⟨by omega, by omega⟩, trivial⟩
      · have := WV s hs
        rwa [harr] at this
      · exact RV s hs
    · intro hmem
      simp only [stepsOf, List.map_append, List.mem_append] at hmem
      rcases hmem with (hmem | hmem) | hmem
      · obtain ⟨k, hk, hke⟩ := BV Step.done hmem
        exact Step.noConfusion hke
      · exact WD hmem
      · exact RD hmem
  | case2 A arr exp h =>
    intro hA harr
    rw [radixLoop, dif_neg h]
    refine ⟨harr, goodTrace_nil arr, ?_, ?_⟩
    · intro s hs
      simp [stepsOf] at hs
    · simp [stepsOf]

/-- Done-discipline and trace facts shared by every generator's final shape
`body ++ [(done, fin)]`. -/
theorem doneOk_of_parts {arr fin : List Val} {body : Trace}
    (hg : GoodTrace arr body fin)
    (hv : ∀ s ∈ stepsOf body, validStep arr.length s = true)
    (hd : Step.done ∉ stepsOf body) :
    GoodTrace arr (body ++ [(Step.done, fin)]) fin ∧
    (∀ s ∈ stepsOf (body ++ [(Step.done, fin)]), validStep arr.length s = true) ∧
    (stepsOf (body ++ [(Step.done, fin)])).count Step.done = 1 ∧
    (stepsOf (body ++ [(Step.done, fin)])).getLast? = some Step.done := by
  refine ⟨?_, ?_, ?_, ?_⟩
  · refine goodTrace_append hg ?_
    exact ⟨⟨rfl, trivial⟩, rfl⟩
  · intro s hsm
    simp only [stepsOf, List.map_append, List.mem_append, List.map_cons] at hsm
    rcases hsm with hsm | hsm
    · exact hv s hsm
    · simp only [List.map_nil, List.mem_singleton] at hsm
      rw [hsm]
      rfl
  · simp only [stepsOf, List.map_append, List.count_append, List.map_cons, List.map_nil]
    have hz : List.count Step.done (List.map Prod.fst body) = 0 := by
      rw [List.count_eq_zero_of_not_mem]
      exact hd
    rw [hz]
    rfl
  · simp only [stepsOf, List.map_append, List.map_cons, List.map_nil]
    exact List.getLast?_concat _

/-- The trace bundle of `radixGen` for arbitrary inputs. -/
theorem radixGen_trace_ok (arr : List Val) :
    GoodTrace arr (radixGen arr).2 (radixGen arr).1 ∧
    (∀ s ∈ stepsOf (radixGen arr).2, validStep arr.length s = true) ∧
    (stepsOf (radixGen arr).2).count Step.done = 1 ∧
    (stepsOf (radixGen arr).2).getLast? = some Step.done := by
  obtain ⟨R1, RG, RV, RD⟩ :=
    radixLoop_trace arr.length (maxOf (arr.map (fun x => ⌊x * 1000⌋)))
      (arr.map (fun x => ⌊x * 1000⌋)) arr 1 (List.length_map arr _) rfl
  exact doneOk_of_parts RG RV RD

/-! ### The faulting path of `radixGen` (negative scaled values)

A negative scaled value makes the bucket index `Math.floor((A[i] / exp) % 10)`
negative; `buckets[d]` is then `undefined`, and `buckets[d].push(A[i])`
(algos.js line 154) throws a TypeError, so the generator terminates without
ever yielding `done`.  The following error-aware embedding returns `none`
exactly on that path, paired with the steps emitted before the throw;
`pushBucket` above is its projection to the runs that never throw. -/

/-- `buckets[d].push(v)` with its error path (algos.js line 154): `none`
models the TypeError thrown when `d` is not the index of one of the ten
buckets. -/
def pushBucketE (bs : List (List ℤ)) (d : ℤ) (v : ℤ) : Option (List (List ℤ)) :=
  if 0 ≤ d ∧ d.toNat < bs.length then
    some (bs.set d.toNat ((bs.getD d.toNat []) ++ [v]))
  else none

/-- The bucketing loop with its error path (algos.js lines 151-155).  The
`compare` of the faulting element is still emitted, because the source
yields it before evaluating the push that throws. -/
def bucketLoopE (A : List ℤ) (n : ℕ) (exp : ℤ) (arr : List Val) (i : ℕ)
    (bs : List (List ℤ)) : Option (List (List ℤ)) × Trace :=
  if h : i < n then
    match pushBucketE bs (digitOf (A.getD i 0) exp) (A.getD i 0) with
    | none => (none, [(Step.compare (i : ℕ) none, arr)])
    | some bs1 =>
      ((bucketLoopE A n exp arr (i + 1) bs1).1,
        (Step.compare (i : ℕ) none, arr) :: (bucketLoopE A n exp arr (i + 1) bs1).2)
  else (some bs, [])
termination_by n - i

/-- The radix main loop with its error path (algos.js lines 149-165): a
TypeError during bucketing aborts the whole run, keeping the steps emitted
before the throw. -/
def radixLoopE (n : ℕ) (mx : ℤ) (A : List ℤ) (arr : List Val) (exp : ℤ) :
    Option (List ℤ × List Val) × Trace :=
  if h : 0 < Int.fdiv mx exp then
    match (bucketLoopE A n exp arr 0 (List.replicate 10 [])).1 with
    | none => (none, (bucketLoopE A n exp arr 0 (List.replicate 10 [])).2)
    | some bs =>
      ((radixLoopE n mx (writeBuckets A arr 0 bs).1 (writeBuckets A arr 0 bs).2.1
          (exp * 10)).1,
        (bucketLoopE A n exp arr 0 (List.replicate 10 [])).2 ++
          (writeBuckets A arr 0 bs).2.2.2 ++
          (radixLoopE n mx (writeBuckets A arr 0 bs).1 (writeBuckets A arr 0 bs).2.1
            (exp * 10)).2)
  else (some (A, arr), [])
termination_by (Int.fdiv mx exp).toNat
decreasing_by
  rcases Int.lt_trichotomy exp 0 with hneg | hz | hpos
  · rcases Int.lt_trichotomy mx 0 with hmneg | hmz | hmpos
    · obtain ⟨m, rfl⟩ := Int.eq_negSucc_of_lt_zero hmneg
      obtain ⟨p, rfl⟩ := Int.eq_negSucc_of_lt_zero hneg
      have hexp10 : Int.negSucc p * 10 = Int.negSucc (10 * p + 9) := by
        rw [Int.negSucc_eq, Int.negSucc_eq]
        push_cast
        ring
      rw [hexp10]
      have e1 : Int.fdiv (Int.negSucc m) (Int.negSucc p) = (((m + 1) / (p + 1) : ℕ) : ℤ) := rfl
      have e2 : Int.fdiv (Int.negSucc m) (Int.negSucc (10 * p + 9)) =
          (((m + 1) / (10 * p + 9 + 1) : ℕ) : ℤ) := rfl
      rw [e1] at h
      rw [e1, e2]
      have hq : (m + 1) / (10 * p + 9 + 1) = (m + 1) / (p + 1) / 10 := by
        rw [Nat.div_div_eq_div_mul]
        congr 1
        omega
      have hq1 : 1 ≤ (m + 1) / (p + 1) := by
        by_contra hc
        have h0 : (m + 1) / (p + 1) = 0 := by omega
        rw [h0] at h
        simp at h
      omega
    · subst hmz
      rw [Int.zero_fdiv] at h
      exact absurd h (by omega)
    · have := Int.fdiv_nonpos (le_of_lt hmpos) (le_of_lt hneg)
      exact absurd h (by omega)
  · subst hz
    rw [Int.fdiv_zero] at h
    exact absurd h (by omega)
  · have he1 : Int.fdiv mx exp = mx / exp := Int.fdiv_eq_ediv mx (le_of_lt hpos)
    have he2 : Int.fdiv mx (exp * 10) = mx / (exp * 10) := Int.fdiv_eq_ediv mx (by omega)
    have hdd : mx / (exp * 10) = mx / exp / 10 := (ediv_ediv hpos (by norm_num)).symm
    rw [he1] at h
    rw [he1, he2, hdd]
    omega

/-- The `radixGen` generator with its error path (algos.js lines 141-168):
when the run throws, no `done` is ever yielded. -/
def radixGenE (arr : List Val) : Option (List Val) × Trace :=
  match (radixLoopE arr.length (maxOf (arr.map (fun x => ⌊x * 1000⌋)))
      (arr.map (fun x => ⌊x * 1000⌋)) arr 1).1 with
  | none => (none, (radixLoopE arr.length (maxOf (arr.map (fun x => ⌊x * 1000⌋)))
      (arr.map (fun x => ⌊x * 1000⌋)) arr 1).2)
  | some p =>
    (some p.2, (radixLoopE arr.length (maxOf (arr.map (fun x => ⌊x * 1000⌋)))
        (arr.map (fun x => ⌊x * 1000⌋)) arr 1).2 ++ [(Step.done, p.2)])

/-- When every digit lands in one of the ten buckets, the error-aware
bucketing loop never throws and coincides with `bucketLoop`. -/
theorem bucketLoopE_eq (A : List ℤ) (n : ℕ) (exp : ℤ) (arr : List Val)
    (hA : A.length = n)
    (hd : ∀ v ∈ A, 0 ≤ digitOf v exp ∧ digitOf v exp < 10) :
    ∀ (i : ℕ) (bs : List (List ℤ)), bs.length = 10 →
    bucketLoopE A n exp arr i bs =
      (some (bucketLoop A n exp arr i bs).1, (bucketLoop A n exp arr i bs).2) := by
  intro i bs
  induction i, bs using bucketLoopE.induct A n exp arr with
  | case1 i bs h heq =>
    intro hbs
    have hi : i < A.length := by omega
    have hvA : A.getD i 0 ∈ A := by
      rw [List.getD_eq_getElem?_getD, List.getElem?_eq_getElem hi]
      exact List.getElem_mem hi
    obtain ⟨hd0, hd10⟩ := hd _ hvA
    rw [pushBucketE, if_pos ⟨hd0, by omega⟩] at heq
    exact Option.noConfusion heq
  | case2 i bs h bs1 heq ih =>
    intro hbs
    have hi : i < A.length := by omega
    have hvA : A.getD i 0 ∈ A := by
      rw [List.getD_eq_getElem?_getD, List.getElem?_eq_getElem hi]
      exact List.getElem_mem hi
    obtain ⟨hd0, hd10⟩ := hd _ hvA
    have heq1 := heq
    rw [pushBucketE, if_pos ⟨hd0, by omega⟩] at heq1
    have hpush : pushBucket bs (digitOf (A.getD i 0) exp) (A.getD i 0) = bs1 := by
      rw [pushBucket, if_pos ⟨hd0, by omega⟩]
      exact Option.some.inj heq1
    have hlen1 : bs1.length = 10 := by
      rw [← hpush, pushBucket, if_pos ⟨hd0, by omega⟩, List.length_set, hbs]
    have IH := ih hlen1
    rw [bucketLoopE.eq_def, dif_pos h, heq]
    dsimp only
    rw [bucketLoop, dif_pos h]
    dsimp only
    rw [hpush, IH]
  | case3 i bs h =>
    intro hbs
    rw [bucketLoopE.eq_def, dif_neg h, bucketLoop, dif_neg h]

/-- On a nonnegative scaled array every digit is in range, so the error-aware
radix loop never throws and coincides with `radixLoop`. -/
theorem radixLoopE_eq (n : ℕ) (mx : ℤ) : ∀ (A : List ℤ) (arr : List Val) (exp : ℤ),
    A.length = n → arr.length = n → 0 < exp → (∀ v ∈ A, 0 ≤ v) →
    radixLoopE n mx A arr exp =
      (some ((radixLoop n mx A arr exp).1, (radixLoop n mx A arr exp).2.1),
        (radixLoop n mx A arr exp).2.2) := by
  intro A arr exp
  induction A, arr, exp using radixLoopE.induct n mx with
  | case1 A arr exp h heq =>
    intro hA harr hexp hnn
    have hdr : ∀ v ∈ A, 0 ≤ digitOf v exp ∧ digitOf v exp < 10 := by
      intro v hv
      rw [digitOf_eq (hnn v hv) hexp]
      exact ⟨Int.emod_nonneg _ (by norm_num), Int.emod_lt_of_pos _ (by norm_num)⟩
    have hble := bucketLoopE_eq A n exp arr hA hdr 0 (List.replicate 10 []) (by simp)
    rw [hble] at heq
    simp at heq
  | case2 A arr exp h bs heq ih =>
    intro hA harr hexp hnn
    have hdr : ∀ v ∈ A, 0 ≤ digitOf v exp ∧ digitOf v exp < 10 := by
      intro v hv
      rw [digitOf_eq (hnn v hv) hexp]
      exact ⟨Int.emod_nonneg _ (by norm_num), Int.emod_lt_of_pos _ (by norm_num)⟩
    have hble := bucketLoopE_eq A n exp arr hA hdr 0 (List.replicate 10 []) (by simp)
    have heq1 := heq
    rw [hble] at heq1
    dsimp only at heq1
    have hbseq : bs = (bucketLoop A n exp arr 0 (List.replicate 10 [])).1 :=
      (Option.some.inj heq1).symm
    subst hbseq
    obtain ⟨BL, BB, BG, BV⟩ :=
      bucketLoop_spec A n exp arr hA hdr 0 (List.replicate 10 []) (by simp)
    have hbs : (bucketLoop A n exp arr 0 (List.replicate 10 [])).1 =
        (List.range 10).map
          (fun d : ℕ => A.filter (fun v => decide (digitOf v exp = (d : ℤ)))) := by
      apply List.ext_getElem
      · rw [BL]
        simp
      · intro d h1 h2
        have hd10 : d < 10 := by rw [BL] at h1; exact h1
        have hB := BB d hd10
        rw [List.getD_eq_getElem?_getD, List.getElem?_eq_getElem h1] at hB
        simp only [Option.getD_some] at hB
        rw [hB]
        simp only [List.getElem_map, List.getElem_range]
        rw [List.drop_zero]
        have hrep : (List.replicate 10 ([] : List ℤ)).getD d [] = [] := by
          rw [List.getD_eq_getElem?_getD, List.getElem?_replicate, if_pos hd10]
          rfl
        rw [hrep, List.nil_append]
    set F := (((List.range 10).map
      (fun d : ℕ => A.filter (fun v => decide (digitOf v exp = (d : ℤ))))).flatten)
      with hFdef
    have hFperm : List.Perm F A := perm_flatten_buckets A exp hdr
    have hFlen : F.length = n := by rw [hFperm.length_eq, hA]
    obtain ⟨W1, W2, W3, WG, WV, WD⟩ :=
      writeBuckets_spec (bucketLoop A n exp arr 0 (List.replicate 10 [])).1 A arr 0
        (le_refl 0)
        (by rw [hbs, ← hFdef, hFlen, hA]; simp)
        (by rw [harr, hA])
    have hA1 : (writeBuckets A arr 0 (bucketLoop A n exp arr 0 (List.replicate 10 [])).1).1
        = F := by
      rw [W1, hbs, ← hFdef]
      simp only [Int.toNat_zero, List.take_zero, List.nil_append, Nat.zero_add]
      rw [hFlen, ← hA, List.drop_length, List.append_nil]
    have harr1 : (writeBuckets A arr 0
        (bucketLoop A n exp arr 0 (List.replicate 10 [])).1).2.1
        = F.map (fun v : ℤ => (v : ℚ) / 1000) := by
      rw [W2, hbs, ← hFdef]
      simp only [Int.toNat_zero, List.take_zero, List.nil_append, Nat.zero_add]
      rw [hFlen, ← harr, List.drop_length, List.append_nil]
    have IH := ih (by rw [hA1, hFlen]) (by rw [harr1, List.length_map, hFlen]) (by omega)
      (by
        intro v hv
        rw [hA1] at hv
        exact hnn v (hFperm.mem_iff.mp hv))
    rw [radixLoopE.eq_def, dif_pos h, hble]
    dsimp only
    rw [radixLoop, dif_pos h]
    dsimp only
    rw [IH]
  | case3 A arr exp h =>
    intro hA harr hexp hnn
    rw [radixLoopE.eq_def, dif_neg h, radixLoop, dif_neg h]

/-- On an array of nonnegative values the run never throws: the error-aware
generator agrees with `radixGen`. -/
theorem radixGenE_eq (arr : List Val) (h : ∀ x ∈ arr, 0 ≤ x) :
    radixGenE arr = (some (radixGen arr).1, (radixGen arr).2) := by
  have hnn : ∀ v ∈ arr.map (fun x => ⌊x * 1000⌋), 0 ≤ v := by
    intro v hv
    obtain ⟨x, hx, hxe⟩ := List.mem_map.mp hv
    rw [← hxe]
    exact Int.floor_nonneg.mpr (mul_nonneg (h x hx) (by norm_num))
  have hle := radixLoopE_eq arr.length (maxOf (arr.map (fun x => ⌊x * 1000⌋)))
    (arr.map (fun x => ⌊x * 1000⌋)) arr 1 (List.length_map arr _) rfl (by norm_num) hnn
  rw [radixGenE.eq_def, hle]
  dsimp only
  rw [radixGen]

/-! ## The claims -/

/-- Recogniser for `set` steps. -/
def isSet : Step → Bool
  | Step.set _ _ => true
  | _ => false

/-- Claim C1, counterexample: driving `radixGen` to exhaustion on the input
`[1/5000, 1/10000]` (values below the fixed 1/1000 resolution) leaves the
array unchanged, hence not non-decreasingly ordered: the radix generator does
not sort every finite array. -/
theorem C1_cex :
    (radixGen [1/5000, 1/10000]).1 = [1/5000, 1/10000] ∧
    ¬ NonDecr (radixGen [1/5000, 1/10000]).1 := by
  have h1 : (radixGen [1/5000, 1/10000]).1 = [1/5000, 1/10000] := by
    refine (radixGen_nonpos [1/5000, 1/10000] ?_).1
    intro x hx
    rcases List.mem_cons.mp hx with rfl | hx
    · have he : (1/5000 : ℚ) * 1000 = 1/5 := by norm_num
      rw [he, Int.floor_eq_zero_iff.mpr (by constructor <;> norm_num)]
    · rcases List.mem_cons.mp hx with rfl | hx
      · have he : (1/10000 : ℚ) * 1000 = 1/10 := by norm_num
        rw [he, Int.floor_eq_zero_iff.mpr (by constructor <;> norm_num)]
      · simp at hx
  refine ⟨h1, ?_⟩
  rw [h1]
  intro hs
  have hs' : List.Pairwise (fun x y : ℚ => x ≤ y) [1/5000, 1/10000] := hs
  have h2 : (1/5000 : ℚ) ≤ 1/10000 :=
    (List.pairwise_cons.mp hs').1 _ (List.mem_cons_self _ _)
  norm_num at h2

/-- Claim C1 (amended): for every finite input array, driving `bubbleGen`,
`quickGen`, `mergeGen` or `heapGen` to exhaustion leaves the shared array
non-decreasingly ordered and a permutation of the input; `radixGen` does the
same for every array whose elements are nonnegative exact multiples of
`1/1000`, the values its fixed scale factor represents exactly. -/
theorem C1_sorted_perm :
    (∀ arr : List Val,
      (NonDecr (bubbleGen arr).1 ∧ List.Perm (bubbleGen arr).1 arr) ∧
      (NonDecr (quickGen arr).1 ∧ List.Perm (quickGen arr).1 arr) ∧
      (NonDecr (mergeGen arr).1 ∧ List.Perm (mergeGen arr).1 arr) ∧
      (NonDecr (heapGen arr).1 ∧ List.Perm (heapGen arr).1 arr)) ∧
    (∀ arr : List Val, (∀ x ∈ arr, ∃ k : ℕ, x = (k : ℚ) / 1000) →
      NonDecr (radixGen arr).1 ∧ List.Perm (radixGen arr).1 arr) := by
  constructor
  · intro arr
    obtain ⟨b1, b2, _⟩ := bubbleGen_ok arr
    obtain ⟨q1, q2, _⟩ := quickGen_ok arr
    obtain ⟨m1, m2, _⟩ := mergeGen_ok arr
    obtain ⟨h1, h2, _⟩ := heapGen_ok arr
    exact ⟨⟨b1, b2⟩, ⟨q1, q2⟩, ⟨m1, m2⟩, ⟨h1, h2⟩⟩
  · intro arr hex
    obtain ⟨r1, r2, _⟩ := radixGen_exact_ok arr hex
    exact ⟨r1, r2⟩

/-- Claim C2: every step descriptor emitted by any of the five generators
carries only indices valid for the working array, both against the input
length and against the recorded state at the moment of emission. -/
theorem C2_index_validity : ∀ arr : List Val,
    ((∀ s ∈ stepsOf (bubbleGen arr).2, validStep arr.length s = true) ∧
      (∀ p ∈ (bubbleGen arr).2, validStep p.2.length p.1 = true)) ∧
    ((∀ s ∈ stepsOf (quickGen arr).2, validStep arr.length s = true) ∧
      (∀ p ∈ (quickGen arr).2, validStep p.2.length p.1 = true)) ∧
    ((∀ s ∈ stepsOf (mergeGen arr).2, validStep arr.length s = true) ∧
      (∀ p ∈ (mergeGen arr).2, validStep p.2.length p.1 = true)) ∧
    ((∀ s ∈ stepsOf (heapGen arr).2, validStep arr.length s = true) ∧
      (∀ p ∈ (heapGen arr).2, validStep p.2.length p.1 = true)) ∧
    ((∀ s ∈ stepsOf (radixGen arr).2, validStep arr.length s = true) ∧
      (∀ p ∈ (radixGen arr).2, validStep p.2.length p.1 = true)) := by
  intro arr
  obtain ⟨_, _, bg, bv, _⟩ := bubbleGen_ok arr
  obtain ⟨_, _, qg, qv, _⟩ := quickGen_ok arr
  obtain ⟨_, _, mg, mv, _⟩ := mergeGen_ok arr
  obtain ⟨_, _, hg, hv, _⟩ := heapGen_ok arr
  obtain ⟨rg, rv, _⟩ := radixGen_trace_ok arr
  exact ⟨⟨bv, valid_states_of bg.1 bv⟩, ⟨qv, valid_states_of qg.1 qv⟩,
    ⟨mv, valid_states_of mg.1 mv⟩, ⟨hv, valid_states_of hg.1 hv⟩,
    ⟨rv, valid_states_of rg.1 rv⟩⟩

/-- Claim C3: for every input, every generator and every `k`, the recorded
working-array state after pulling exactly `k` steps equals the input with
precisely the first `k` reported operations replayed in order (`swap` and
`set` are the only mutating steps; the mutation has already happened when the
step is yielded and nothing unreported ever happens). -/
theorem C3_replay : ∀ (arr : List Val) (k : ℕ),
    stateAfter arr (bubbleGen arr).2 k =
      replay arr ((stepsOf (bubbleGen arr).2).take k) ∧
    stateAfter arr (quickGen arr).2 k =
      replay arr ((stepsOf (quickGen arr).2).take k) ∧
    stateAfter arr (mergeGen arr).2 k =
      replay arr ((stepsOf (mergeGen arr).2).take k) ∧
    stateAfter arr (heapGen arr).2 k =
      replay arr ((stepsOf (heapGen arr).2).take k) ∧
    stateAfter arr (radixGen arr).2 k =
      replay arr ((stepsOf (radixGen arr).2).take k) := by
  intro arr k
  obtain ⟨_, _, bg, _⟩ := bubbleGen_ok arr
  obtain ⟨_, _, qg, _⟩ := quickGen_ok arr
  obtain ⟨_, _, mg, _⟩ := mergeGen_ok arr
  obtain ⟨_, _, hg, _⟩ := heapGen_ok arr
  obtain ⟨rg, _⟩ := radixGen_trace_ok arr
  exact ⟨chained_stateAfter bg.1 k, chained_stateAfter qg.1 k, chained_stateAfter mg.1 k,
    chained_stateAfter hg.1 k, chained_stateAfter rg.1 k⟩

/-- Claim C4, counterexample: on input `[2,1]` the left scan of `quickGen`'s
partition evaluates `arr[i] < pivot` once (the pivot is `arr[0] = 2`, the
inspection count is 1) yet the whole run emits no compare step at all: its
steps are exactly `[swap 0 1, done]`.  A compare is only emitted after a
comparison that passes, never before, and a failing inspection is unreported. -/
theorem C4_cex :
    stepsOf (quickGen [2, 1]).2 = [Step.swap 0 1, Step.done] ∧
    scanLInspections [2, 1] (jsGet [2, 1] (Int.fdiv (0 + 1) 2)) 0 = 1 := by
  constructor
  · simp +decide [quickGen, quickLoop, partLoop, scanL, scanR, jsGet, jsSwap, oLt, oGt,
      Int.fdiv, stepsOf]
  · simp +decide [scanLInspections, jsGet, oLt, Int.fdiv]

/-- Claim C4 (amended): during the left scan of `quickGen`'s partition the
generator emits exactly one single-index compare step per element the scan
advances over (those strictly below the pivot), each emitted after the
comparison it reports, in scan order; the final inspection, the one that
stops the scan, emits no step, so the number of pivot comparisons evaluated
is the number of compare steps plus one. -/
theorem C4_scan_compares : ∀ (a : List Val) (p : Option Val) (i : ℤ),
    stepsOf (scanL a p i).2 =
      (List.range ((scanL a p i).1 - i).toNat).map
        (fun t : ℕ => Step.compare (i + (t : ℤ)) none) ∧
    scanLInspections a p i = (scanL a p i).2.length + 1 ∧
    (∀ k : ℤ, i ≤ k → k < (scanL a p i).1 → oLt (jsGet a k) p = true) ∧
    oLt (jsGet a (scanL a p i).1) p = false := by
  intro a p i
  refine ⟨scanL_trace_shape a p i, scanL_inspections_eq a p i, scanL_passed a p i, ?_⟩
  have := scanL_stopped a p i
  simpa using this

/-- Claim C5, counterexample: the single-element array `[1/500]` does not make
`radixGen` yield only `done`: its scaled value 2 is positive, so the digit
loop runs and the first step yielded is a compare, not `done`. -/
theorem C5_cex :
    (stepsOf (radixGen [1/500]).2).head? = some (Step.compare 0 none) ∧
    stepsOf (radixGen [1/500]).2 ≠ [Step.done] := by
  have hA : ([1/500] : List Val).map (fun x => ⌊x * 1000⌋) = [2] := by
    simp only [List.map_cons, List.map_nil]
    congr 1
    have he : (1/500 : ℚ) * 1000 = 2 := by norm_num
    rw [he]
    norm_num
  have hlen : ([1/500] : List Val).length = 1 := rfl
  have hmx : maxOf [2] = 2 := by decide
  have hhead : (stepsOf (radixGen [1/500]).2).head? = some (Step.compare 0 none) := by
    rw [radixGen, hlen, hA, hmx]
    rw [radixLoop, dif_pos (by decide : 0 < Int.fdiv 2 1)]
    dsimp only
    rw [bucketLoop, dif_pos (by decide : 0 < 1)]
    rfl
  refine ⟨hhead, ?_⟩
  intro hc
  rw [hc] at hhead
  simp at hhead

/-- Claim C5 (amended): on every empty or single-element array the four
comparison generators yield exactly `[done]` and leave the array unchanged;
`radixGen` does so exactly on the arrays whose elements all scale to a
nonpositive integer (in particular on the empty array), and the empty array
through heap sort yields exactly `[done]`. -/
theorem C5_degenerate :
    (∀ arr : List Val, arr.length ≤ 1 →
      ((bubbleGen arr).1 = arr ∧ stepsOf (bubbleGen arr).2 = [Step.done]) ∧
      ((quickGen arr).1 = arr ∧ stepsOf (quickGen arr).2 = [Step.done]) ∧
      ((mergeGen arr).1 = arr ∧ stepsOf (mergeGen arr).2 = [Step.done]) ∧
      ((heapGen arr).1 = arr ∧ stepsOf (heapGen arr).2 = [Step.done])) ∧
    (∀ arr : List Val, (∀ x ∈ arr, ⌊x * 1000⌋ ≤ 0) →
      (radixGen arr).1 = arr ∧ stepsOf (radixGen arr).2 = [Step.done]) ∧
    stepsOf (heapGen []).2 = [Step.done] := by
  refine ⟨?_, ?_, ?_⟩
  · intro arr h
    exact ⟨bubbleGen_short arr h, quickGen_short arr h, mergeGen_short arr h,
      heapGen_short arr h⟩
  · exact radixGen_nonpos
  · exact (heapGen_short [] (by simp)).2

/-- Claim C6, counterexample: on `[-0.0005, 0.5]` the first element scales
to `-1`, whose first-pass digit is `-1`; `buckets[-1]` is undefined, so the
push throws right after the first `compare` and the radix run ends without
ever yielding `done`. -/
theorem C6_cex :
    (radixGenE [-(1/2000), 1/2]).1 = none ∧
    Step.done ∉ stepsOf (radixGenE [-(1/2000), 1/2]).2 := by
  have hA : ([-(1/2000), 1/2] : List Val).map (fun x => ⌊x * 1000⌋) = [-1, 500] := by
    simp only [List.map_cons, List.map_nil]
    congr 1
    · have he : (-(1/2000) : ℚ) * 1000 = -(1/2) := by norm_num
      rw [he]
      norm_num
    · congr 1
      have he : ((1/2 : ℚ)) * 1000 = 500 := by norm_num
      rw [he]
      norm_num
  have hlen : ([-(1/2000), 1/2] : List Val).length = 2 := rfl
  have hmx : maxOf [-1, 500] = 500 := by decide
  have hdig : digitOf (-1) 1 = -1 := by
    unfold digitOf jsMod jsTrunc
    have h1 : ((-1 : ℤ) : ℚ) / ((1 : ℤ) : ℚ) = -1 := by norm_num
    rw [h1]
    have h2 : (-1 : ℚ) / 10 < 0 := by norm_num
    rw [if_pos h2]
    have h3 : ⌈(-1 : ℚ) / 10⌉ = 0 := by
      rw [Int.ceil_eq_zero_iff, Set.mem_Ioc]
      constructor <;> norm_num
    rw [h3]
    norm_num
  have hg0 : ([-1, 500] : List ℤ).getD 0 0 = -1 := rfl
  have hne : ¬ ((0 : ℤ) ≤ -1 ∧
      (-1 : ℤ).toNat < (List.replicate 10 ([] : List ℤ)).length) := by
    intro hcon
    exact absurd hcon.1 (by norm_num)
  have hpush : pushBucketE (List.replicate 10 []) (-1) (-1) = none := by
    rw [pushBucketE, if_neg hne]
  have hbl : bucketLoopE [-1, 500] 2 1 [-(1/2000), 1/2] 0 (List.replicate 10 []) =
      (none, [(Step.compare 0 none, [-(1/2000), 1/2])]) := by
    rw [bucketLoopE.eq_def, dif_pos (by norm_num : (0 : ℕ) < 2), hg0, hdig, hpush]
    rfl
  have hloop : radixLoopE 2 500 [-1, 500] [-(1/2000), 1/2] 1 =
      (none, [(Step.compare 0 none, [-(1/2000), 1/2])]) := by
    rw [radixLoopE.eq_def, dif_pos (by decide : 0 < Int.fdiv 500 1), hbl]
  constructor
  · rw [radixGenE.eq_def, hlen, hA, hmx, hloop]
  · rw [radixGenE.eq_def, hlen, hA, hmx, hloop]
    simp [stepsOf]

/-- Claim C6 (amended): the four comparison generators yield `done` exactly
once and as the last step on every input.  `radixGen` does so on every
array of nonnegative values: there the bucket pushes never throw, the
error-aware run agrees with the total model and ends in a single final
`done`.  On an array with a negative element the first-pass bucket push can
throw before `done` is ever yielded. -/
theorem C6_done_last :
    (∀ arr : List Val,
      ((stepsOf (bubbleGen arr).2).count Step.done = 1 ∧
        (stepsOf (bubbleGen arr).2).getLast? = some Step.done) ∧
      ((stepsOf (quickGen arr).2).count Step.done = 1 ∧
        (stepsOf (quickGen arr).2).getLast? = some Step.done) ∧
      ((stepsOf (mergeGen arr).2).count Step.done = 1 ∧
        (stepsOf (mergeGen arr).2).getLast? = some Step.done) ∧
      ((stepsOf (heapGen arr).2).count Step.done = 1 ∧
        (stepsOf (heapGen arr).2).getLast? = some Step.done)) ∧
    (∀ arr : List Val, (∀ x ∈ arr, 0 ≤ x) →
      (radixGenE arr).1 = some (radixGen arr).1 ∧
      (stepsOf (radixGenE arr).2).count Step.done = 1 ∧
      (stepsOf (radixGenE arr).2).getLast? = some Step.done) := by
  constructor
  · intro arr
    obtain ⟨_, _, _, _, bc, bl⟩ := bubbleGen_ok arr
    obtain ⟨_, _, _, _, qc, ql⟩ := quickGen_ok arr
    obtain ⟨_, _, _, _, mc, ml⟩ := mergeGen_ok arr
    obtain ⟨_, _, _, _, hc, hl⟩ := heapGen_ok arr
    exact ⟨⟨bc, bl⟩, ⟨qc, ql⟩, ⟨mc, ml⟩, ⟨hc, hl⟩⟩
  · intro arr h
    have he := radixGenE_eq arr h
    rw [he]
    obtain ⟨_, _, rc, rl⟩ := radixGen_trace_ok arr
    exact ⟨rfl, rc, rl⟩

/-- Claim C7: each generator is a pure function of its input array, so two
runs on independent copies of the same array produce identical final arrays
and identical step sequences — there is no run-to-run variation (in
particular `quickGen`'s middle-index pivot choice is deterministic). -/
theorem C7_determinism : ∀ a b : List Val, a = b →
    bubbleGen a = bubbleGen b ∧ quickGen a = quickGen b ∧ mergeGen a = mergeGen b ∧
    heapGen a = heapGen b ∧ radixGen a = radixGen b := by
  intro a b h
  rw [h]
  exact ⟨rfl, rfl, rfl, rfl, rfl⟩

/-- Claim C7, witness at the concrete input `[3,1,2]`. -/
theorem C7_witness : ([3, 1, 2] : List Val) = [3, 1, 2] ∧
    (bubbleGen [3, 1, 2] = bubbleGen [3, 1, 2] ∧
      quickGen [3, 1, 2] = quickGen [3, 1, 2] ∧
      mergeGen [3, 1, 2] = mergeGen [3, 1, 2] ∧
      heapGen [3, 1, 2] = heapGen [3, 1, 2] ∧
      radixGen [3, 1, 2] = radixGen [3, 1, 2]) :=
  ⟨rfl, C7_determinism [3, 1, 2] [3, 1, 2] rfl⟩

/-- Claim C8: `[5,3,1,4,2]` through merge sort ends in `[1,2,3,4,5]`; the run
decomposes into the two recursive halves followed by the top-level merge of
the range `[0,4]`, and exactly 5 `set` steps occur during that final merge. -/
theorem C8_merge_scenario :
    (mergeGen [5, 3, 1, 4, 2]).1 = [1, 2, 3, 4, 5] ∧
    stepsOf (mergeGen [5, 3, 1, 4, 2]).2 =
      stepsOf (mergeRun [5, 3, 1, 4, 2] 0 4).2 ++ [Step.done] ∧
    (mergeRun [5, 3, 1, 4, 2] 0 4).2 =
      (mergeRun [5, 3, 1, 4, 2] 0 2).2 ++
        (mergeRun (mergeRun [5, 3, 1, 4, 2] 0 2).1 3 4).2 ++
        (mergePhase (mergeRun (mergeRun [5, 3, 1, 4, 2] 0 2).1 3 4).1 0 2 4).2 ∧
    (stepsOf
      (mergePhase (mergeRun (mergeRun [5, 3, 1, 4, 2] 0 2).1 3 4).1 0 2 4).2).countP
        (fun s => isSet s) = 5 := by
  refine ⟨?_, ?_, ?_, ?_⟩
  · simp +decide [mergeGen, mergeRun, mergePhase, mergeMain, mergeDrainL, mergeDrainR,
      jsSlice, jsSet, geti, Int.fdiv]
  · simp +decide [mergeGen, mergeRun, mergePhase, mergeMain, mergeDrainL, mergeDrainR,
      jsSlice, jsSet, geti, Int.fdiv, stepsOf]
  · simp +decide [mergeRun, mergePhase, mergeMain, mergeDrainL, mergeDrainR,
      jsSlice, jsSet, geti, Int.fdiv]
  · simp +decide [mergeRun, mergePhase, mergeMain, mergeDrainL, mergeDrainR,
      jsSlice, jsSet, geti, Int.fdiv, stepsOf, isSet]

/-- Claim C9: `[3,1,2]` through bubble sort ends in `[1,2,3]`, the first step
is `compare(0,1)`, a `swap(0,1)` occurs, and on every input `bubbleGen` only
ever swaps positions whose values form a strict inversion at the moment of
the swap (equal elements are never exchanged). -/
theorem C9_bubble_scenario :
    (bubbleGen [3, 1, 2]).1 = [1, 2, 3] ∧
    (stepsOf (bubbleGen [3, 1, 2]).2).head? = some (Step.compare 0 (some 1)) ∧
    Step.swap 0 1 ∈ stepsOf (bubbleGen [3, 1, 2]).2 ∧
    (∀ arr : List Val, swapInvOk arr (bubbleGen arr).2 = true) := by
  refine ⟨?_, ?_, ?_, bubbleGen_swapInv⟩
  · simp +decide [bubbleGen, bubbleOuter, bubbleInner, jsGet, jsSwap, oGt]
  · simp +decide [bubbleGen, bubbleOuter, bubbleInner, jsGet, jsSwap, oGt, stepsOf]
  · simp +decide [bubbleGen, bubbleOuter, bubbleInner, jsGet, jsSwap, oGt, stepsOf]

/-- Claim C10: when every element of the input lies in `[0, 1/1000)` — so
every element scales to the integer 0 — `radixGen` yields exactly the single
step `done` and leaves the working array unchanged, sorted or not. -/
theorem C10_radix_noop (arr : List Val) (h : ∀ x ∈ arr, 0 ≤ x ∧ x < 1 / 1000) :
    (radixGen arr).1 = arr ∧ stepsOf (radixGen arr).2 = [Step.done] := by
  refine radixGen_nonpos arr ?_
  intro x hx
  obtain ⟨h0, h1⟩ := h x hx
  have hlt : x * 1000 < 1 := by linarith
  have hge : (0 : ℚ) ≤ x * 1000 := by positivity
  have hfl : ⌊x * 1000⌋ = 0 := by
    rw [Int.floor_eq_zero_iff]
    exact ⟨hge, hlt⟩
  omega

/-- Claim C10, witness at the unsorted concrete input `[1/5000, 1/10000]`. -/
theorem C10_witness :
    (∀ x ∈ ([1/5000, 1/10000] : List Val), 0 ≤ x ∧ x < 1 / 1000) ∧
    ((radixGen [1/5000, 1/10000]).1 = [1/5000, 1/10000] ∧
      stepsOf (radixGen [1/5000, 1/10000]).2 = [Step.done]) :=
  ⟨by norm_num, C10_radix_noop [1/5000, 1/10000] (by norm_num)⟩

end SortViz
